import Mathlib

/-!
Verification of the SQDoc container format engine (`pkg/sqdoc`).

This file gives a shallow embedding, in Lean 4, of the Go source of the
SQDoc binary codec: the document model and its validation, the container
encoder/decoder (header, TOC, CRC32, payload codecs), the formatting
directive, the layout inspector, and the secure envelope's control flow.
Byte buffers are `List Nat` whose elements are byte values; machine
integers are `Nat` (or `Int` for the signed timestamps) with explicit
`% 2^w` where the Go code truncates.  External cryptographic and zlib
primitives, which live outside this repository, enter as explicit
function parameters.
-/

namespace Sqdoc

/-! ## Binary primitives (little-endian codecs of `sqdoc.go`) -/

/-- Little-endian bytes of a `uint16` value. -/
def u16le (v : Nat) : List Nat := [v % 256, v / 2 ^ 8 % 256]

/-- Little-endian bytes of a `uint32` value. -/
def u32le (v : Nat) : List Nat :=
  [v % 256, v / 2 ^ 8 % 256, v / 2 ^ 16 % 256, v / 2 ^ 24 % 256]

/-- Little-endian bytes of a `uint64` value. -/
def u64le (v : Nat) : List Nat :=
  [v % 256, v / 2 ^ 8 % 256, v / 2 ^ 16 % 256, v / 2 ^ 24 % 256,
   v / 2 ^ 32 % 256, v / 2 ^ 40 % 256, v / 2 ^ 48 % 256, v / 2 ^ 56 % 256]

/-- Little-endian bytes of an `int64` value (two's complement, as Go's
`appendI64` does via `uint64(v)`). -/
def i64le (v : Int) : List Nat := u64le (v % (2 ^ 64 : Int)).toNat

/-- The byte of a buffer at index `i` (0 past the end; all call sites in the
source are guarded by length checks). -/
def byteAt (b : List Nat) (i : Nat) : Nat := b.getD i 0

/-- Read a little-endian `uint16` at index `i`. -/
def leU16At (b : List Nat) (i : Nat) : Nat :=
  byteAt b i + 2 ^ 8 * byteAt b (i + 1)

/-- Read a little-endian `uint32` at index `i`. -/
def leU32At (b : List Nat) (i : Nat) : Nat :=
  byteAt b i + 2 ^ 8 * byteAt b (i + 1) + 2 ^ 16 * byteAt b (i + 2) +
    2 ^ 24 * byteAt b (i + 3)

/-- Read a little-endian `uint64` at index `i`. -/
def leU64At (b : List Nat) (i : Nat) : Nat :=
  byteAt b i + 2 ^ 8 * byteAt b (i + 1) + 2 ^ 16 * byteAt b (i + 2) +
    2 ^ 24 * byteAt b (i + 3) + 2 ^ 32 * byteAt b (i + 4) +
    2 ^ 40 * byteAt b (i + 5) + 2 ^ 48 * byteAt b (i + 6) +
    2 ^ 56 * byteAt b (i + 7)

/-- Reinterpret a `uint64` bit pattern as an `int64` (Go's `int64(u)`). -/
def toI64 (u : Nat) : Int := if u < 2 ^ 63 then (u : Int) else (u : Int) - 2 ^ 64

/-- Go's `appendU16`. -/
def appendU16 (dst : List Nat) (v : Nat) : List Nat := dst ++ u16le v

/-- Go's `appendU32`. -/
def appendU32 (dst : List Nat) (v : Nat) : List Nat := dst ++ u32le v

/-- Go's `appendU64`. -/
def appendU64 (dst : List Nat) (v : Nat) : List Nat := dst ++ u64le v

/-- Go's `appendI64`. -/
def appendI64 (dst : List Nat) (v : Int) : List Nat := dst ++ i64le v

/-- Go's `appendString`: u32 byte length then the raw bytes. -/
def appendString (dst : List Nat) (s : List Nat) : List Nat :=
  dst ++ u32le s.length ++ s

/-- Go's `readString`: returns the string bytes and the remaining buffer,
or `none` when fewer bytes remain than declared. -/
def readString (src : List Nat) : Option (List Nat × List Nat) :=
  if src.length < 4 then none
  else
    let ln := leU32At src 0
    let rest := src.drop 4
    if rest.length < ln then none
    else some (rest.take ln, rest.drop ln)

/-- A buffer all of whose elements are byte values. -/
def IsBytes (l : List Nat) : Prop := ∀ x ∈ l, x < 256

instance (l : List Nat) : Decidable (IsBytes l) := by
  unfold IsBytes; infer_instance

/-! ## CRC32 (IEEE, reflected: Go's `crc32.ChecksumIEEE`) -/

/-- One bit step of the reflected CRC32 with the IEEE polynomial. -/
def crc32Step (c : Nat) : Nat :=
  if c % 2 = 1 then (c / 2) ^^^ 0xEDB88320 else c / 2

/-- Iterate the bit step. -/
def crc32Bits : Nat → Nat → Nat
  | 0, c => c
  | n + 1, c => crc32Bits n (crc32Step c)

/-- Fold one byte into the running CRC. -/
def crc32Update (c b : Nat) : Nat := crc32Bits 8 (c ^^^ b % 256)

/-- Go's `crc32.ChecksumIEEE` over a byte buffer. -/
def crc32 (data : List Nat) : Nat :=
  (data.foldl crc32Update 0xFFFFFFFF) ^^^ 0xFFFFFFFF

/-! ## Go's `strings`-style trim used by the password checks -/

/-- Whitespace recognized by the source's `stringsTrim`. -/
def isTrimSpace (c : Nat) : Bool := c = 32 || c = 9 || c = 10 || c = 13

/-- Go's `stringsTrim`: strip leading and trailing spaces, tabs, newlines
and carriage returns. -/
def stringsTrim (s : List Nat) : List Nat :=
  (s.dropWhile isTrimSpace).reverse.dropWhile isTrimSpace |>.reverse

/-! ## UTF-8 validity (Go's `unicode/utf8.Valid`) -/

/-- Is `b` in the closed byte range `lo..hi`? -/
def inRange (b lo hi : Nat) : Bool := lo ≤ b && b ≤ hi

/-- Go's `utf8.Valid`: the buffer is a sequence of well-formed UTF-8
encodings (no overlong forms, no surrogates, max U+10FFFF). -/
def utf8Valid : List Nat → Bool
  | [] => true
  | b0 :: rest =>
    if b0 ≤ 0x7F then utf8Valid rest
    else if 0xC2 ≤ b0 && b0 ≤ 0xDF then
      match rest with
      | b1 :: r => inRange b1 0x80 0xBF && utf8Valid r
      | [] => false
    else if b0 = 0xE0 then
      match rest with
      | b1 :: b2 :: r => inRange b1 0xA0 0xBF && inRange b2 0x80 0xBF && utf8Valid r
      | _ => false
    else if 0xE1 ≤ b0 && b0 ≤ 0xEC then
      match rest with
      | b1 :: b2 :: r => inRange b1 0x80 0xBF && inRange b2 0x80 0xBF && utf8Valid r
      | _ => false
    else if b0 = 0xED then
      match rest with
      | b1 :: b2 :: r => inRange b1 0x80 0x9F && inRange b2 0x80 0xBF && utf8Valid r
      | _ => false
    else if 0xEE ≤ b0 && b0 ≤ 0xEF then
      match rest with
      | b1 :: b2 :: r => inRange b1 0x80 0xBF && inRange b2 0x80 0xBF && utf8Valid r
      | _ => false
    else if b0 = 0xF0 then
      match rest with
      | b1 :: b2 :: b3 :: r =>
        inRange b1 0x90 0xBF && inRange b2 0x80 0xBF && inRange b3 0x80 0xBF && utf8Valid r
      | _ => false
    else if 0xF1 ≤ b0 && b0 ≤ 0xF3 then
      match rest with
      | b1 :: b2 :: b3 :: r =>
        inRange b1 0x80 0xBF && inRange b2 0x80 0xBF && inRange b3 0x80 0xBF && utf8Valid r
      | _ => false
    else if b0 = 0xF4 then
      match rest with
      | b1 :: b2 :: b3 :: r =>
        inRange b1 0x80 0x8F && inRange b2 0x80 0xBF && inRange b3 0x80 0xBF && utf8Valid r
      | _ => false
    else false

/-! ## Error values (`errors.New` / `fmt.Errorf` values of the source) -/

/-- The distinct error values produced by the sqdoc package.  Sentinel
errors keep their source names; `fmt.Errorf`-built errors become
constructors carrying the formatted arguments, and `%w`-wrapping becomes
the `blockErr` constructor. -/
inductive SqErr where
  | invalidMagic
  | unsupportedVer (v : Nat)
  | missingRandomFlag
  | invalidTOC
  | invalidBlockRange
  | overlappingBlocks
  | passwordRequired
  | invalidPassword
  | invalidSecureFile
  | crcMismatch (id : Nat)
  | metadataNotUtf8
  | metadataFontInvalid
  | blockIdReserved (i : Nat)
  | duplicateBlockId (id : Nat)
  | unsupportedBlockKind (k : Nat)
  | textBlockMissingPayload (id : Nat)
  | textBlockNotUtf8 (id : Nat)
  | blockErr (id : Nat) (e : SqErr)
  | invalidRunRange (s e : Nat)
  | zeroLengthRun (s e : Nat)
  | runOutsideText (s e len : Nat)
  | overlappingRuns (s : Nat)
  | zeroFontSize
  | fontFamilyInvalid
  | malformedMetadataAuthor
  | malformedMetadataTitle
  | malformedMetadataTimestamps
  | malformedMetadataSettings
  | malformedFmtBlock
  | malformedFmtEntryLength
  | unsupportedFmtEntrySize
  | malformedFmtEntry
  | malformedTextBlock
  | malformedTextPayload
  | textPayloadNil
  | envelopeErr
  deriving DecidableEq, Repr

instance {ε α : Type _} [DecidableEq ε] [DecidableEq α] : DecidableEq (Except ε α) := by
  intro a b
  cases a <;> cases b
  case error.error x y =>
    exact if h : x = y then .isTrue (by rw [h]) else .isFalse (fun hh => by cases hh; exact h rfl)
  case error.ok x y => exact .isFalse (fun hh => by cases hh)
  case ok.error x y => exact .isFalse (fun hh => by cases hh)
  case ok.ok x y =>
    exact if h : x = y then .isTrue (by rw [h]) else .isFalse (fun hh => by cases hh; exact h rfl)

/-! ## Document model (`sqdoc.go` types) -/

/-- Format constants from the source. -/
def MagicString : List Nat :=
  [0x4B, 0x65, 0x65, 0x70, 0x43, 0x61, 0x6C, 0x6D, 0x41, 0x6E, 0x64,
   0x46, 0x75, 0x63, 0x6B, 0x54, 0x68, 0x65, 0x52, 0x75, 0x73, 0x73,
   0x69, 0x61, 0x6E, 0x73]

def VersionV1 : Nat := 1
def FlagRandomAccess : Nat := 1
def headerSize : Nat := 42
def tocEntSize : Nat := 8 + 1 + 8 + 4 + 4
def styleEntSz : Nat := 8 + 4 + 4 + 1 + 1 + 2 + 4
def styleEntV1 : Nat := 8 + 4 + 4 + 1 + 2 + 4
def metaBlockID : Nat := 0
def fmtBlockID : Nat := 2 ^ 64 - 1

def FontFamilySans : Nat := 0
def FontFamilySerif : Nat := 1
def FontFamilyMonospace : Nat := 2

def BlockKindMetadata : Nat := 0
def BlockKindText : Nat := 1
def BlockKindMedia : Nat := 2
def BlockKindStyle : Nat := 3
def BlockKindScript : Nat := 4

/-- Style attributes of one run. -/
structure StyleAttr where
  Bold : Bool
  Italic : Bool
  Underline : Bool
  Highlight : Bool
  FontFamily : Nat
  FontSizePt : Nat
  ColorRGBA : Nat
  deriving DecidableEq, Repr

/-- One style run: a half-open byte range plus attributes. -/
structure StyleRun where
  Start : Nat
  End : Nat
  Attr : StyleAttr
  deriving DecidableEq, Repr

/-- A text block: raw UTF-8 bytes plus style runs. -/
structure TextBlock where
  UTF8 : List Nat
  Runs : List StyleRun
  deriving DecidableEq, Repr

/-- A document block. -/
structure Block where
  ID : Nat
  Kind : Nat
  Text : Option TextBlock
  deriving DecidableEq, Repr

/-- Document metadata. -/
structure Metadata where
  Author : List Nat
  Title : List Nat
  CreatedUnix : Int
  ModifiedUnix : Int
  PagedMode : Bool
  ParagraphGap : Nat
  PreferredFontFamily : Nat
  deriving DecidableEq, Repr

/-- The root document aggregate. -/
structure Document where
  Metadata : Metadata
  Blocks : List Block
  deriving DecidableEq, Repr

/-- A denormalized style run tagged with its block, used by the
formatting-directive payload. -/
structure FormattingDirectiveEntry where
  BlockID : Nat
  Start : Nat
  End : Nat
  Attr : StyleAttr
  deriving DecidableEq, Repr

/-- One parsed TOC entry. -/
structure tocEntry where
  ID : Nat
  Kind : Nat
  Offset : Nat
  Length : Nat
  CRC32 : Nat
  deriving DecidableEq, Repr

/-- The detailed result of encoding (`encodeResult` in the source). -/
structure encodeResult where
  Blob : List Nat
  Entries : List tocEntry
  TOCOffset : Nat
  TOCLength : Nat
  deriving DecidableEq, Repr

/-- One labeled segment of the byte layout. -/
structure LayoutSegment where
  Name : String
  Kind : Nat
  BlockID : Nat
  Offset : Nat
  Length : Nat
  deriving DecidableEq, Repr

/-- The full layout description returned by `InspectLayout`. -/
structure LayoutInfo where
  HeaderLength : Nat
  IndexOffset : Nat
  IndexLength : Nat
  FileSize : Nat
  Segments : List LayoutSegment
  deriving DecidableEq, Repr

/-- An in-flight payload with identity (`payloadEntry` in the source). -/
structure payloadEntry where
  ID : Nat
  Kind : Nat
  Payload : List Nat
  deriving DecidableEq, Repr

/-- Go's `isValidFontFamily`. -/
def isValidFontFamily (f : Nat) : Bool :=
  f = FontFamilySans || f = FontFamilySerif || f = FontFamilyMonospace

/-- Go's `normalizeFontFamily`. -/
def normalizeFontFamily (f : Nat) : Nat :=
  if isValidFontFamily f then f else FontFamilySans

/-! ## Validation (`Validate`, `validateRuns`) -/

/-- The lax total order corresponding to `validateRuns`'s sort comparator
(sort by `Start`, ties by `End`). -/
def runLe (a b : StyleRun) : Bool :=
  decide (a.Start < b.Start ∨ (a.Start = b.Start ∧ a.End ≤ b.End))

/-- The linear scan of `validateRuns` over the sorted run list.  `lastEnd`
is `none` for the first run (Go skips the overlap comparison at `i = 0`). -/
def checkRuns (txtLen : Nat) : Option Nat → List StyleRun → Option SqErr
  | _, [] => none
  | lastEnd, r :: rs =>
    if r.Start > r.End then some (.invalidRunRange r.Start r.End)
    else if r.Start = r.End ∧ ¬(txtLen = 0 ∧ r.Start = 0) then
      some (.zeroLengthRun r.Start r.End)
    else if r.End > txtLen then some (.runOutsideText r.Start r.End txtLen)
    else if (match lastEnd with | some le2 => decide (r.Start < le2) | none => false) then
      some (.overlappingRuns r.Start)
    else if r.Attr.FontSizePt = 0 then some .zeroFontSize
    else if ¬ isValidFontFamily r.Attr.FontFamily then some .fontFamilyInvalid
    else checkRuns txtLen (some r.End) rs

/-- Go's `validateRuns`: sorts a copy of the runs by `(Start, End)` and
scans it; the caller's run order is untouched. -/
def validateRuns (tb : TextBlock) : Option SqErr :=
  checkRuns tb.UTF8.length none (tb.Runs.mergeSort runLe)

/-- The per-block loop of `Validate`, carrying the set of already seen IDs
and the block index. -/
def validateBlocks (seen : List Nat) (i : Nat) : List Block → Option SqErr
  | [] => none
  | b :: bs =>
    if b.ID = 0 ∨ b.ID = fmtBlockID then some (.blockIdReserved i)
    else if b.ID ∈ seen then some (.duplicateBlockId b.ID)
    else if b.Kind ≠ BlockKindText then some (.unsupportedBlockKind b.Kind)
    else
      match b.Text with
      | none => some (.textBlockMissingPayload b.ID)
      | some tb =>
        if ¬ utf8Valid tb.UTF8 then some (.textBlockNotUtf8 b.ID)
        else
          match validateRuns tb with
          | some e => some (.blockErr b.ID e)
          | none => validateBlocks (b.ID :: seen) (i + 1) bs

/-- Go's `Validate` (the `doc == nil` branch has no counterpart: the model
passes documents by value). -/
def Validate (doc : Document) : Option SqErr :=
  if ¬ utf8Valid doc.Metadata.Author ∨ ¬ utf8Valid doc.Metadata.Title then
    some .metadataNotUtf8
  else if ¬ isValidFontFamily doc.Metadata.PreferredFontFamily then
    some .metadataFontInvalid
  else validateBlocks [] 0 doc.Blocks

/-! ## Metadata payload codec -/

/-- Go's `encodeMetadata`. -/
def encodeMetadata (m : Metadata) : List Nat :=
  let out := appendString [] m.Author
  let out := appendString out m.Title
  let out := appendI64 out m.CreatedUnix
  let out := appendI64 out m.ModifiedUnix
  let flags : Nat := if m.PagedMode then 1 else 0
  let out := out ++ [flags]
  let out := appendU16 out m.ParagraphGap
  out ++ [normalizeFontFamily m.PreferredFontFamily]

/-- Go's `decodeMetadata`, including the backward-compatibility seam for
payloads that end right after the two timestamps. -/
def decodeMetadata (b : List Nat) : Except SqErr Metadata :=
  match readString b with
  | none => .error .malformedMetadataAuthor
  | some (author, b1) =>
    match readString b1 with
    | none => .error .malformedMetadataTitle
    | some (title, b2) =>
      if b2.length < 16 then .error .malformedMetadataTimestamps
      else
        let created := toI64 (leU64At b2 0)
        let modified := toI64 (leU64At b2 8)
        let b3 := b2.drop 16
        if b3.length = 0 then
          .ok ⟨author, title, created, modified, false, 8, FontFamilySans⟩
        else if b3.length < 4 then .error .malformedMetadataSettings
        else
          let flags := byteAt b3 0
          .ok ⟨author, title, created, modified, flags % 2 = 1, leU16At b3 1,
               normalizeFontFamily (byteAt b3 3)⟩

/-! ## Formatting-directive payload codec -/

/-- The lax total order of `collectFormatting`'s sort comparator
(by `(BlockID, Start, End)`). -/
def fdeLe (a b : FormattingDirectiveEntry) : Bool :=
  decide (a.BlockID < b.BlockID ∨ (a.BlockID = b.BlockID ∧
    (a.Start < b.Start ∨ (a.Start = b.Start ∧ a.End ≤ b.End))))

/-- Go's `collectFormatting`: flatten every text block's runs into tagged
entries and sort them by `(BlockID, Start, End)`. -/
def collectFormatting (doc : Document) : List FormattingDirectiveEntry :=
  let out := doc.Blocks.foldl (fun acc b =>
    if b.Kind ≠ BlockKindText then acc
    else
      match b.Text with
      | none => acc
      | some tb => acc ++ tb.Runs.map (fun r =>
          FormattingDirectiveEntry.mk b.ID r.Start r.End r.Attr)) []
  out.mergeSort fdeLe

/-- The flags byte of a style attribute. -/
def encodeStyleFlags (a : StyleAttr) : Nat :=
  (if a.Bold then 1 else 0) + (if a.Italic then 2 else 0) +
    (if a.Underline then 4 else 0) + (if a.Highlight then 8 else 0)

/-- Decode a flags byte back into the four booleans plus the rest of an
attribute. -/
def decodeStyleAttr (flags fontFamily fontSize color : Nat) : StyleAttr :=
  ⟨flags % 2 = 1, flags / 2 % 2 = 1, flags / 4 % 2 = 1, flags / 8 % 2 = 1,
   fontFamily, fontSize, color⟩

/-- The 24 bytes of one formatting-directive entry. -/
def fmtEntryBytes (e : FormattingDirectiveEntry) : List Nat :=
  u64le e.BlockID ++ u32le e.Start ++ u32le e.End ++ [encodeStyleFlags e.Attr] ++
    [normalizeFontFamily e.Attr.FontFamily] ++ u16le e.Attr.FontSizePt ++
    u32le e.Attr.ColorRGBA

/-- Go's `encodeFormattingDirective` (`styleEntSz` = 24 bytes per entry). -/
def encodeFormattingDirective (entries : List FormattingDirectiveEntry) : List Nat :=
  u32le entries.length ++ entries.flatMap fmtEntryBytes

/-- The entry loop of `decodeFormattingDirective`, generic in the detected
stride (`styleEntSz` or `styleEntV1`). -/
def decodeFmtLoop (b : List Nat) (entrySize : Nat) :
    Nat → Nat → Except SqErr (List FormattingDirectiveEntry)
  | 0, _ => .ok []
  | n + 1, ptr =>
    if b.length - ptr < entrySize then .error .malformedFmtEntry
    else
      let blockID := leU64At b ptr
      let start := leU32At b (ptr + 8)
      let stop := leU32At b (ptr + 12)
      let flags := byteAt b (ptr + 16)
      let fontFamily :=
        if entrySize = styleEntSz then normalizeFontFamily (byteAt b (ptr + 17))
        else FontFamilySans
      let fontOffset := if entrySize = styleEntSz then 18 else 17
      let fontSize := leU16At b (ptr + fontOffset)
      let color := leU32At b (ptr + fontOffset + 2)
      match decodeFmtLoop b entrySize n (ptr + entrySize) with
      | .error err => .error err
      | .ok rest =>
        .ok (⟨blockID, start, stop, decodeStyleAttr flags fontFamily fontSize color⟩ :: rest)

/-- Go's `decodeFormattingDirective`: detects the stride as
`(len - 4) / count` and accepts only the current 24-byte and legacy
23-byte layouts.  (`remaining < 0` cannot occur: `len ≥ 4` is already
checked.) -/
def decodeFormattingDirective (b : List Nat) : Except SqErr (List FormattingDirectiveEntry) :=
  if b.length < 4 then .error .malformedFmtBlock
  else
    let count := leU32At b 0
    if count = 0 then .ok []
    else
      let remaining := b.length - 4
      if remaining % count ≠ 0 then .error .malformedFmtEntryLength
      else
        let entrySize := remaining / count
        if entrySize ≠ styleEntSz ∧ entrySize ≠ styleEntV1 then
          .error .unsupportedFmtEntrySize
        else decodeFmtLoop b entrySize count 4

/-! ## Text block payload codec -/

/-- Go's `encodeTextBlock`: u32 length plus the raw bytes, nothing else. -/
def encodeTextBlock (tb : TextBlock) : List Nat :=
  u32le tb.UTF8.length ++ tb.UTF8

/-- The legacy inline run table loop of `decodeTextBlock`; `none` models
the source's early `return tb, nil` on a truncated table. -/
def decodeRunLoop (b : List Nat) : Nat → Nat → Option (List StyleRun)
  | 0, _ => some []
  | n + 1, ptr =>
    if b.length - ptr < 4 + 4 + 1 + 2 + 4 then none
    else
      let start := leU32At b ptr
      let stop := leU32At b (ptr + 4)
      let flags := byteAt b (ptr + 8)
      let font := leU16At b (ptr + 9)
      let color := leU32At b (ptr + 11)
      match decodeRunLoop b n (ptr + 15) with
      | none => none
      | some rest =>
        some (⟨start, stop, decodeStyleAttr flags FontFamilySans font color⟩ :: rest)

/-- Go's `decodeTextBlock`.  When the legacy trailing run table is
truncated the source returns `tb, nil` from inside the loop, so the block
comes back with NO runs (the partially parsed `runs` slice is dropped). -/
def decodeTextBlock (b : List Nat) : Except SqErr TextBlock :=
  if b.length < 4 then .error .malformedTextBlock
  else
    let txtLen := leU32At b 0
    if b.length < 4 + txtLen then .error .malformedTextPayload
    else
      let txt := (b.drop 4).take txtLen
      let ptr := 4 + txtLen
      if b.length - ptr < 4 then .ok ⟨txt, []⟩
      else
        let runCount := leU32At b ptr
        match decodeRunLoop b runCount (ptr + 4) with
        | none => .ok ⟨txt, []⟩
        | some runs => .ok ⟨txt, runs⟩

/-- Go's `encodeBlockPayload`. -/
def encodeBlockPayload (b : Block) : Except SqErr (List Nat) :=
  if b.Kind = BlockKindText then
    match b.Text with
    | none => .error .textPayloadNil
    | some tb => .ok (encodeTextBlock tb)
  else .error (.unsupportedBlockKind b.Kind)

/-! ## Container codec — encode -/

/-- The 25 bytes of one TOC entry. -/
def tocEntryBytes (e : tocEntry) : List Nat :=
  u64le e.ID ++ [e.Kind % 256] ++ u64le e.Offset ++ u32le e.Length ++ u32le e.CRC32

/-- Build the TOC entries with the running u64 payload offset, exactly as
the encoder's append loop does. -/
def buildEntries (base : Nat) : List payloadEntry → List tocEntry
  | [] => []
  | p :: ps =>
    ⟨p.ID, p.Kind, base, p.Payload.length % 2 ^ 32, crc32 p.Payload⟩ ::
      buildEntries ((base + p.Payload.length) % 2 ^ 64) ps

/-- Encode each block's payload in document order, failing on the first
bad block (the encoder's per-block loop). -/
def blockPayloads : List Block → Except SqErr (List payloadEntry)
  | [] => .ok []
  | b :: bs =>
    match encodeBlockPayload b with
    | .error e => .error e
    | .ok p =>
      match blockPayloads bs with
      | .error e => .error e
      | .ok ps => .ok (⟨b.ID, b.Kind, p⟩ :: ps)

/-- Go's `encodeDocumentDetailed`: metadata payload, formatting-directive
payload, then one payload per block; header, TOC, then the payload
region. -/
def encodeDocumentDetailed (doc : Document) : Except SqErr encodeResult :=
  match blockPayloads doc.Blocks with
  | .error e => .error e
  | .ok bps =>
    let payloads : List payloadEntry :=
      ⟨metaBlockID, BlockKindMetadata, encodeMetadata doc.Metadata⟩ ::
      ⟨fmtBlockID, BlockKindStyle, encodeFormattingDirective (collectFormatting doc)⟩ :: bps
    let tocLength := payloads.length * tocEntSize % 2 ^ 32
    let entries := buildEntries (headerSize + tocLength) payloads
    let blob := MagicString ++ u16le VersionV1 ++ u16le FlagRandomAccess ++
      u64le headerSize ++ u32le entries.length ++ entries.flatMap tocEntryBytes ++
      payloads.flatMap payloadEntry.Payload
    .ok ⟨blob, entries, headerSize, tocLength⟩

/-- Go's `encodeDocument`. -/
def encodeDocument (doc : Document) : Except SqErr (List Nat) :=
  match encodeDocumentDetailed doc with
  | .error e => .error e
  | .ok res => .ok res.Blob

/-! ## Container codec — decode -/

/-- Parse one 25-byte TOC entry at offset `p`. -/
def parseTocEntry (blob : List Nat) (p : Nat) : tocEntry :=
  ⟨leU64At blob p, byteAt blob (p + 8), leU64At blob (p + 9),
   leU32At blob (p + 17), leU32At blob (p + 21)⟩

/-- The lax order of `validateEntryRanges`'s sort (by range start). -/
def rangeLe (a b : Nat × Nat) : Bool := decide (a.1 ≤ b.1)

/-- The bounds-checking loop of `validateEntryRanges`: each range must lie
inside the file (`end` computed with u64 wraparound as in Go). -/
def collectRanges (fileLen : Nat) : List tocEntry → Except SqErr (List (Nat × Nat))
  | [] => .ok []
  | e :: es =>
    if e.Offset > fileLen then .error .invalidBlockRange
    else
      let endPos := (e.Offset + e.Length) % 2 ^ 64
      if endPos > fileLen then .error .invalidBlockRange
      else
        match collectRanges fileLen es with
        | .error err => .error err
        | .ok rs => .ok ((e.Offset, endPos) :: rs)

/-- The adjacent-overlap scan over the sorted ranges. -/
def chainCheck : List (Nat × Nat) → Option SqErr
  | [] => none
  | [_] => none
  | a :: b :: rest => if b.1 < a.2 then some .overlappingBlocks else chainCheck (b :: rest)

/-- Go's `validateEntryRanges`. -/
def validateEntryRanges (entries : List tocEntry) (fileLen : Nat) : Option SqErr :=
  match collectRanges fileLen entries with
  | .error e => some e
  | .ok ranges => chainCheck (ranges.mergeSort rangeLe)

/-- The decoder's in-flight state: metadata, text blocks appended so far,
and the latest formatting directive. -/
structure decState where
  Metadata : Metadata
  Blocks : List Block
  directive : List FormattingDirectiveEntry
  deriving DecidableEq, Repr

/-- The zero value of `Metadata` (Go's `&Document{}`). -/
def zeroMetadata : Metadata := ⟨[], [], 0, 0, false, 0, 0⟩

/-- The decoder's initial state. -/
def initState : decState := ⟨zeroMetadata, [], []⟩

/-- The payload bytes addressed by a TOC entry. -/
def entryPayload (blob : List Nat) (e : tocEntry) : List Nat :=
  (blob.drop e.Offset).take e.Length

/-- Process one TOC entry: CRC check, then dispatch on the block kind
(unknown kinds are skipped for forward compatibility). -/
def processEntry (blob : List Nat) (st : decState) (e : tocEntry) : Except SqErr decState :=
  let payload := entryPayload blob e
  if crc32 payload ≠ e.CRC32 then .error (.crcMismatch e.ID)
  else if e.Kind = BlockKindMetadata then
    match decodeMetadata payload with
    | .error err => .error err
    | .ok m => .ok { st with Metadata := m }
  else if e.Kind = BlockKindStyle then
    match decodeFormattingDirective payload with
    | .error err => .error err
    | .ok d => .ok { st with directive := d }
  else if e.Kind = BlockKindText then
    match decodeTextBlock payload with
    | .error err => .error err
    | .ok tb => .ok { st with Blocks := st.Blocks ++ [⟨e.ID, BlockKindText, some tb⟩] }
  else .ok st

/-- Fold `processEntry` over the TOC entries in order. -/
def decFold (blob : List Nat) : decState → List tocEntry → Except SqErr decState
  | st, [] => .ok st
  | st, e :: es =>
    match processEntry blob st e with
    | .error err => .error err
    | .ok st' => decFold blob st' es

/-- The index of the block the `blockByID` map points at for `id`: the
LAST text block appended with that ID (later map writes win). -/
def lastIdxWithID (blocks : List Block) (id : Nat) : Option Nat :=
  (List.range blocks.length).foldl (fun acc i =>
    match blocks[i]? with
    | some b => if b.ID = id then some i else acc
    | none => acc) none

/-- Append one reattached style run to a block's text payload. -/
def appendRunTo (d : FormattingDirectiveEntry) (b : Block) : Block :=
  match b.Text with
  | none => b
  | some tb => { b with Text := some { tb with Runs := tb.Runs ++ [⟨d.Start, d.End, d.Attr⟩] } }

/-- Re-attach one directive entry to its target block; entries addressed
to a missing block are silently dropped. -/
def attachDirective (blocks : List Block) (d : FormattingDirectiveEntry) : List Block :=
  match lastIdxWithID blocks d.BlockID with
  | none => blocks
  | some i => blocks.modify (appendRunTo d) i

/-- Re-attach all directive entries in order. -/
def attachAll (blocks : List Block) (ds : List FormattingDirectiveEntry) : List Block :=
  ds.foldl attachDirective blocks

/-- The final per-block run sort of the decoder (by `(Start, End)`). -/
def sortBlockRuns (b : Block) : Block :=
  match b.Text with
  | none => b
  | some tb => { b with Text := some { tb with Runs := tb.Runs.mergeSort runLe } }

/-- Go's `decodeDocument`: the hard failure gates in source order, then
entry processing, directive re-attachment and the final run sort. -/
def decodeDocument (blob : List Nat) : Except SqErr Document :=
  if blob.length < headerSize then .error .invalidMagic
  else if blob.take 26 ≠ MagicString then .error .invalidMagic
  else if leU16At blob 26 ≠ VersionV1 then .error (.unsupportedVer (leU16At blob 26))
  else if leU16At blob 28 % 2 = 0 then .error .missingRandomFlag
  else
    let tocOffset := leU64At blob 30
    let tocCount := leU32At blob 38
    if tocOffset > blob.length then .error .invalidTOC
    else if (tocOffset + tocCount * tocEntSize) % 2 ^ 64 > blob.length then .error .invalidTOC
    else
      let entries := (List.range tocCount).map (fun i => parseTocEntry blob (tocOffset + tocEntSize * i))
      match validateEntryRanges entries blob.length with
      | some e => .error e
      | none =>
        match decFold blob initState entries with
        | .error e => .error e
        | .ok st => .ok ⟨st.Metadata, (attachAll st.Blocks st.directive).map sortBlockRuns⟩

/-! ## Layout inspector -/

/-- The human-readable label of a TOC entry's kind. -/
def segmentName (k : Nat) : String :=
  if k = BlockKindMetadata then "Metadata"
  else if k = BlockKindStyle then "Formatting Directive"
  else if k = BlockKindText then "Data Block"
  else "Block"

/-- The lax order of `InspectLayout`'s stable sort (by segment offset). -/
def segLe (a b : LayoutSegment) : Bool := decide (a.Offset ≤ b.Offset)

/-- Go's `InspectLayout`.  The `Document` component of the result models
the caller's document after the call: `Validate` sorts only a copy of
each run list and the encoder is read-only, so it is returned unchanged. -/
def InspectLayout (doc : Document) : Except SqErr (LayoutInfo × Document) :=
  match Validate doc with
  | some e => .error e
  | none =>
    match encodeDocumentDetailed doc with
    | .error e => .error e
    | .ok res =>
      let segments : List LayoutSegment :=
        [⟨"Header", BlockKindMetadata, metaBlockID, 0, headerSize⟩,
         ⟨"Index", BlockKindStyle, fmtBlockID, res.TOCOffset, res.TOCLength⟩] ++
        res.Entries.map (fun e => ⟨segmentName e.Kind, e.Kind, e.ID, e.Offset, e.Length⟩)
      let sorted := segments.mergeSort segLe
      .ok (⟨headerSize, res.TOCOffset, res.TOCLength, res.Blob.length, sorted⟩, doc)

/-! ## Secure envelope -/

/-- The envelope magic, ASCII bytes of the source's `secureMagic`
constant. -/
def secureMagic : List Nat :=
  [83, 81, 68, 79, 67, 95, 70, 85, 67, 75, 95, 84, 72, 69, 95, 82, 85, 83, 83, 73, 65, 78, 83]

def secureVersionV1 : Nat := 1
def secureSaltSize : Nat := 16
def secureNonceSize : Nat := 12
def secureHeaderSize : Nat := secureMagic.length + 2 + 2 + secureSaltSize + secureNonceSize + 8
def kdfIterations : Nat := 200000

/-- Encryption request options. -/
structure EncryptionOptions where
  Enabled : Bool
  Password : List Nat
  deriving DecidableEq, Repr

/-- Save options. -/
structure SaveOptions where
  Compression : Bool
  Encryption : EncryptionOptions
  deriving DecidableEq, Repr

/-- Load options. -/
structure LoadOptions where
  Password : List Nat
  deriving DecidableEq, Repr

/-- Envelope header summary. -/
structure EnvelopeInfo where
  Wrapped : Bool
  Compressed : Bool
  Encrypted : Bool
  EnvelopeVer : Nat
  deriving DecidableEq, Repr

/-- The external cryptographic primitives (PBKDF2 and AES-256-GCM live in
Go's standard library, outside this repository); the embedding is
parametric in them.  `gcmOpenAEAD` returns `none` exactly when AEAD
authentication fails. -/
structure CryptoOps where
  kdfKey : List Nat → List Nat → Nat → Nat → List Nat
  gcmSeal : List Nat → List Nat → List Nat → List Nat
  gcmOpenAEAD : List Nat → List Nat → List Nat → Option (List Nat)

/-- Go's `isSecureEnvelope`. -/
def isSecureEnvelope (b : List Nat) : Bool :=
  decide (secureMagic.length ≤ b.length) && decide (b.take secureMagic.length = secureMagic)

/-- Go's `inspectEnvelopeBytes`. -/
def inspectEnvelopeBytes (b : List Nat) : Except SqErr EnvelopeInfo :=
  if ¬ isSecureEnvelope b then .ok ⟨false, false, false, 0⟩
  else if b.length < secureHeaderSize then .error .invalidSecureFile
  else
    let version := leU16At b secureMagic.length
    if version ≠ secureVersionV1 then .error (.unsupportedVer version)
    else
      let flags := leU16At b (secureMagic.length + 2)
      .ok ⟨true, flags % 2 = 1, flags / 2 % 2 = 1, version⟩

/-- Pad or truncate to a fixed field width (Go's `copy` into a zeroed
fixed-size region). -/
def fitField (l : List Nat) (n : Nat) : List Nat :=
  l.take n ++ List.replicate (n - l.length) 0

/-- Go's `encodeSecureEnvelope`; `salt` and `nonce` stand for the random
bytes drawn when encryption is enabled (the zero salt/nonce are written
otherwise). -/
def encodeSecureEnvelope (C : CryptoOps) (salt nonce : List Nat)
    (payload : List Nat) (opts : SaveOptions) : List Nat :=
  let flags : Nat := (if opts.Compression then 1 else 0) + (if opts.Encryption.Enabled then 2 else 0)
  let saltW := if opts.Encryption.Enabled then salt else []
  let nonceW := if opts.Encryption.Enabled then nonce else []
  let payload2 :=
    if opts.Encryption.Enabled then
      C.gcmSeal (C.kdfKey opts.Encryption.Password saltW kdfIterations 32) nonceW payload
    else payload
  secureMagic ++ u16le secureVersionV1 ++ u16le flags ++
    fitField saltW secureSaltSize ++ fitField nonceW secureNonceSize ++
    u64le payload2.length ++ payload2

/-- Go's `decodeSecureEnvelope`; `zlibDecomp` stands for the external
zlib inflater (`none` = corrupt stream).  AES cipher construction cannot
fail for the fixed 32-byte key, so only AEAD authentication failure
remains and maps to `ErrInvalidPassword`. -/
def decodeSecureEnvelope (C : CryptoOps) (zlibDecomp : List Nat → Option (List Nat))
    (b : List Nat) (opts : LoadOptions) : Except SqErr (List Nat) :=
  match inspectEnvelopeBytes b with
  | .error e => .error e
  | .ok info =>
    if ¬ info.Wrapped then .error .invalidSecureFile
    else
      let flags := leU16At b (secureMagic.length + 2)
      let salt := (b.drop (secureMagic.length + 4)).take secureSaltSize
      let nonce := (b.drop (secureMagic.length + 4 + secureSaltSize)).take secureNonceSize
      let payloadLen := leU64At b (secureMagic.length + 4 + secureSaltSize + secureNonceSize)
      if b.length - secureHeaderSize ≠ payloadLen then .error .invalidSecureFile
      else
        let payload := b.drop secureHeaderSize
        let step1 : Except SqErr (List Nat) :=
          if flags / 2 % 2 = 1 then
            if stringsTrim opts.Password = [] then .error .passwordRequired
            else
              match C.gcmOpenAEAD (C.kdfKey opts.Password salt kdfIterations 32) nonce payload with
              | none => .error .invalidPassword
              | some p => .ok p
          else .ok payload
        match step1 with
        | .error e => .error e
        | .ok payload2 =>
          if flags % 2 = 1 then
            match zlibDecomp payload2 with
            | none => .error .envelopeErr
            | some p => .ok p
          else .ok payload2

/-! ## Save / Load entry-point cores (file I/O stripped)

`SaveWithOptions` and `LoadWithOptions` do path handling and atomic file
writes around a pure blob transformation; the cores below are those
transformations.  `now` stands for `time.Now().Unix()` and `zlibComp`
for the external zlib deflater. -/

/-- `SaveWithOptions`'s timestamp normalization: set `CreatedUnix` when it
is zero and always refresh `ModifiedUnix`. -/
def withSaveTimestamps (doc : Document) (now : Int) : Document :=
  { doc with Metadata := { doc.Metadata with
      CreatedUnix := if doc.Metadata.CreatedUnix = 0 then now else doc.Metadata.CreatedUnix,
      ModifiedUnix := now } }

/-- The blob `SaveWithOptions` would write for `doc` at time `now`. -/
def saveBlob (C : CryptoOps) (zlibComp : List Nat → List Nat) (salt nonce : List Nat)
    (now : Int) (doc : Document) (opts : SaveOptions) : Except SqErr (List Nat) :=
  let doc := withSaveTimestamps doc now
  match Validate doc with
  | some e => .error e
  | none =>
    match encodeDocumentDetailed doc with
    | .error e => .error e
    | .ok res =>
      let blob := res.Blob
      let blob := if opts.Compression then zlibComp blob else blob
      if opts.Encryption.Enabled ∧ stringsTrim opts.Encryption.Password = [] then
        .error .passwordRequired
      else if opts.Compression ∨ opts.Encryption.Enabled then
        .ok (encodeSecureEnvelope C salt nonce blob opts)
      else .ok blob

/-- The document `LoadWithOptions` produces from the file bytes `b`. -/
def loadFromBytes (C : CryptoOps) (zlibDecomp : List Nat → Option (List Nat))
    (b : List Nat) (opts : LoadOptions) : Except SqErr Document :=
  match (if isSecureEnvelope b then decodeSecureEnvelope C zlibDecomp b opts else .ok b) with
  | .error e => .error e
  | .ok b2 =>
    match decodeDocument b2 with
    | .error e => .error e
    | .ok doc =>
      match Validate doc with
      | some e => .error e
      | none => .ok doc

/-! ## Well-formedness: the bounds Go's machine types impose

The embedding uses unbounded `Nat`/`Int`, so the range guarantees that
Go's `uint32`/`uint64`/`int64`/`byte` field types provide for free become
explicit predicates; theorems about encoding carry them as hypotheses. -/

/-- Attribute fields fit their Go types. -/
def WFAttr (a : StyleAttr) : Prop :=
  a.FontFamily < 2 ^ 8 ∧ a.FontSizePt < 2 ^ 16 ∧ a.ColorRGBA < 2 ^ 32

instance (a : StyleAttr) : Decidable (WFAttr a) := by unfold WFAttr; infer_instance

/-- Run fields fit their Go types. -/
def WFRun (r : StyleRun) : Prop := r.Start < 2 ^ 32 ∧ r.End < 2 ^ 32 ∧ WFAttr r.Attr

instance (r : StyleRun) : Decidable (WFRun r) := by unfold WFRun; infer_instance

/-- Text block content is bytes, of `uint32`-addressable length, with
well-formed runs. -/
def WFText (tb : TextBlock) : Prop :=
  tb.UTF8.length < 2 ^ 32 ∧ IsBytes tb.UTF8 ∧ ∀ r ∈ tb.Runs, WFRun r

instance (tb : TextBlock) : Decidable (WFText tb) := by unfold WFText; infer_instance

/-- Well-formedness of an optional text payload. -/
def WFTextOpt : Option TextBlock → Prop
  | some tb => WFText tb
  | none => True

instance : (t : Option TextBlock) → Decidable (WFTextOpt t)
  | some tb => inferInstanceAs (Decidable (WFText tb))
  | none => inferInstanceAs (Decidable True)

/-- Block fields fit their Go types. -/
def WFBlock (b : Block) : Prop :=
  b.ID < 2 ^ 64 ∧ b.Kind < 2 ^ 8 ∧ WFTextOpt b.Text

instance (b : Block) : Decidable (WFBlock b) := by
  unfold WFBlock; infer_instance

/-- Metadata fields fit their Go types. -/
def WFMetadata (m : Metadata) : Prop :=
  IsBytes m.Author ∧ IsBytes m.Title ∧
    m.Author.length < 2 ^ 32 ∧ m.Title.length < 2 ^ 32 ∧
    -2 ^ 63 ≤ m.CreatedUnix ∧ m.CreatedUnix < 2 ^ 63 ∧
    -2 ^ 63 ≤ m.ModifiedUnix ∧ m.ModifiedUnix < 2 ^ 63 ∧
    m.ParagraphGap < 2 ^ 16 ∧ m.PreferredFontFamily < 2 ^ 8

instance (m : Metadata) : Decidable (WFMetadata m) := by unfold WFMetadata; infer_instance

/-- Total number of style runs over all blocks. -/
def sumRuns (doc : Document) : Nat :=
  (doc.Blocks.map (fun b => match b.Text with | some tb => tb.Runs.length | none => 0)).sum

/-- Document-level well-formedness: all fields fit their Go types and the
per-file counters fit `uint32`. -/
def WFDocument (doc : Document) : Prop :=
  WFMetadata doc.Metadata ∧ (∀ b ∈ doc.Blocks, WFBlock b) ∧
    25 * (doc.Blocks.length + 2) < 2 ^ 32 ∧ sumRuns doc < 2 ^ 32

instance (doc : Document) : Decidable (WFDocument doc) := by
  unfold WFDocument; infer_instance

/-! ## Primitive lemmas: lengths -/

@[simp] theorem u16le_length (v : Nat) : (u16le v).length = 2 := rfl

@[simp] theorem u32le_length (v : Nat) : (u32le v).length = 4 := rfl

@[simp] theorem u64le_length (v : Nat) : (u64le v).length = 8 := rfl

@[simp] theorem i64le_length (v : Int) : (i64le v).length = 8 := rfl

@[simp] theorem MagicString_length : MagicString.length = 26 := rfl

@[simp] theorem secureMagic_length : secureMagic.length = 23 := rfl

@[simp] theorem tocEntryBytes_length (e : tocEntry) : (tocEntryBytes e).length = 25 := by
  simp [tocEntryBytes, u64le, u32le]

/-! ## Primitive lemmas: byte reads over concatenations -/

theorem byteAt_append_right (l r : List Nat) (i : Nat) :
    byteAt (l ++ r) (l.length + i) = byteAt r i := by
  simp [byteAt, List.getD_eq_getElem?_getD, List.getElem?_append_right]

theorem byteAt_append_left (l r : List Nat) (i : Nat) (h : i < l.length) :
    byteAt (l ++ r) i = byteAt l i := by
  simp [byteAt, List.getD_eq_getElem?_getD, List.getElem?_append_left h]

theorem leU16At_append (l r : List Nat) (i : Nat) :
    leU16At (l ++ r) (l.length + i) = leU16At r i := by
  unfold leU16At
  rw [show l.length + i + 1 = l.length + (i + 1) by omega]
  rw [byteAt_append_right, byteAt_append_right]

theorem leU32At_append (l r : List Nat) (i : Nat) :
    leU32At (l ++ r) (l.length + i) = leU32At r i := by
  unfold leU32At
  rw [show l.length + i + 1 = l.length + (i + 1) by omega,
      show l.length + i + 2 = l.length + (i + 2) by omega,
      show l.length + i + 3 = l.length + (i + 3) by omega]
  rw [byteAt_append_right, byteAt_append_right, byteAt_append_right, byteAt_append_right]

theorem leU64At_append (l r : List Nat) (i : Nat) :
    leU64At (l ++ r) (l.length + i) = leU64At r i := by
  unfold leU64At
  rw [show l.length + i + 1 = l.length + (i + 1) by omega,
      show l.length + i + 2 = l.length + (i + 2) by omega,
      show l.length + i + 3 = l.length + (i + 3) by omega,
      show l.length + i + 4 = l.length + (i + 4) by omega,
      show l.length + i + 5 = l.length + (i + 5) by omega,
      show l.length + i + 6 = l.length + (i + 6) by omega,
      show l.length + i + 7 = l.length + (i + 7) by omega]
  repeat rw [byteAt_append_right]

/-! ## Primitive lemmas: value round trips -/

@[simp] theorem byteAt_cons_zero (a : Nat) (l : List Nat) : byteAt (a :: l) 0 = a := rfl

@[simp] theorem byteAt_cons_succ (a : Nat) (l : List Nat) (i : Nat) :
    byteAt (a :: l) (i + 1) = byteAt l i := rfl

theorem leU16At_u16le (v : Nat) (rest : List Nat) :
    leU16At (u16le v ++ rest) 0 = v % 2 ^ 16 := by
  unfold leU16At u16le
  simp [byteAt]
  omega

theorem leU32At_u32le (v : Nat) (rest : List Nat) :
    leU32At (u32le v ++ rest) 0 = v % 2 ^ 32 := by
  unfold leU32At u32le
  simp [byteAt]
  omega

theorem leU64At_u64le (v : Nat) (rest : List Nat) :
    leU64At (u64le v ++ rest) 0 = v % 2 ^ 64 := by
  unfold leU64At u64le
  simp [byteAt]
  omega

theorem leU16At_u16le_small (v : Nat) (rest : List Nat) (h : v < 2 ^ 16) :
    leU16At (u16le v ++ rest) 0 = v := by
  rw [leU16At_u16le, Nat.mod_eq_of_lt h]

theorem leU32At_u32le_small (v : Nat) (rest : List Nat) (h : v < 2 ^ 32) :
    leU32At (u32le v ++ rest) 0 = v := by
  rw [leU32At_u32le, Nat.mod_eq_of_lt h]

theorem leU64At_u64le_small (v : Nat) (rest : List Nat) (h : v < 2 ^ 64) :
    leU64At (u64le v ++ rest) 0 = v := by
  rw [leU64At_u64le, Nat.mod_eq_of_lt h]

/-- Reading back a two's-complement encoded `int64` recovers it. -/
theorem toI64_i64le (v : Int) (h1 : -2 ^ 63 ≤ v) (h2 : v < 2 ^ 63) (rest : List Nat) :
    toI64 (leU64At (i64le v ++ rest) 0) = v := by
  unfold i64le
  rw [leU64At_u64le]
  have hmod : (v % (2 ^ 64 : Int)).toNat < 2 ^ 64 := by omega
  rw [Nat.mod_eq_of_lt hmod]
  unfold toI64
  rcases le_or_lt 0 v with hv | hv
  · have he : v % (2 ^ 64 : Int) = v := by omega
    rw [he]
    split <;> omega
  · have he : v % (2 ^ 64 : Int) = v + 2 ^ 64 := by omega
    rw [he]
    split <;> omega

theorem crc32Bits_lt (n c : Nat) (h : c < 2 ^ 32) : crc32Bits n c < 2 ^ 32 := by
  induction n generalizing c with
  | zero => exact h
  | succ n ih =>
    unfold crc32Bits
    exact ih _ (by
      unfold crc32Step
      split
      · exact Nat.xor_lt_two_pow (by omega) (by norm_num)
      · omega)

theorem crc32Update_lt (c b : Nat) (h : c < 2 ^ 32) : crc32Update c b < 2 ^ 32 := by
  unfold crc32Update
  exact crc32Bits_lt 8 _ (Nat.xor_lt_two_pow h (by omega))

/-- `crc32.ChecksumIEEE` always returns a `uint32` value. -/
theorem crc32_lt (data : List Nat) : crc32 data < 2 ^ 32 := by
  unfold crc32
  have : ∀ l c, c < 2 ^ 32 → List.foldl crc32Update c l < 2 ^ 32 := by
    intro l
    induction l with
    | nil => intro c h; exact h
    | cons x xs ih => intro c h; exact ih _ (crc32Update_lt c x h)
  exact Nat.xor_lt_two_pow (this data 0xFFFFFFFF (by norm_num)) (by norm_num)

/-- Encoded `uint16` buffers are bytes. -/
theorem isBytes_u16le (v : Nat) : IsBytes (u16le v) := by
  intro x hx
  simp [u16le] at hx
  rcases hx with h | h <;> omega

theorem isBytes_u32le (v : Nat) : IsBytes (u32le v) := by
  intro x hx
  simp [u32le] at hx
  rcases hx with h | h | h | h <;> omega

theorem isBytes_u64le (v : Nat) : IsBytes (u64le v) := by
  intro x hx
  simp [u64le] at hx
  rcases hx with h | h | h | h | h | h | h | h <;> omega

theorem isBytes_append {l r : List Nat} (hl : IsBytes l) (hr : IsBytes r) :
    IsBytes (l ++ r) := by
  intro x hx
  rcases List.mem_append.mp hx with h | h
  · exact hl x h
  · exact hr x h

/-! ## Payload codec round trips -/

/-- `readString` inverts `appendString`'s length-prefixed layout. -/
theorem readString_exact (s rest : List Nat) (h : s.length < 2 ^ 32) :
    readString (u32le s.length ++ (s ++ rest)) = some (s, rest) := by
  unfold readString
  rw [if_neg (by simp)]
  have h0 : leU32At (u32le s.length ++ (s ++ rest)) 0 = s.length := by
    rw [leU32At_u32le, Nat.mod_eq_of_lt h]
  have h4 : (u32le s.length ++ (s ++ rest)).drop 4 = s ++ rest := by
    rw [show (4 : Nat) = (u32le s.length).length by simp, List.drop_left]
  rw [h0, h4]
  rw [if_neg (by simp)]
  rw [List.take_left, List.drop_left]

/-- The flat byte shape of an encoded metadata payload. -/
theorem encodeMetadata_eq (m : Metadata) :
    encodeMetadata m = u32le m.Author.length ++ (m.Author ++ (u32le m.Title.length ++
      (m.Title ++ (i64le m.CreatedUnix ++ (i64le m.ModifiedUnix ++
      ([if m.PagedMode then 1 else 0] ++ (u16le m.ParagraphGap ++
      [normalizeFontFamily m.PreferredFontFamily]))))))) := by
  simp [encodeMetadata, appendString, appendU16, appendI64]

/-- Decoding an encoded metadata payload recovers the metadata, provided
its fields fit their Go types and the preferred font family is valid. -/
theorem decodeMetadata_encode (m : Metadata) (hwf : WFMetadata m)
    (hff : isValidFontFamily m.PreferredFontFamily) :
    decodeMetadata (encodeMetadata m) = .ok m := by
  obtain ⟨-, -, hA, hT, hc1, hc2, hm1, hm2, hgap, -⟩ := hwf
  rw [encodeMetadata_eq]
  have hpm : ∃ fb : Nat, (if m.PagedMode then (1 : Nat) else 0) = fb ∧
      (decide (fb % 2 = 1) : Bool) = m.PagedMode := by
    cases hp : m.PagedMode <;> exact ⟨_, rfl, by simp⟩
  obtain ⟨fb, hfb, hfb2⟩ := hpm
  rw [hfb]
  simp only [decodeMetadata, readString_exact _ _ hA, readString_exact _ _ hT]
  set tail1 : List Nat := [fb] ++
      (u16le m.ParagraphGap ++ [normalizeFontFamily m.PreferredFontFamily]) with htail1
  have hlen16 : ¬ ((i64le m.CreatedUnix ++ (i64le m.ModifiedUnix ++ tail1)).length < 16) := by
    simp only [List.length_append, i64le_length]
    omega
  simp only [hlen16, if_false]
  have hcread : toI64 (leU64At (i64le m.CreatedUnix ++ (i64le m.ModifiedUnix ++ tail1)) 0)
      = m.CreatedUnix := toI64_i64le _ hc1 hc2 _
  have hmread : toI64 (leU64At (i64le m.CreatedUnix ++ (i64le m.ModifiedUnix ++ tail1)) 8)
      = m.ModifiedUnix := by
    rw [show (8 : Nat) = (i64le m.CreatedUnix).length + 0 by simp, leU64At_append]
    exact toI64_i64le _ hm1 hm2 _
  have hdrop : (i64le m.CreatedUnix ++ (i64le m.ModifiedUnix ++ tail1)).drop 16 = tail1 := by
    rw [show i64le m.CreatedUnix ++ (i64le m.ModifiedUnix ++ tail1)
        = (i64le m.CreatedUnix ++ i64le m.ModifiedUnix) ++ tail1 by simp]
    rw [show (16 : Nat) = (i64le m.CreatedUnix ++ i64le m.ModifiedUnix).length by simp,
        List.drop_left]
  rw [hcread, hmread, hdrop]
  have hlen1 : tail1.length = 4 := by simp [htail1]
  rw [if_neg (by omega), if_neg (by omega)]
  have hflags : byteAt tail1 0 = fb := rfl
  have hgapr : leU16At tail1 1 = m.ParagraphGap := by
    have h1 : leU16At ([fb] ++ (u16le m.ParagraphGap ++ [normalizeFontFamily
        m.PreferredFontFamily])) ([fb].length + 0) = m.ParagraphGap := by
      rw [leU16At_append]
      exact leU16At_u16le_small _ _ hgap
    simpa using h1
  have hffr : byteAt tail1 3 = normalizeFontFamily m.PreferredFontFamily := by
    have h1 : byteAt (([fb] ++ u16le m.ParagraphGap) ++ [normalizeFontFamily
        m.PreferredFontFamily]) (([fb] ++ u16le m.ParagraphGap).length + 0)
        = normalizeFontFamily m.PreferredFontFamily := by
      rw [byteAt_append_right]
      rfl
    simp only [List.length_append, List.length_singleton, u16le_length, List.append_assoc] at h1
    simpa using h1
  rw [hflags, hgapr, hffr]
  have hnn : normalizeFontFamily (normalizeFontFamily m.PreferredFontFamily)
      = m.PreferredFontFamily := by
    unfold normalizeFontFamily
    rw [if_pos hff, if_pos hff]
  rw [hnn, hfb2]

/-- Decoding the flags byte recovers the attribute's booleans. -/
theorem decodeStyleAttr_flags (a : StyleAttr) :
    decodeStyleAttr (encodeStyleFlags a) a.FontFamily a.FontSizePt a.ColorRGBA = a := by
  rcases a with ⟨b, i, u, h, ff, fs, c⟩
  cases b <;> cases i <;> cases u <;> cases h <;>
    simp [decodeStyleAttr, encodeStyleFlags]

@[simp] theorem fmtEntryBytes_length (e : FormattingDirectiveEntry) :
    (fmtEntryBytes e).length = 24 := by
  simp [fmtEntryBytes]

/-- Bounds on one directive entry's numeric fields (Go types). -/
def WFFde (e : FormattingDirectiveEntry) : Prop :=
  e.BlockID < 2 ^ 64 ∧ e.Start < 2 ^ 32 ∧ e.End < 2 ^ 32 ∧ WFAttr e.Attr

instance (e : FormattingDirectiveEntry) : Decidable (WFFde e) := by
  unfold WFFde; infer_instance

/-- The entry loop inverts the 26-byte entry layout. -/
theorem decodeFmtLoop_ok (es : List FormattingDirectiveEntry)
    (hwf : ∀ e ∈ es, WFFde e ∧ isValidFontFamily e.Attr.FontFamily) :
    ∀ pre suf : List Nat,
      decodeFmtLoop (pre ++ (es.flatMap fmtEntryBytes ++ suf)) styleEntSz es.length pre.length
        = .ok es := by
  induction es with
  | nil => intro pre suf; rfl
  | cons e es ih =>
    intro pre suf
    obtain ⟨⟨hB, hS, hE, hFF, hFS, hC⟩, hvalid⟩ := hwf e (List.mem_cons_self e es)
    have hwf' : ∀ x ∈ es, WFFde x ∧ isValidFontFamily x.Attr.FontFamily :=
      fun x hx => hwf x (List.mem_cons_of_mem e hx)
    have hb : pre ++ ((e :: es).flatMap fmtEntryBytes ++ suf)
        = pre ++ (fmtEntryBytes e ++ (es.flatMap fmtEntryBytes ++ suf)) := by
      simp
    rw [hb]
    show decodeFmtLoop _ styleEntSz (es.length + 1) pre.length = _
    unfold decodeFmtLoop
    have hcond : ¬ ((pre ++ (fmtEntryBytes e ++ (es.flatMap fmtEntryBytes ++ suf))).length
        - pre.length < styleEntSz) := by
      simp only [List.length_append, fmtEntryBytes_length, styleEntSz]
      omega
    rw [if_neg hcond]
    have hID : leU64At (pre ++ (fmtEntryBytes e ++ (es.flatMap fmtEntryBytes ++ suf)))
        pre.length = e.BlockID := by
      rw [show pre.length = pre.length + 0 by omega, leU64At_append]
      rw [show fmtEntryBytes e ++ (es.flatMap fmtEntryBytes ++ suf)
          = u64le e.BlockID ++ (u32le e.Start ++ u32le e.End ++ [encodeStyleFlags e.Attr] ++
            [normalizeFontFamily e.Attr.FontFamily] ++ u16le e.Attr.FontSizePt ++
            u32le e.Attr.ColorRGBA ++ (es.flatMap fmtEntryBytes ++ suf)) by
        simp [fmtEntryBytes]]
      rw [leU64At_u64le, Nat.mod_eq_of_lt hB]
    have hstart : leU32At (pre ++ (fmtEntryBytes e ++ (es.flatMap fmtEntryBytes ++ suf)))
        (pre.length + 8) = e.Start := by
      rw [show pre.length + 8 = (pre ++ u64le e.BlockID).length + 0 by simp]
      rw [show pre ++ (fmtEntryBytes e ++ (es.flatMap fmtEntryBytes ++ suf))
          = (pre ++ u64le e.BlockID) ++ (u32le e.Start ++ (u32le e.End ++
            [encodeStyleFlags e.Attr] ++ [normalizeFontFamily e.Attr.FontFamily] ++
            u16le e.Attr.FontSizePt ++ u32le e.Attr.ColorRGBA ++
            (es.flatMap fmtEntryBytes ++ suf))) by simp [fmtEntryBytes]]
      rw [leU32At_append, leU32At_u32le, Nat.mod_eq_of_lt hS]
    have hend : leU32At (pre ++ (fmtEntryBytes e ++ (es.flatMap fmtEntryBytes ++ suf)))
        (pre.length + 12) = e.End := by
      rw [show pre.length + 12 = (pre ++ u64le e.BlockID ++ u32le e.Start).length + 0 by simp]
      rw [show pre ++ (fmtEntryBytes e ++ (es.flatMap fmtEntryBytes ++ suf))
          = (pre ++ u64le e.BlockID ++ u32le e.Start) ++ (u32le e.End ++
            ([encodeStyleFlags e.Attr] ++ [normalizeFontFamily e.Attr.FontFamily] ++
            u16le e.Attr.FontSizePt ++ u32le e.Attr.ColorRGBA ++
            (es.flatMap fmtEntryBytes ++ suf))) by simp [fmtEntryBytes]]
      rw [leU32At_append, leU32At_u32le, Nat.mod_eq_of_lt hE]
    have hflags : byteAt (pre ++ (fmtEntryBytes e ++ (es.flatMap fmtEntryBytes ++ suf)))
        (pre.length + 16) = encodeStyleFlags e.Attr := by
      rw [show pre.length + 16
          = (pre ++ u64le e.BlockID ++ u32le e.Start ++ u32le e.End).length + 0 by simp]
      rw [show pre ++ (fmtEntryBytes e ++ (es.flatMap fmtEntryBytes ++ suf))
          = (pre ++ u64le e.BlockID ++ u32le e.Start ++ u32le e.End) ++
            ([encodeStyleFlags e.Attr] ++ ([normalizeFontFamily e.Attr.FontFamily] ++
            u16le e.Attr.FontSizePt ++ u32le e.Attr.ColorRGBA ++
            (es.flatMap fmtEntryBytes ++ suf))) by simp [fmtEntryBytes]]
      rw [byteAt_append_right]
      rfl
    have hffb : byteAt (pre ++ (fmtEntryBytes e ++ (es.flatMap fmtEntryBytes ++ suf)))
        (pre.length + 17) = normalizeFontFamily e.Attr.FontFamily := by
      rw [show pre.length + 17
          = (pre ++ u64le e.BlockID ++ u32le e.Start ++ u32le e.End ++
             [encodeStyleFlags e.Attr]).length + 0 by simp]
      rw [show pre ++ (fmtEntryBytes e ++ (es.flatMap fmtEntryBytes ++ suf))
          = (pre ++ u64le e.BlockID ++ u32le e.Start ++ u32le e.End ++
             [encodeStyleFlags e.Attr]) ++
            ([normalizeFontFamily e.Attr.FontFamily] ++ (u16le e.Attr.FontSizePt ++
            u32le e.Attr.ColorRGBA ++ (es.flatMap fmtEntryBytes ++ suf))) by
        simp [fmtEntryBytes]]
      rw [byteAt_append_right]
      rfl
    have hfs : leU16At (pre ++ (fmtEntryBytes e ++ (es.flatMap fmtEntryBytes ++ suf)))
        (pre.length + 18) = e.Attr.FontSizePt := by
      rw [show pre.length + 18
          = (pre ++ u64le e.BlockID ++ u32le e.Start ++ u32le e.End ++
             [encodeStyleFlags e.Attr] ++ [normalizeFontFamily e.Attr.FontFamily]).length + 0
          by simp]
      rw [show pre ++ (fmtEntryBytes e ++ (es.flatMap fmtEntryBytes ++ suf))
          = (pre ++ u64le e.BlockID ++ u32le e.Start ++ u32le e.End ++
             [encodeStyleFlags e.Attr] ++ [normalizeFontFamily e.Attr.FontFamily]) ++
            (u16le e.Attr.FontSizePt ++ (u32le e.Attr.ColorRGBA ++
            (es.flatMap fmtEntryBytes ++ suf))) by simp [fmtEntryBytes]]
      rw [leU16At_append]
      exact leU16At_u16le_small _ _ hFS
    have hcolor : leU32At (pre ++ (fmtEntryBytes e ++ (es.flatMap fmtEntryBytes ++ suf)))
        (pre.length + 20) = e.Attr.ColorRGBA := by
      rw [show pre.length + 20
          = (pre ++ u64le e.BlockID ++ u32le e.Start ++ u32le e.End ++
             [encodeStyleFlags e.Attr] ++ [normalizeFontFamily e.Attr.FontFamily] ++
             u16le e.Attr.FontSizePt).length + 0 by simp]
      rw [show pre ++ (fmtEntryBytes e ++ (es.flatMap fmtEntryBytes ++ suf))
          = (pre ++ u64le e.BlockID ++ u32le e.Start ++ u32le e.End ++
             [encodeStyleFlags e.Attr] ++ [normalizeFontFamily e.Attr.FontFamily] ++
             u16le e.Attr.FontSizePt) ++
            (u32le e.Attr.ColorRGBA ++ (es.flatMap fmtEntryBytes ++ suf)) by
        simp [fmtEntryBytes]]
      rw [leU32At_append, leU32At_u32le, Nat.mod_eq_of_lt hC]
    rw [if_pos rfl, if_pos rfl]
    simp only []
    rw [hID, hstart, hend, hflags, hffb, hfs, hcolor]
    have hrec : decodeFmtLoop (pre ++ (fmtEntryBytes e ++ (es.flatMap fmtEntryBytes ++ suf)))
        styleEntSz es.length (pre.length + styleEntSz) = .ok es := by
      have := ih hwf' (pre ++ fmtEntryBytes e) suf
      rw [show (pre ++ fmtEntryBytes e).length = pre.length + styleEntSz by
        simp [styleEntSz]] at this
      rw [show (pre ++ fmtEntryBytes e) ++ (es.flatMap fmtEntryBytes ++ suf)
          = pre ++ (fmtEntryBytes e ++ (es.flatMap fmtEntryBytes ++ suf)) by simp] at this
      exact this
    rw [hrec]
    have hnorm : normalizeFontFamily (normalizeFontFamily e.Attr.FontFamily)
        = e.Attr.FontFamily := by
      unfold normalizeFontFamily
      rw [if_pos hvalid, if_pos hvalid]
    rw [hnorm, decodeStyleAttr_flags]

/-- Length of the flattened directive entry region. -/
theorem flatMap_fmtEntryBytes_length (es : List FormattingDirectiveEntry) :
    (es.flatMap fmtEntryBytes).length = 24 * es.length := by
  induction es with
  | nil => rfl
  | cons e es ihe =>
    rw [List.flatMap_cons, List.length_append, fmtEntryBytes_length, ihe, List.length_cons]
    ring

/-- Decoding an encoded formatting directive recovers the entry list,
provided the entries fit their Go types and font families are valid. -/
theorem decodeFormattingDirective_encode (es : List FormattingDirectiveEntry)
    (hn : es.length < 2 ^ 32)
    (hwf : ∀ e ∈ es, WFFde e ∧ isValidFontFamily e.Attr.FontFamily) :
    decodeFormattingDirective (encodeFormattingDirective es) = .ok es := by
  have hflat := flatMap_fmtEntryBytes_length es
  unfold encodeFormattingDirective decodeFormattingDirective
  rw [if_neg (show ¬ ((u32le es.length ++ es.flatMap fmtEntryBytes).length < 4) by simp)]
  have hcount : leU32At (u32le es.length ++ es.flatMap fmtEntryBytes) 0 = es.length := by
    rw [leU32At_u32le, Nat.mod_eq_of_lt hn]
  simp only [hcount]
  by_cases hz : es.length = 0
  · rw [if_pos hz, List.length_eq_zero.mp hz]
  · rw [if_neg hz]
    have hrem : (u32le es.length ++ es.flatMap fmtEntryBytes).length - 4 = 24 * es.length := by
      simp [hflat]
    simp only [hrem]
    have hmod : ¬ (24 * es.length % es.length ≠ 0) := by
      simp [Nat.mul_mod_left]
    rw [if_neg hmod]
    have hdiv : 24 * es.length / es.length = styleEntSz := by
      rw [Nat.mul_comm, Nat.mul_div_cancel_left _ (Nat.pos_of_ne_zero hz)]
      rfl
    simp only [hdiv]
    rw [if_neg (show ¬ (styleEntSz ≠ styleEntSz ∧ styleEntSz ≠ styleEntV1) by simp)]
    have hloop := decodeFmtLoop_ok es hwf (u32le es.length) []
    rw [List.append_nil] at hloop
    simpa using hloop

/-- The entry loop always succeeds when the buffer holds at least
`n * sz` bytes past `ptr`, producing `n` entries; with the legacy stride
every entry's font family is the `Sans` default. -/
theorem decodeFmtLoop_total (b : List Nat) (sz : Nat) :
    ∀ n ptr, n * sz ≤ b.length - ptr → 0 < sz →
      ∃ es, decodeFmtLoop b sz n ptr = .ok es ∧ es.length = n ∧
        (sz ≠ styleEntSz → ∀ e ∈ es, e.Attr.FontFamily = FontFamilySans) := by
  intro n
  induction n with
  | zero =>
    intro ptr h hsz
    exact ⟨[], rfl, rfl, fun _ e he => absurd he (List.not_mem_nil e)⟩
  | succ n ih =>
    intro ptr h hsz
    have hmul : (n + 1) * sz = n * sz + sz := by ring
    unfold decodeFmtLoop
    rw [if_neg (show ¬ (b.length - ptr < sz) by omega)]
    obtain ⟨es, hes, hlen, hfam⟩ := ih (ptr + sz) (by omega) hsz
    simp only []
    rw [hes]
    refine ⟨_, rfl, by simp [hlen], ?_⟩
    intro hne e he
    rcases List.mem_cons.mp he with rfl | hmem
    · simp [decodeStyleAttr, hne]
    · exact hfam hne e hmem

/-- Decoding an encoded text block recovers the text with no runs. -/
theorem decodeTextBlock_encode (tb : TextBlock) (hlen : tb.UTF8.length < 2 ^ 32) :
    decodeTextBlock (encodeTextBlock tb) = .ok ⟨tb.UTF8, []⟩ := by
  unfold encodeTextBlock decodeTextBlock
  rw [if_neg (by simp)]
  have hread : leU32At (u32le tb.UTF8.length ++ tb.UTF8) 0 = tb.UTF8.length := by
    rw [leU32At_u32le, Nat.mod_eq_of_lt hlen]
  rw [hread]
  rw [if_neg (by simp)]
  have hdrop : (u32le tb.UTF8.length ++ tb.UTF8).drop 4 = tb.UTF8 := by
    rw [show (4 : Nat) = (u32le tb.UTF8.length).length by simp, List.drop_left]
  rw [hdrop, List.take_length]
  rw [if_pos (by simp)]

/-! ## Encoder structure -/

/-- The payload of one block as the encoder emits it (text blocks only;
`Validate` has already ruled everything else out). -/
def textPayload (b : Block) : List Nat :=
  match b.Text with
  | some tb => encodeTextBlock tb
  | none => []

/-- The ordered payload list of a document: metadata, formatting
directive, then one payload per block in document order. -/
def docPayloadEntries (doc : Document) : List payloadEntry :=
  ⟨metaBlockID, BlockKindMetadata, encodeMetadata doc.Metadata⟩ ::
  ⟨fmtBlockID, BlockKindStyle, encodeFormattingDirective (collectFormatting doc)⟩ ::
  doc.Blocks.map (fun b => ⟨b.ID, b.Kind, textPayload b⟩)

/-- The result the encoder produces on the success path. -/
def encodeResultOf (doc : Document) : encodeResult :=
  let payloads := docPayloadEntries doc
  let tocLength := payloads.length * tocEntSize % 2 ^ 32
  let entries := buildEntries (headerSize + tocLength) payloads
  let blob := MagicString ++ u16le VersionV1 ++ u16le FlagRandomAccess ++
    u64le headerSize ++ u32le entries.length ++ entries.flatMap tocEntryBytes ++
    payloads.flatMap payloadEntry.Payload
  ⟨blob, entries, headerSize, tocLength⟩

/-- On a validated block list the per-block encoding loop succeeds and
produces exactly the text payloads. -/
theorem blockPayloads_eq (bs : List Block)
    (h : ∀ b ∈ bs, b.Kind = BlockKindText ∧ ∃ tb, b.Text = some tb) :
    blockPayloads bs = .ok (bs.map (fun b => ⟨b.ID, b.Kind, textPayload b⟩)) := by
  induction bs with
  | nil => rfl
  | cons b bs ih =>
    obtain ⟨hk, tb, htb⟩ := h b (List.mem_cons_self b bs)
    unfold blockPayloads
    have henc : encodeBlockPayload b = .ok (textPayload b) := by
      unfold encodeBlockPayload
      rw [if_pos hk, htb]
      unfold textPayload
      rw [htb]
    rw [henc, ih (fun b hb => h b (List.mem_cons_of_mem _ hb))]
    rfl

/-- The decoder reaches the legacy run table exactly when at least four
bytes follow the text, and keeps NO runs when the table is truncated. -/
theorem decodeTextBlock_truncated (txt rest : List Nat) (hlen : txt.length < 2 ^ 32)
    (hrest : 4 ≤ rest.length)
    (htrunc : decodeRunLoop (u32le txt.length ++ (txt ++ rest))
        (leU32At rest 0) (4 + txt.length + 4) = none) :
    decodeTextBlock (u32le txt.length ++ (txt ++ rest)) = .ok ⟨txt, []⟩ := by
  unfold decodeTextBlock
  rw [if_neg (by simp)]
  have hread : leU32At (u32le txt.length ++ (txt ++ rest)) 0 = txt.length := by
    rw [leU32At_u32le, Nat.mod_eq_of_lt hlen]
  simp only [hread]
  rw [if_neg (by simp)]
  have hdrop : (u32le txt.length ++ (txt ++ rest)).drop 4 = txt ++ rest := by
    rw [show (4 : Nat) = (u32le txt.length).length by simp, List.drop_left]
  rw [hdrop, List.take_left]
  rw [if_neg (by simp; omega)]
  have hcount : leU32At (u32le txt.length ++ (txt ++ rest)) (4 + txt.length) = leU32At rest 0 := by
    rw [show u32le txt.length ++ (txt ++ rest) = (u32le txt.length ++ txt) ++ rest by simp,
        show 4 + txt.length = (u32le txt.length ++ txt).length + 0 by simp, leU32At_append]
  rw [hcount, htrunc]

/-! ## Style-run validation analysis -/

/-- Run `r` styles the text byte at `pos`. -/
def runCovers (r : StyleRun) (pos : Nat) : Prop := r.Start ≤ pos ∧ pos < r.End

instance (r : StyleRun) (pos : Nat) : Decidable (runCovers r pos) := by
  unfold runCovers; infer_instance

/-- Two runs style no byte in common. -/
def NoCommonByte (a b : StyleRun) : Prop :=
  ∀ pos, ¬ (runCovers a pos ∧ runCovers b pos)

theorem NoCommonByte.symm {a b : StyleRun} (h : NoCommonByte a b) : NoCommonByte b a :=
  fun pos hc => h pos ⟨hc.2, hc.1⟩

/-- Inversion of one passing `checkRuns` step. -/
theorem checkRuns_cons_none {txtLen : Nat} {r0 : StyleRun} {rs : List StyleRun}
    {lastEnd : Option Nat} (h : checkRuns txtLen lastEnd (r0 :: rs) = none) :
    r0.Start ≤ r0.End ∧ (r0.Start = r0.End → txtLen = 0 ∧ r0.Start = 0) ∧
    r0.End ≤ txtLen ∧ (∀ e0, lastEnd = some e0 → e0 ≤ r0.Start) ∧
    r0.Attr.FontSizePt ≠ 0 ∧ isValidFontFamily r0.Attr.FontFamily ∧
    checkRuns txtLen (some r0.End) rs = none := by
  rcases lastEnd with _ | e0
  · unfold checkRuns at h
    split_ifs at h with h1 h2 h3 h4 h5 h6 <;> try exact absurd h (by simp)
    refine ⟨by omega, ?_, by omega, ?_, h5, h6, h⟩
    · intro hz
      by_cases hc : txtLen = 0 ∧ r0.Start = 0
      · exact hc
      · exact absurd ⟨hz, hc⟩ h2
    · intro e1 he1
      exact absurd he1 (by simp)
  · unfold checkRuns at h
    split_ifs at h with h1 h2 h3 h4 h5 h6 <;> try exact absurd h (by simp)
    refine ⟨by omega, ?_, by omega, ?_, h5, h6, h⟩
    · intro hz
      by_cases hc : txtLen = 0 ∧ r0.Start = 0
      · exact hc
      · exact absurd ⟨hz, hc⟩ h2
    · intro e1 he1
      injection he1 with he1
      subst he1
      simp only [decide_eq_true_eq] at h4
      omega

/-- Per-run facts guaranteed by a passing `checkRuns` scan. -/
theorem checkRuns_none_facts (txtLen : Nat) :
    ∀ (runs : List StyleRun) (lastEnd : Option Nat),
      checkRuns txtLen lastEnd runs = none →
      ∀ r ∈ runs, r.Start ≤ r.End ∧ (r.Start = r.End → txtLen = 0 ∧ r.Start = 0) ∧
        r.End ≤ txtLen ∧ r.Attr.FontSizePt ≠ 0 ∧ isValidFontFamily r.Attr.FontFamily := by
  intro runs
  induction runs with
  | nil => intro lastEnd _ r hr; exact absurd hr (List.not_mem_nil r)
  | cons r0 rs ih =>
    intro lastEnd hchk r hr
    obtain ⟨ha, hb, hc, -, hd, he, hrec⟩ := checkRuns_cons_none hchk
    rcases List.mem_cons.mp hr with rfl | hmem
    · exact ⟨ha, hb, hc, hd, he⟩
    · exact ih (some r0.End) hrec r hmem

/-- A passing scan with a previous end bound forces every later run to
start at or after it. -/
theorem checkRuns_lower (txtLen : Nat) :
    ∀ (runs : List StyleRun) (e0 : Nat),
      checkRuns txtLen (some e0) runs = none → ∀ r ∈ runs, e0 ≤ r.Start := by
  intro runs
  induction runs with
  | nil => intro e0 _ r hr; exact absurd hr (List.not_mem_nil r)
  | cons r0 rs ih =>
    intro e0 hchk r hr
    obtain ⟨ha, -, -, hlo, -, -, hrec⟩ := checkRuns_cons_none hchk
    have h0 : e0 ≤ r0.Start := hlo e0 rfl
    rcases List.mem_cons.mp hr with rfl | hmem
    · exact h0
    · have := ih r0.End hrec r hmem
      omega

/-- A passing scan leaves the scanned runs pairwise byte-disjoint. -/
theorem checkRuns_disjoint (txtLen : Nat) :
    ∀ (runs : List StyleRun) (lastEnd : Option Nat),
      checkRuns txtLen lastEnd runs = none →
      List.Pairwise NoCommonByte runs := by
  intro runs
  induction runs with
  | nil => intro _ _; exact List.Pairwise.nil
  | cons r0 rs ih =>
    intro lastEnd hchk
    obtain ⟨-, -, -, -, -, -, hrec⟩ := checkRuns_cons_none hchk
    refine List.Pairwise.cons ?_ (ih (some r0.End) hrec)
    intro b hb pos hcov
    have hlo := checkRuns_lower txtLen rs r0.End hrec b hb
    rcases hcov with ⟨⟨_, hpe⟩, ⟨hbs, _⟩⟩
    omega

/-- A validated text block's runs are pairwise byte-disjoint. -/
theorem validateRuns_disjoint (tb : TextBlock) (h : validateRuns tb = none) :
    List.Pairwise NoCommonByte tb.Runs := by
  unfold validateRuns at h
  have hsorted := checkRuns_disjoint tb.UTF8.length _ none h
  exact ((List.mergeSort_perm tb.Runs runLe).pairwise_iff
    (fun h => h.symm)).mp hsorted

/-- A validated text block's runs obey the per-run range rules. -/
theorem validateRuns_facts (tb : TextBlock) (h : validateRuns tb = none) :
    ∀ r ∈ tb.Runs, r.Start ≤ r.End ∧
      (r.Start = r.End → tb.UTF8.length = 0 ∧ r.Start = 0) ∧
      r.End ≤ tb.UTF8.length ∧ r.Attr.FontSizePt ≠ 0 ∧
      isValidFontFamily r.Attr.FontFamily := by
  intro r hr
  unfold validateRuns at h
  exact checkRuns_none_facts tb.UTF8.length _ none h r
    ((List.mergeSort_perm tb.Runs runLe).mem_iff.mpr hr)

/-! ## Validation structure lemmas -/

/-- Inversion of one passing `validateBlocks` step. -/
theorem validateBlocks_cons_none {seen : List Nat} {i : Nat} {b0 : Block} {bs : List Block}
    (h : validateBlocks seen i (b0 :: bs) = none) :
    b0.ID ≠ 0 ∧ b0.ID ≠ fmtBlockID ∧ b0.ID ∉ seen ∧ b0.Kind = BlockKindText ∧
    ∃ tb, b0.Text = some tb ∧ utf8Valid tb.UTF8 ∧ validateRuns tb = none ∧
      validateBlocks (b0.ID :: seen) (i + 1) bs = none := by
  unfold validateBlocks at h
  split_ifs at h with h1 h2 h3
  all_goals try exact (Option.some_ne_none _ h).elim
  rcases htext : b0.Text with _ | tb <;> rw [htext] at h <;> simp only [] at h
  · exact (Option.some_ne_none _ h).elim
  · split_ifs at h with h4
    all_goals try exact (Option.some_ne_none _ h).elim
    rcases hrun : validateRuns tb with _ | e
    · rw [hrun] at h
      push_neg at h1
      exact ⟨h1.1, h1.2, h2, by tauto, tb, rfl, by simpa using h4, hrun, h⟩
    · rw [hrun] at h
      exact (Option.some_ne_none _ h).elim

/-- What a passing `validateBlocks` guarantees for every block. -/
theorem validateBlocks_none :
    ∀ (bs : List Block) (seen : List Nat) (i : Nat),
      validateBlocks seen i bs = none →
      ∀ b ∈ bs, b.ID ≠ 0 ∧ b.ID ≠ fmtBlockID ∧ b.ID ∉ seen ∧
        b.Kind = BlockKindText ∧
        ∃ tb, b.Text = some tb ∧ utf8Valid tb.UTF8 ∧ validateRuns tb = none := by
  intro bs
  induction bs with
  | nil => intro seen i _ b hb; exact absurd hb (List.not_mem_nil b)
  | cons b0 bs ih =>
    intro seen i hv b hb
    obtain ⟨hz, hf, hs, hk, tb, htb, hu, hr, hrec⟩ := validateBlocks_cons_none hv
    rcases List.mem_cons.mp hb with rfl | hmem
    · exact ⟨hz, hf, hs, hk, tb, htb, hu, hr⟩
    · have := ih (b0.ID :: seen) (i + 1) hrec b hmem
      exact ⟨this.1, this.2.1, fun hmem2 => this.2.2.1 (List.mem_cons_of_mem _ hmem2),
        this.2.2.2.1, this.2.2.2.2⟩

/-- A validated document's blocks carry pairwise-distinct IDs. -/
theorem validateBlocks_nodup :
    ∀ (bs : List Block) (seen : List Nat) (i : Nat),
      validateBlocks seen i bs = none →
      List.Pairwise (fun a b : Block => a.ID ≠ b.ID) bs := by
  intro bs
  induction bs with
  | nil => intro _ _ _; exact List.Pairwise.nil
  | cons b0 bs ih =>
    intro seen i hv
    obtain ⟨-, -, -, -, tb, -, -, -, hrec⟩ := validateBlocks_cons_none hv
    refine List.Pairwise.cons ?_ (ih (b0.ID :: seen) (i + 1) hrec)
    intro b hb heq
    have := validateBlocks_none bs (b0.ID :: seen) (i + 1) hrec b hb
    exact this.2.2.1 (heq ▸ List.mem_cons_self b0.ID seen)

/-- Unpacked form of a passing `Validate`. -/
theorem Validate_none (doc : Document) (h : Validate doc = none) :
    utf8Valid doc.Metadata.Author ∧ utf8Valid doc.Metadata.Title ∧
    isValidFontFamily doc.Metadata.PreferredFontFamily ∧
    (∀ b ∈ doc.Blocks, b.ID ≠ 0 ∧ b.ID ≠ fmtBlockID ∧ b.Kind = BlockKindText ∧
      ∃ tb, b.Text = some tb ∧ utf8Valid tb.UTF8 ∧ validateRuns tb = none) ∧
    List.Pairwise (fun a b : Block => a.ID ≠ b.ID) doc.Blocks := by
  unfold Validate at h
  split_ifs at h with h1 h2 <;> try exact absurd h (by simp)
  push_neg at h1
  refine ⟨by simpa using h1.1, by simpa using h1.2, by simpa using h2, ?_, ?_⟩
  · intro b hb
    have := validateBlocks_none doc.Blocks [] 0 h b hb
    exact ⟨this.1, this.2.1, this.2.2.2.1, this.2.2.2.2⟩
  · exact validateBlocks_nodup doc.Blocks [] 0 h

/-- On a validated document the encoder succeeds with the structured
result. -/
theorem encodeDocumentDetailed_ok (doc : Document) (hv : Validate doc = none) :
    encodeDocumentDetailed doc = .ok (encodeResultOf doc) := by
  have hfacts := (Validate_none doc hv).2.2.2.1
  unfold encodeDocumentDetailed
  rw [blockPayloads_eq doc.Blocks (fun b hb => ⟨(hfacts b hb).2.2.1,
    ((hfacts b hb).2.2.2).imp (fun tb htb => htb.1)⟩)]
  rfl


/-! ## Decoder gate analysis -/

/-- The TOC entries `decodeDocument` parses from a blob (after the header
gates), as a standalone definition. -/
def parsedEntries (blob : List Nat) : List tocEntry :=
  (List.range (leU32At blob 38)).map
    (fun i => parseTocEntry blob (leU64At blob 30 + tocEntSize * i))

theorem byteAt_lt (b : List Nat) (h : IsBytes b) (i : Nat) : byteAt b i < 256 := by
  unfold byteAt
  rw [List.getD_eq_getElem?_getD]
  by_cases hi : i < b.length
  · rw [List.getElem?_eq_getElem hi]
    exact h _ (List.getElem_mem hi)
  · rw [List.getElem?_eq_none (by omega)]
    simp

theorem leU16At_lt (b : List Nat) (h : IsBytes b) (i : Nat) : leU16At b i < 2 ^ 16 := by
  unfold leU16At
  have h0 := byteAt_lt b h i
  have h1 := byteAt_lt b h (i + 1)
  omega

theorem leU32At_lt (b : List Nat) (h : IsBytes b) (i : Nat) : leU32At b i < 2 ^ 32 := by
  unfold leU32At
  have h0 := byteAt_lt b h i
  have h1 := byteAt_lt b h (i + 1)
  have h2 := byteAt_lt b h (i + 2)
  have h3 := byteAt_lt b h (i + 3)
  omega

theorem leU64At_lt (b : List Nat) (h : IsBytes b) (i : Nat) : leU64At b i < 2 ^ 64 := by
  unfold leU64At
  have h0 := byteAt_lt b h i
  have h1 := byteAt_lt b h (i + 1)
  have h2 := byteAt_lt b h (i + 2)
  have h3 := byteAt_lt b h (i + 3)
  have h4 := byteAt_lt b h (i + 4)
  have h5 := byteAt_lt b h (i + 5)
  have h6 := byteAt_lt b h (i + 6)
  have h7 := byteAt_lt b h (i + 7)
  omega

/-- Parsed TOC entry fields are bounded on byte input. -/
theorem parseTocEntry_bounds (blob : List Nat) (h : IsBytes blob) (p : Nat) :
    (parseTocEntry blob p).Offset < 2 ^ 64 ∧ (parseTocEntry blob p).Length < 2 ^ 32 := by
  exact ⟨leU64At_lt blob h (p + 9), leU32At_lt blob h (p + 17)⟩

/-- A passing adjacent-overlap scan yields the chain of end-before-start
inequalities. -/
theorem chainCheck_none_chain :
    ∀ rs : List (Nat × Nat), chainCheck rs = none →
      List.Chain' (fun a b : Nat × Nat => a.2 ≤ b.1) rs := by
  intro rs
  induction rs with
  | nil => intro _; exact List.chain'_nil
  | cons a rest ih =>
    intro h
    rcases rest with _ | ⟨b, rest'⟩
    · exact List.chain'_singleton a
    · unfold chainCheck at h
      split_ifs at h with h1
      exact List.Chain'.cons (by omega) (ih h)

/-- The scan returns either no error or the overlapping-blocks error. -/
theorem chainCheck_cases :
    ∀ rs : List (Nat × Nat), chainCheck rs = none ∨ chainCheck rs = some .overlappingBlocks := by
  intro rs
  induction rs with
  | nil => left; rfl
  | cons a rest ih =>
    rcases rest with _ | ⟨b, rest'⟩
    · left; rfl
    · unfold chainCheck
      split_ifs with h1
      · right; rfl
      · exact ih

/-- Well-formed ranges linked by the chain are pairwise ordered. -/
theorem chain_pairwise_ranges :
    ∀ rs : List (Nat × Nat), (∀ r ∈ rs, r.1 ≤ r.2) →
      List.Chain' (fun a b : Nat × Nat => a.2 ≤ b.1) rs →
      List.Pairwise (fun a b : Nat × Nat => a.2 ≤ b.1) rs := by
  intro rs
  induction rs with
  | nil => intro _ _; exact List.Pairwise.nil
  | cons a rest ih =>
    intro hwf hch
    have hch' := (List.chain'_cons'.mp hch).2
    have hpw := ih (fun r hr => hwf r (List.mem_cons_of_mem a hr)) hch'
    refine List.Pairwise.cons ?_ hpw
    intro b hb
    rcases rest with _ | ⟨c, rest'⟩
    · exact absurd hb (List.not_mem_nil b)
    · have hac : a.2 ≤ c.1 := (List.chain'_cons.mp hch).1
      rcases List.mem_cons.mp hb with rfl | hmem
      · exact hac
      · have hcwf : c.1 ≤ c.2 := hwf c (by simp)
        have := (List.pairwise_cons.mp hpw).1 b hmem
        omega

/-- Two byte ranges that share no position. -/
def rangesDisjoint (a b : Nat × Nat) : Prop :=
  ∀ x, ¬ (a.1 ≤ x ∧ x < a.2 ∧ b.1 ≤ x ∧ x < b.2)

theorem rangesDisjoint_symm {a b : Nat × Nat} (h : rangesDisjoint a b) :
    rangesDisjoint b a := fun x hx => h x ⟨hx.2.2.1, hx.2.2.2, hx.1, hx.2.1⟩

/-- In-bounds entries produce exactly their ranges. -/
theorem collectRanges_ok (len : Nat) (hlen : len < 2 ^ 63) :
    ∀ entries : List tocEntry,
      (∀ e ∈ entries, e.Offset + e.Length ≤ len) →
      (∀ e ∈ entries, e.Offset < 2 ^ 64 ∧ e.Length < 2 ^ 32) →
      collectRanges len entries
        = .ok (entries.map (fun e => (e.Offset, e.Offset + e.Length))) := by
  intro entries
  induction entries with
  | nil => intro _ _; rfl
  | cons e es ih =>
    intro hin hb
    have he := hin e (List.mem_cons_self e es)
    have heb := hb e (List.mem_cons_self e es)
    unfold collectRanges
    rw [if_neg (by omega)]
    have hnw : (e.Offset + e.Length) % 2 ^ 64 = e.Offset + e.Length :=
      Nat.mod_eq_of_lt (by omega)
    rw [hnw, if_neg (by omega)]
    rw [ih (fun x hx => hin x (List.mem_cons_of_mem e hx))
        (fun x hx => hb x (List.mem_cons_of_mem e hx))]
    rfl

/-- An out-of-bounds entry anywhere forces the invalid-block-range
error. -/
theorem collectRanges_err (len : Nat) (hlen : len < 2 ^ 63) :
    ∀ entries : List tocEntry,
      (∀ e ∈ entries, e.Offset < 2 ^ 64 ∧ e.Length < 2 ^ 32) →
      (∃ e ∈ entries, len < e.Offset + e.Length) →
      collectRanges len entries = .error .invalidBlockRange := by
  intro entries
  induction entries with
  | nil => intro _ hex; simp at hex
  | cons e es ih =>
    intro hb hex
    have heb := hb e (List.mem_cons_self e es)
    unfold collectRanges
    by_cases ho : e.Offset > len
    · rw [if_pos ho]
    rw [if_neg ho]
    have hnw : (e.Offset + e.Length) % 2 ^ 64 = e.Offset + e.Length :=
      Nat.mod_eq_of_lt (by omega)
    rw [hnw]
    by_cases hend : e.Offset + e.Length > len
    · rw [if_pos hend]
    rw [if_neg hend]
    obtain ⟨x, hx, hxout⟩ := hex
    rcases List.mem_cons.mp hx with rfl | hmem
    · omega
    · rw [ih (fun y hy => hb y (List.mem_cons_of_mem e hy)) ⟨x, hmem, hxout⟩]

/-- The entry-processing fold splits over list concatenation. -/
theorem decFold_append (blob : List Nat) :
    ∀ (l1 l2 : List tocEntry) (st : decState),
      decFold blob st (l1 ++ l2)
        = (match decFold blob st l1 with
           | .ok st' => decFold blob st' l2
           | .error e => .error e) := by
  intro l1
  induction l1 with
  | nil => intro l2 st; rfl
  | cons e l1 ih =>
    intro l2 st
    have hstep : ∀ l : List tocEntry, decFold blob st (e :: l)
        = (match processEntry blob st e with
           | .error err => .error err
           | .ok st' => decFold blob st' l) := fun _ => rfl
    rw [List.cons_append, hstep (l1 ++ l2), hstep l1]
    rcases processEntry blob st e with err | st'
    · rfl
    · exact ih l2 st'

/-- Once all header gates pass, the decoder is the range check followed
by the entry fold. -/
theorem decodeDocument_reach (blob : List Nat)
    (h42 : headerSize ≤ blob.length) (hmg : blob.take 26 = MagicString)
    (hver : leU16At blob 26 = VersionV1) (hflag : leU16At blob 28 % 2 = 1)
    (hto : leU64At blob 30 ≤ blob.length)
    (hte : leU64At blob 30 + leU32At blob 38 * tocEntSize ≤ blob.length)
    (hnw : (leU64At blob 30 + leU32At blob 38 * tocEntSize) % 2 ^ 64
      = leU64At blob 30 + leU32At blob 38 * tocEntSize) :
    decodeDocument blob =
      (match validateEntryRanges (parsedEntries blob) blob.length with
       | some e => .error e
       | none =>
         match decFold blob initState (parsedEntries blob) with
         | .error e => .error e
         | .ok st => .ok ⟨st.Metadata, (attachAll st.Blocks st.directive).map sortBlockRuns⟩) := by
  unfold decodeDocument
  rw [if_neg (by omega), if_neg (fun hne => hne hmg),
      if_neg (fun hne => hne hver), if_neg (by omega)]
  simp only []
  rw [if_neg (by omega), hnw, if_neg (by omega)]
  rfl

/-! ## Encoded blob layout analysis -/

/-- Total payload length of a payload-entry list. -/
def sumLens (ps : List payloadEntry) : Nat := (ps.map (fun p => p.Payload.length)).sum

/-- Wrap-free reference form of `buildEntries`: the running offset and the
length field without their reductions, valid for files below 2^64 bytes
whose payloads fit `uint32`. -/
def buildEntriesNM (base : Nat) : List payloadEntry → List tocEntry
  | [] => []
  | p :: ps =>
    ⟨p.ID, p.Kind, base, p.Payload.length, crc32 p.Payload⟩ ::
      buildEntriesNM (base + p.Payload.length) ps

/-- The text bytes of a block (empty for a missing payload). -/
def textOf (b : Block) : List Nat :=
  match b.Text with
  | some tb => tb.UTF8
  | none => []

/-- The style runs of a block (empty for a missing payload). -/
def runsOf (b : Block) : List StyleRun :=
  match b.Text with
  | some tb => tb.Runs
  | none => []

/-- The tagged directive entries one block contributes to the formatting
directive (the body of `collectFormatting`'s accumulation). -/
def tagF (b : Block) : List FormattingDirectiveEntry :=
  if b.Kind ≠ BlockKindText then []
  else match b.Text with
    | none => []
    | some tb => tb.Runs.map (fun r => FormattingDirectiveEntry.mk b.ID r.Start r.End r.Attr)

/-- All tagged style runs of a document in document order: the pre-sort
contents of `collectFormatting`'s accumulator. -/
def allTaggedRuns (doc : Document) : List FormattingDirectiveEntry :=
  doc.Blocks.flatMap tagF

/-- Payload-size bounds under which no `uint32` length field wraps during
encoding: the metadata payload, the formatting-directive payload and each
text payload fit `uint32`. -/
def EncBounded (doc : Document) : Prop :=
  (encodeMetadata doc.Metadata).length < 2 ^ 32 ∧
  (encodeFormattingDirective (collectFormatting doc)).length < 2 ^ 32 ∧
  ∀ b ∈ doc.Blocks, (textPayload b).length < 2 ^ 32

instance (doc : Document) : Decidable (EncBounded doc) := by
  unfold EncBounded; infer_instance

/-- The style runs a directive list reattaches to the block with the
given ID, in directive order. -/
def runsFor (id : Nat) (ds : List FormattingDirectiveEntry) : List StyleRun :=
  (ds.filter (fun d => d.BlockID == id)).map (fun d => ⟨d.Start, d.End, d.Attr⟩)

/-- Append a batch of reattached runs to a block's text payload. -/
def addRunsTo (b : Block) (rs : List StyleRun) : Block :=
  match b.Text with
  | none => b
  | some tb => { b with Text := some { tb with Runs := tb.Runs ++ rs } }

/-- Run `r` covers position `pos`, as a Boolean. -/
def coversB (pos : Nat) (r : StyleRun) : Bool := decide (r.Start ≤ pos ∧ pos < r.End)

/-- The effective style a run list gives to one text position: the
attribute of the first run covering it (unique when the runs are pairwise
disjoint). -/
def styleAt (rs : List StyleRun) (pos : Nat) : Option StyleAttr :=
  (rs.find? (coversB pos)).map StyleRun.Attr

/-- `processEntry` specialised to an entry whose payload slice and CRC
are exact: dispatch on the payload's kind. -/
def psStep (st : decState) (p : payloadEntry) : Except SqErr decState :=
  if p.Kind = BlockKindMetadata then
    match decodeMetadata p.Payload with
    | .error err => .error err
    | .ok m => .ok { st with Metadata := m }
  else if p.Kind = BlockKindStyle then
    match decodeFormattingDirective p.Payload with
    | .error err => .error err
    | .ok d => .ok { st with directive := d }
  else if p.Kind = BlockKindText then
    match decodeTextBlock p.Payload with
    | .error err => .error err
    | .ok tb => .ok { st with Blocks := st.Blocks ++ [⟨p.ID, BlockKindText, some tb⟩] }
  else .ok st

/-- Fold `psStep` over the payloads in order. -/
def psFold (st : decState) : List payloadEntry → Except SqErr decState
  | [] => .ok st
  | p :: ps =>
    match psStep st p with
    | .error err => .error err
    | .ok st' => psFold st' ps

/-- The payload base offset of an encoded document. -/
def encBase (doc : Document) : Nat :=
  headerSize + (docPayloadEntries doc).length * tocEntSize

/-- The TOC entries of an encoded document, in wrap-free form. -/
def encEntries (doc : Document) : List tocEntry :=
  buildEntriesNM (encBase doc) (docPayloadEntries doc)

/-- The full encoded blob of a document, in wrap-free form. -/
def encBlob (doc : Document) : List Nat :=
  MagicString ++ u16le VersionV1 ++ u16le FlagRandomAccess ++ u64le headerSize ++
    u32le (docPayloadEntries doc).length ++ (encEntries doc).flatMap tocEntryBytes ++
    (docPayloadEntries doc).flatMap payloadEntry.Payload

@[simp] theorem sumLens_nil : sumLens [] = 0 := rfl

@[simp] theorem sumLens_cons (p : payloadEntry) (ps : List payloadEntry) :
    sumLens (p :: ps) = p.Payload.length + sumLens ps := by
  simp [sumLens]

/-- Below 2^64 total bytes with `uint32` payloads, `buildEntries` equals
its wrap-free form. -/
theorem buildEntries_eq_NM :
    ∀ (ps : List payloadEntry) (base : Nat), base + sumLens ps < 2 ^ 64 →
      (∀ p ∈ ps, p.Payload.length < 2 ^ 32) →
      buildEntries base ps = buildEntriesNM base ps := by
  intro ps
  induction ps with
  | nil => intro base _ _; rfl
  | cons p ps ih =>
    intro base hsmall hb
    rw [sumLens_cons] at hsmall
    have hp := hb p (List.mem_cons_self p ps)
    show (⟨p.ID, p.Kind, base, p.Payload.length % 2 ^ 32, crc32 p.Payload⟩ : tocEntry) ::
        buildEntries ((base + p.Payload.length) % 2 ^ 64) ps
      = (⟨p.ID, p.Kind, base, p.Payload.length, crc32 p.Payload⟩ : tocEntry) ::
        buildEntriesNM (base + p.Payload.length) ps
    rw [Nat.mod_eq_of_lt hp,
        Nat.mod_eq_of_lt (show base + p.Payload.length < 2 ^ 64 by omega),
        ih (base + p.Payload.length) (by omega)
          (fun q hq => hb q (List.mem_cons_of_mem p hq))]

theorem buildEntries_length :
    ∀ (ps : List payloadEntry) (base : Nat), (buildEntries base ps).length = ps.length := by
  intro ps
  induction ps with
  | nil => intro base; rfl
  | cons p ps ih =>
    intro base
    show (⟨p.ID, p.Kind, base, p.Payload.length % 2 ^ 32, crc32 p.Payload⟩ :: _ :
      List tocEntry).length = _
    rw [List.length_cons, ih, List.length_cons]

theorem buildEntriesNM_length :
    ∀ (ps : List payloadEntry) (base : Nat), (buildEntriesNM base ps).length = ps.length := by
  intro ps
  induction ps with
  | nil => intro base; rfl
  | cons p ps ih =>
    intro base
    show (_ :: buildEntriesNM (base + p.Payload.length) ps : List tocEntry).length = _
    rw [List.length_cons, ih, List.length_cons]

/-- The entries carry the payloads' IDs and kinds in order. -/
theorem buildEntriesNM_map_idkind :
    ∀ (ps : List payloadEntry) (base : Nat),
      (buildEntriesNM base ps).map (fun e => (e.ID, e.Kind))
        = ps.map (fun p => (p.ID, p.Kind)) := by
  intro ps
  induction ps with
  | nil => intro base; rfl
  | cons p ps ih =>
    intro base
    show ((⟨p.ID, p.Kind, base, p.Payload.length, crc32 p.Payload⟩ : tocEntry) ::
        buildEntriesNM (base + p.Payload.length) ps).map _ = _
    rw [List.map_cons, ih, List.map_cons]

/-- Each entry reflects some payload's ID, kind, length and CRC. -/
theorem buildEntriesNM_mem :
    ∀ (ps : List payloadEntry) (base : Nat), ∀ e ∈ buildEntriesNM base ps,
      ∃ p ∈ ps, e.ID = p.ID ∧ e.Kind = p.Kind ∧ e.Length = p.Payload.length ∧
        e.CRC32 = crc32 p.Payload := by
  intro ps
  induction ps with
  | nil => intro base e he; exact absurd he (List.not_mem_nil e)
  | cons p ps ih =>
    intro base e he
    rw [show buildEntriesNM base (p :: ps)
        = (⟨p.ID, p.Kind, base, p.Payload.length, crc32 p.Payload⟩ : tocEntry) ::
          buildEntriesNM (base + p.Payload.length) ps from rfl] at he
    rcases List.mem_cons.mp he with rfl | hm
    · exact ⟨p, List.mem_cons_self p ps, rfl, rfl, rfl, rfl⟩
    · obtain ⟨q, hq, hf⟩ := ih (base + p.Payload.length) e hm
      exact ⟨q, List.mem_cons_of_mem p hq, hf⟩

/-- Consecutive entries are exactly adjacent: each next offset is the
previous entry's end. -/
theorem buildEntriesNM_chain :
    ∀ (ps : List payloadEntry) (base : Nat),
      List.Chain' (fun a b : tocEntry => b.Offset = a.Offset + a.Length)
        (buildEntriesNM base ps) := by
  intro ps
  induction ps with
  | nil => intro base; exact List.chain'_nil
  | cons p ps ih =>
    intro base
    rcases ps with _ | ⟨q, ps'⟩
    · exact List.chain'_singleton _
    · exact List.chain'_cons.mpr ⟨rfl, ih (base + p.Payload.length)⟩

/-- Entries lie between the base and the end of the payload region. -/
theorem buildEntriesNM_inBounds :
    ∀ (ps : List payloadEntry) (base : Nat), ∀ e ∈ buildEntriesNM base ps,
      base ≤ e.Offset ∧ e.Offset + e.Length ≤ base + sumLens ps := by
  intro ps
  induction ps with
  | nil => intro base e he; exact absurd he (List.not_mem_nil e)
  | cons p ps ih =>
    intro base e he
    rw [show buildEntriesNM base (p :: ps)
        = (⟨p.ID, p.Kind, base, p.Payload.length, crc32 p.Payload⟩ : tocEntry) ::
          buildEntriesNM (base + p.Payload.length) ps from rfl] at he
    rw [sumLens_cons]
    rcases List.mem_cons.mp he with rfl | hm
    · refine ⟨Nat.le_refl _, ?_⟩
      show base + p.Payload.length ≤ base + (p.Payload.length + sumLens ps)
      omega
    · have := ih (base + p.Payload.length) e hm
      exact ⟨by omega, by omega⟩

/-- Against the blob `pre ++ payloads`, each entry addresses exactly its
payload. -/
theorem buildEntriesNM_slices :
    ∀ (ps : List payloadEntry) (pre : List Nat),
      List.Forall₂ (fun (e : tocEntry) (p : payloadEntry) =>
        entryPayload (pre ++ ps.flatMap payloadEntry.Payload) e = p.Payload)
        (buildEntriesNM pre.length ps) ps := by
  intro ps
  induction ps with
  | nil => intro pre; exact List.Forall₂.nil
  | cons p ps ih =>
    intro pre
    refine List.Forall₂.cons ?_ ?_
    · show ((pre ++ (p :: ps).flatMap payloadEntry.Payload).drop
          pre.length).take p.Payload.length = p.Payload
      rw [show (p :: ps).flatMap payloadEntry.Payload
          = p.Payload ++ ps.flatMap payloadEntry.Payload by simp]
      rw [List.drop_left, List.take_left]
    · have hre : pre ++ (p :: ps).flatMap payloadEntry.Payload
          = (pre ++ p.Payload) ++ ps.flatMap payloadEntry.Payload := by simp
      have hlen : pre.length + p.Payload.length = (pre ++ p.Payload).length := by simp
      simp only [hre, hlen]
      exact ih (pre ++ p.Payload)

/-- Length of the flattened TOC region. -/
theorem flatMap_tocEntryBytes_length (es : List tocEntry) :
    (es.flatMap tocEntryBytes).length = 25 * es.length := by
  induction es with
  | nil => rfl
  | cons e es ihe =>
    rw [List.flatMap_cons, List.length_append, tocEntryBytes_length, ihe, List.length_cons]
    ring

/-- Length of the flattened payload region. -/
theorem sumLens_flatMap (ps : List payloadEntry) :
    (ps.flatMap payloadEntry.Payload).length = sumLens ps := by
  induction ps with
  | nil => rfl
  | cons p ps ih =>
    rw [List.flatMap_cons, List.length_append, ih, sumLens_cons]

/-- The five header fields of a container blob, read back. -/
theorem headerReads (v f off cnt : Nat) (rest blob : List Nat)
    (hb : blob = MagicString ++ u16le v ++ u16le f ++ u64le off ++ u32le cnt ++ rest) :
    blob.take 26 = MagicString ∧ leU16At blob 26 = v % 2 ^ 16 ∧
    leU16At blob 28 = f % 2 ^ 16 ∧ leU64At blob 30 = off % 2 ^ 64 ∧
    leU32At blob 38 = cnt % 2 ^ 32 ∧ blob.length = 42 + rest.length := by
  subst hb
  refine ⟨?_, ?_, ?_, ?_, ?_, ?_⟩
  · rw [show MagicString ++ u16le v ++ u16le f ++ u64le off ++ u32le cnt ++ rest
        = MagicString ++ (u16le v ++ (u16le f ++ (u64le off ++ (u32le cnt ++ rest))))
        by simp]
    rw [show (26 : Nat) = MagicString.length from rfl, List.take_left]
  · rw [show MagicString ++ u16le v ++ u16le f ++ u64le off ++ u32le cnt ++ rest
        = MagicString ++ (u16le v ++ (u16le f ++ (u64le off ++ (u32le cnt ++ rest))))
        by simp]
    rw [show (26 : Nat) = MagicString.length + 0 from rfl, leU16At_append, leU16At_u16le]
  · rw [show MagicString ++ u16le v ++ u16le f ++ u64le off ++ u32le cnt ++ rest
        = (MagicString ++ u16le v) ++ (u16le f ++ (u64le off ++ (u32le cnt ++ rest)))
        by simp]
    rw [show (28 : Nat) = (MagicString ++ u16le v).length + 0 by simp, leU16At_append,
        leU16At_u16le]
  · rw [show MagicString ++ u16le v ++ u16le f ++ u64le off ++ u32le cnt ++ rest
        = (MagicString ++ u16le v ++ u16le f) ++ (u64le off ++ (u32le cnt ++ rest))
        by simp]
    rw [show (30 : Nat) = (MagicString ++ u16le v ++ u16le f).length + 0 by simp,
        leU64At_append, leU64At_u64le]
  · rw [show MagicString ++ u16le v ++ u16le f ++ u64le off ++ u32le cnt ++ rest
        = (MagicString ++ u16le v ++ u16le f ++ u64le off) ++ (u32le cnt ++ rest)
        by simp]
    rw [show (38 : Nat) = (MagicString ++ u16le v ++ u16le f ++ u64le off).length + 0
        by simp, leU32At_append, leU32At_u32le]
  · simp only [List.length_append, MagicString_length, u16le_length, u64le_length,
      u32le_length]

theorem docPayloadEntries_length (doc : Document) :
    (docPayloadEntries doc).length = doc.Blocks.length + 2 := by
  simp only [docPayloadEntries, List.length_cons, List.length_map]

/-- Under `EncBounded` every emitted payload fits `uint32`. -/
theorem docPayloads_u32 (doc : Document) (heb : EncBounded doc) :
    ∀ p ∈ docPayloadEntries doc, p.Payload.length < 2 ^ 32 := by
  intro p hp
  unfold docPayloadEntries at hp
  rcases List.mem_cons.mp hp with rfl | hp
  · exact heb.1
  rcases List.mem_cons.mp hp with rfl | hp
  · exact heb.2.1
  · obtain ⟨b, hb, rfl⟩ := List.mem_map.mp hp
    exact heb.2.2 b hb

/-- IDs and kinds of the emitted payloads fit their Go types. -/
theorem docPayloads_fields (doc : Document) (hwf : WFDocument doc) :
    ∀ p ∈ docPayloadEntries doc, p.ID < 2 ^ 64 ∧ p.Kind < 2 ^ 8 := by
  intro p hp
  unfold docPayloadEntries at hp
  rcases List.mem_cons.mp hp with rfl | hp
  · refine ⟨?_, ?_⟩
    · show metaBlockID < 2 ^ 64
      decide
    · show BlockKindMetadata < 2 ^ 8
      decide
  rcases List.mem_cons.mp hp with rfl | hp
  · refine ⟨?_, ?_⟩
    · show fmtBlockID < 2 ^ 64
      decide
    · show BlockKindStyle < 2 ^ 8
      decide
  · obtain ⟨b, hb, rfl⟩ := List.mem_map.mp hp
    have := hwf.2.1 b hb
    exact ⟨this.1, this.2.1⟩

theorem sumLens_le :
    ∀ ps : List payloadEntry, (∀ p ∈ ps, p.Payload.length < 2 ^ 32) →
      sumLens ps ≤ 2 ^ 32 * ps.length := by
  intro ps
  induction ps with
  | nil => intro _; simp
  | cons p ps ih =>
    intro h
    have hp := h p (List.mem_cons_self p ps)
    have hrest := ih (fun q hq => h q (List.mem_cons_of_mem p hq))
    rw [sumLens_cons, List.length_cons]
    omega

/-- The whole encoded file stays below 2^63 bytes. -/
theorem enc_total_small (doc : Document) (hwf : WFDocument doc) (heb : EncBounded doc) :
    headerSize + (docPayloadEntries doc).length * tocEntSize
      + sumLens (docPayloadEntries doc) < 2 ^ 63 := by
  have hk := docPayloadEntries_length doc
  have h25 := hwf.2.2.1
  have hsle := sumLens_le (docPayloadEntries doc) (docPayloads_u32 doc heb)
  rw [hk] at hsle ⊢
  rw [show tocEntSize = 25 from rfl, show headerSize = 42 from rfl]
  omega

/-- On a `WFDocument` with `EncBounded` payloads the encoder result takes
its wrap-free normal form. -/
theorem encodeResultOf_eq (doc : Document) (hwf : WFDocument doc) (heb : EncBounded doc) :
    encodeResultOf doc = ⟨encBlob doc, encEntries doc, headerSize,
      (docPayloadEntries doc).length * tocEntSize⟩ := by
  have htoc : (docPayloadEntries doc).length * tocEntSize < 2 ^ 32 := by
    have h25 := hwf.2.2.1
    rw [docPayloadEntries_length, show tocEntSize = 25 from rfl]
    omega
  have hu32 := docPayloads_u32 doc heb
  have hsm := enc_total_small doc hwf heb
  have hNM := buildEntries_eq_NM (docPayloadEntries doc) (encBase doc)
      (by unfold encBase; omega) hu32
  unfold encodeResultOf encBlob encEntries encBase
  simp only []
  rw [Nat.mod_eq_of_lt htoc]
  unfold encBase at hNM
  rw [hNM, buildEntriesNM_length]

theorem encBlob_length (doc : Document) :
    (encBlob doc).length = encBase doc + sumLens (docPayloadEntries doc) := by
  unfold encBlob
  simp only [List.length_append, MagicString_length, u16le_length, u64le_length,
    u32le_length, flatMap_tocEntryBytes_length, sumLens_flatMap]
  unfold encEntries
  rw [buildEntriesNM_length]
  unfold encBase
  rw [show tocEntSize = 25 from rfl, show headerSize = 42 from rfl]
  omega

/-- The header fields of an encoded blob, as the decoder reads them. -/
theorem encBlob_header (doc : Document) (hwf : WFDocument doc) :
    (encBlob doc).take 26 = MagicString ∧ leU16At (encBlob doc) 26 = 1 ∧
    leU16At (encBlob doc) 28 = 1 ∧ leU64At (encBlob doc) 30 = 42 ∧
    leU32At (encBlob doc) 38 = (docPayloadEntries doc).length := by
  have hk : (docPayloadEntries doc).length < 2 ^ 32 := by
    have := hwf.2.2.1
    rw [docPayloadEntries_length]
    omega
  obtain ⟨h1, h2, h3, h4, h5, -⟩ := headerReads VersionV1 FlagRandomAccess headerSize
    ((docPayloadEntries doc).length)
    ((encEntries doc).flatMap tocEntryBytes ++
      (docPayloadEntries doc).flatMap payloadEntry.Payload)
    (encBlob doc) (by unfold encBlob; simp [List.append_assoc])
  exact ⟨h1, by rw [h2]; decide, by rw [h3]; decide, by rw [h4]; decide,
    by rw [h5]; exact Nat.mod_eq_of_lt hk⟩

/-- Every encoded TOC entry's fields fit their Go types. -/
theorem encEntries_bounds (doc : Document) (hwf : WFDocument doc) (heb : EncBounded doc) :
    ∀ e ∈ encEntries doc, e.ID < 2 ^ 64 ∧ e.Kind < 2 ^ 8 ∧ e.Offset < 2 ^ 64 ∧
      e.Length < 2 ^ 32 ∧ e.CRC32 < 2 ^ 32 := by
  intro e he
  unfold encEntries at he
  obtain ⟨p, hp, hid, hkind, hlen, hcrc⟩ := buildEntriesNM_mem _ _ e he
  have hio := (buildEntriesNM_inBounds _ _ e he).2
  have hsm := enc_total_small doc hwf heb
  have hfld := docPayloads_fields doc hwf p hp
  have hu := docPayloads_u32 doc heb p hp
  refine ⟨hid ▸ hfld.1, hkind ▸ hfld.2, ?_, hlen ▸ hu, hcrc ▸ crc32_lt _⟩
  unfold encBase at hio
  omega

/-- Parsing one serialized TOC entry back out of a flattened TOC region. -/
theorem parseToc_flatMap :
    ∀ es : List tocEntry,
      (∀ e ∈ es, e.ID < 2 ^ 64 ∧ e.Kind < 2 ^ 8 ∧ e.Offset < 2 ^ 64 ∧
        e.Length < 2 ^ 32 ∧ e.CRC32 < 2 ^ 32) →
      ∀ (pre suf : List Nat) (i : Nat) (h : i < es.length),
        parseTocEntry (pre ++ (es.flatMap tocEntryBytes ++ suf))
          (pre.length + tocEntSize * i) = es[i] := by
  intro es
  induction es with
  | nil => intro _ pre suf i h; exact absurd h (Nat.not_lt_zero i)
  | cons e es ih =>
    intro hwf pre suf i h
    rcases i with _ | i
    · rcases e with ⟨eid, ekind, eoff, elen, ecrc⟩
      obtain ⟨hID, hK, hOff, hLen, hCRC⟩ :=
        hwf ⟨eid, ekind, eoff, elen, ecrc⟩ (List.mem_cons_self _ _)
      simp only [] at hID hK hOff hLen hCRC
      simp only [Nat.mul_zero, Nat.add_zero, List.getElem_cons_zero]
      have h1 : leU64At (pre ++ ((⟨eid, ekind, eoff, elen, ecrc⟩ : tocEntry) :: es).flatMap
          tocEntryBytes ++ suf) pre.length = eid := by
        rw [show pre.length = pre.length + 0 by omega]
        rw [show pre ++ ((⟨eid, ekind, eoff, elen, ecrc⟩ : tocEntry) :: es).flatMap
              tocEntryBytes ++ suf
            = pre ++ (u64le eid ++ ([ekind % 256] ++ (u64le eoff ++ (u32le elen ++
              (u32le ecrc ++ (es.flatMap tocEntryBytes ++ suf)))))) by
          simp [tocEntryBytes]]
        rw [leU64At_append, leU64At_u64le, Nat.mod_eq_of_lt hID]
      have h2 : byteAt (pre ++ ((⟨eid, ekind, eoff, elen, ecrc⟩ : tocEntry) :: es).flatMap
          tocEntryBytes ++ suf) (pre.length + 8) = ekind := by
        rw [show pre.length + 8 = (pre ++ u64le eid).length + 0 by simp]
        rw [show pre ++ ((⟨eid, ekind, eoff, elen, ecrc⟩ : tocEntry) :: es).flatMap
              tocEntryBytes ++ suf
            = (pre ++ u64le eid) ++ ([ekind % 256] ++ (u64le eoff ++ (u32le elen ++
              (u32le ecrc ++ (es.flatMap tocEntryBytes ++ suf))))) by
          simp [tocEntryBytes]]
        rw [byteAt_append_right]
        show ekind % 256 = ekind
        omega
      have h3 : leU64At (pre ++ ((⟨eid, ekind, eoff, elen, ecrc⟩ : tocEntry) :: es).flatMap
          tocEntryBytes ++ suf) (pre.length + 9) = eoff := by
        rw [show pre.length + 9 = (pre ++ u64le eid ++ [ekind % 256]).length + 0 by simp]
        rw [show pre ++ ((⟨eid, ekind, eoff, elen, ecrc⟩ : tocEntry) :: es).flatMap
              tocEntryBytes ++ suf
            = (pre ++ u64le eid ++ [ekind % 256]) ++ (u64le eoff ++ (u32le elen ++
              (u32le ecrc ++ (es.flatMap tocEntryBytes ++ suf)))) by
          simp [tocEntryBytes]]
        rw [leU64At_append, leU64At_u64le, Nat.mod_eq_of_lt hOff]
      have h4 : leU32At (pre ++ ((⟨eid, ekind, eoff, elen, ecrc⟩ : tocEntry) :: es).flatMap
          tocEntryBytes ++ suf) (pre.length + 17) = elen := by
        rw [show pre.length + 17
            = (pre ++ u64le eid ++ [ekind % 256] ++ u64le eoff).length + 0 by simp]
        rw [show pre ++ ((⟨eid, ekind, eoff, elen, ecrc⟩ : tocEntry) :: es).flatMap
              tocEntryBytes ++ suf
            = (pre ++ u64le eid ++ [ekind % 256] ++ u64le eoff) ++ (u32le elen ++
              (u32le ecrc ++ (es.flatMap tocEntryBytes ++ suf))) by
          simp [tocEntryBytes]]
        rw [leU32At_append, leU32At_u32le, Nat.mod_eq_of_lt hLen]
      have h5 : leU32At (pre ++ ((⟨eid, ekind, eoff, elen, ecrc⟩ : tocEntry) :: es).flatMap
          tocEntryBytes ++ suf) (pre.length + 21) = ecrc := by
        rw [show pre.length + 21
            = (pre ++ u64le eid ++ [ekind % 256] ++ u64le eoff ++ u32le elen).length + 0
            by simp]
        rw [show pre ++ ((⟨eid, ekind, eoff, elen, ecrc⟩ : tocEntry) :: es).flatMap
              tocEntryBytes ++ suf
            = (pre ++ u64le eid ++ [ekind % 256] ++ u64le eoff ++ u32le elen) ++
              (u32le ecrc ++ (es.flatMap tocEntryBytes ++ suf)) by
          simp [tocEntryBytes]]
        rw [leU32At_append, leU32At_u32le, Nat.mod_eq_of_lt hCRC]
      rw [show pre ++ (((⟨eid, ekind, eoff, elen, ecrc⟩ : tocEntry) :: es).flatMap
            tocEntryBytes ++ suf)
          = pre ++ ((⟨eid, ekind, eoff, elen, ecrc⟩ : tocEntry) :: es).flatMap
            tocEntryBytes ++ suf from (List.append_assoc _ _ _).symm]
      unfold parseTocEntry
      rw [h1, h2, h3, h4, h5]
    · have hwf' : ∀ x ∈ es, x.ID < 2 ^ 64 ∧ x.Kind < 2 ^ 8 ∧ x.Offset < 2 ^ 64 ∧
          x.Length < 2 ^ 32 ∧ x.CRC32 < 2 ^ 32 :=
        fun x hx => hwf x (List.mem_cons_of_mem e hx)
      have hpos : pre.length + tocEntSize * (i + 1)
          = (pre ++ tocEntryBytes e).length + tocEntSize * i := by
        simp only [List.length_append, tocEntryBytes_length]
        rw [show tocEntSize = 25 from rfl]
        omega
      have hblob : pre ++ ((e :: es).flatMap tocEntryBytes ++ suf)
          = (pre ++ tocEntryBytes e) ++ (es.flatMap tocEntryBytes ++ suf) := by simp
      rw [hpos, hblob]
      simp only [List.getElem_cons_succ]
      exact ih hwf' (pre ++ tocEntryBytes e) suf i (by simpa using h)

/-- The TOC entries the decoder parses from an encoded blob are exactly
the encoder's. -/
theorem parsedEntries_encBlob (doc : Document) (hwf : WFDocument doc)
    (heb : EncBounded doc) :
    parsedEntries (encBlob doc) = encEntries doc := by
  obtain ⟨-, -, -, h30, h38⟩ := encBlob_header doc hwf
  unfold parsedEntries
  rw [h30, h38]
  have hbounds := encEntries_bounds doc hwf heb
  have hlen : (encEntries doc).length = (docPayloadEntries doc).length := by
    unfold encEntries
    exact buildEntriesNM_length _ _
  apply List.ext_getElem
  · simp [hlen]
  · intro i h1 h2
    simp only [List.getElem_map, List.getElem_range]
    have hblob : encBlob doc = (MagicString ++ u16le VersionV1 ++ u16le FlagRandomAccess ++
        u64le headerSize ++ u32le (docPayloadEntries doc).length) ++
        ((encEntries doc).flatMap tocEntryBytes ++
         (docPayloadEntries doc).flatMap payloadEntry.Payload) := by
      unfold encBlob
      simp [List.append_assoc]
    have hpre : (42 : Nat) = (MagicString ++ u16le VersionV1 ++ u16le FlagRandomAccess ++
        u64le headerSize ++ u32le (docPayloadEntries doc).length).length := by simp
    rw [hblob, hpre]
    exact parseToc_flatMap (encEntries doc) hbounds _ _ i (by omega)

/-- A chain of end-before-start ranges passes the adjacent-overlap scan. -/
theorem chainCheck_of_chain :
    ∀ rs : List (Nat × Nat), List.Chain' (fun a b : Nat × Nat => a.2 ≤ b.1) rs →
      chainCheck rs = none := by
  intro rs
  induction rs with
  | nil => intro _; rfl
  | cons a rest ih =>
    intro h
    rcases rest with _ | ⟨b, rest'⟩
    · rfl
    · have hab : a.2 ≤ b.1 := (List.chain'_cons.mp h).1
      unfold chainCheck
      rw [if_neg (by omega)]
      exact ih (List.chain'_cons.mp h).2

/-- The encoded blob passes the decoder's entry-range validation. -/
theorem encBlob_ranges (doc : Document) (hwf : WFDocument doc) (heb : EncBounded doc) :
    validateEntryRanges (encEntries doc) (encBlob doc).length = none := by
  have hsm := enc_total_small doc hwf heb
  have hlen63 : (encBlob doc).length < 2 ^ 63 := by
    rw [encBlob_length]
    unfold encBase
    omega
  have hbounds := encEntries_bounds doc hwf heb
  have hin : ∀ e ∈ encEntries doc, e.Offset + e.Length ≤ (encBlob doc).length := by
    intro e he
    rw [encBlob_length]
    unfold encEntries at he
    exact (buildEntriesNM_inBounds _ _ e he).2
  have hch : List.Chain' (fun a b : tocEntry => a.Offset + a.Length ≤ b.Offset)
      (encEntries doc) := by
    unfold encEntries
    exact (buildEntriesNM_chain (docPayloadEntries doc) (encBase doc)).imp
      (fun {a b} h => by omega)
  have hchr : List.Chain' (fun a b : Nat × Nat => a.2 ≤ b.1)
      ((encEntries doc).map (fun e => (e.Offset, e.Offset + e.Length))) := by
    rw [List.chain'_map]
    exact hch
  have hwfr : ∀ r ∈ (encEntries doc).map (fun e => (e.Offset, e.Offset + e.Length)),
      r.1 ≤ r.2 := by
    intro r hr
    obtain ⟨e, he, rfl⟩ := List.mem_map.mp hr
    show e.Offset ≤ e.Offset + e.Length
    omega
  have hpw := chain_pairwise_ranges _ hwfr hchr
  have hsorted : List.Pairwise (fun a b : Nat × Nat => rangeLe a b = true)
      ((encEntries doc).map (fun e => (e.Offset, e.Offset + e.Length))) := by
    refine List.Pairwise.imp_of_mem ?_ hpw
    intro a b ha hb hab
    have h1 : a.1 ≤ a.2 := hwfr a ha
    simp only [rangeLe, decide_eq_true_eq]
    omega
  unfold validateEntryRanges
  rw [collectRanges_ok _ hlen63 _ hin
    (fun e he => ⟨(hbounds e he).2.2.1, (hbounds e he).2.2.2.1⟩)]
  simp only []
  rw [List.mergeSort_of_sorted hsorted]
  exact chainCheck_of_chain _ hchr

/-! ## Formatting-directive collection structure -/

theorem collectAcc_eq :
    ∀ (bs : List Block) (acc : List FormattingDirectiveEntry),
      bs.foldl (fun acc b =>
          if b.Kind ≠ BlockKindText then acc
          else
            match b.Text with
            | none => acc
            | some tb => acc ++ tb.Runs.map (fun r =>
                FormattingDirectiveEntry.mk b.ID r.Start r.End r.Attr)) acc
        = acc ++ bs.flatMap tagF := by
  intro bs
  induction bs with
  | nil => intro acc; simp
  | cons b bs ih =>
    intro acc
    rw [List.foldl_cons]
    have hg : (if b.Kind ≠ BlockKindText then acc
        else match b.Text with
          | none => acc
          | some tb => acc ++ tb.Runs.map (fun r =>
              FormattingDirectiveEntry.mk b.ID r.Start r.End r.Attr)) = acc ++ tagF b := by
      unfold tagF
      by_cases hk : b.Kind ≠ BlockKindText
      · rw [if_pos hk, if_pos hk, List.append_nil]
      · rw [if_neg hk, if_neg hk]
        rcases htb : b.Text with _ | tb <;> simp [htb]
    rw [hg, ih (acc ++ tagF b)]
    simp

/-- `collectFormatting` is the sort of the tagged run set. -/
theorem collectFormatting_eq (doc : Document) :
    collectFormatting doc = (allTaggedRuns doc).mergeSort fdeLe := by
  unfold collectFormatting allTaggedRuns
  rw [collectAcc_eq doc.Blocks []]
  rw [List.nil_append]

theorem tagF_length_sum :
    ∀ bs : List Block, (∀ b ∈ bs, b.Kind = BlockKindText) →
      (bs.flatMap tagF).length
        = (bs.map (fun b => match b.Text with
            | some tb => tb.Runs.length | none => 0)).sum := by
  intro bs
  induction bs with
  | nil => intro _; rfl
  | cons b bs ih =>
    intro h
    rw [List.flatMap_cons, List.length_append,
        ih (fun x hx => h x (List.mem_cons_of_mem b hx)), List.map_cons, List.sum_cons]
    congr 1
    unfold tagF
    rw [if_neg (by simp [h b (List.mem_cons_self b bs)])]
    rcases htb : b.Text with _ | tb <;> simp [htb]

/-- On an all-text-block document the directive carries one entry per
style run. -/
theorem collectFormatting_length (doc : Document)
    (hk : ∀ b ∈ doc.Blocks, b.Kind = BlockKindText) :
    (collectFormatting doc).length = sumRuns doc := by
  rw [collectFormatting_eq, (List.mergeSort_perm _ fdeLe).length_eq]
  unfold allTaggedRuns sumRuns
  exact tagF_length_sum doc.Blocks hk

/-- Inversion: every collected directive entry is a tagged run of some
text block. -/
theorem collectFormatting_mem (doc : Document) :
    ∀ e ∈ collectFormatting doc, ∃ b ∈ doc.Blocks, ∃ tb, b.Text = some tb ∧
      b.Kind = BlockKindText ∧ ∃ r ∈ tb.Runs,
        e = FormattingDirectiveEntry.mk b.ID r.Start r.End r.Attr := by
  intro e he
  rw [collectFormatting_eq] at he
  have he2 : e ∈ allTaggedRuns doc := (List.mergeSort_perm _ fdeLe).mem_iff.mp he
  unfold allTaggedRuns at he2
  obtain ⟨b, hb, hm⟩ := List.mem_flatMap.mp he2
  unfold tagF at hm
  by_cases hk : b.Kind ≠ BlockKindText
  · rw [if_pos hk] at hm
    exact absurd hm (List.not_mem_nil e)
  · rw [if_neg hk] at hm
    rcases htb : b.Text with _ | tb
    · rw [htb] at hm
      exact absurd hm (List.not_mem_nil e)
    · rw [htb] at hm
      obtain ⟨r, hr, rfl⟩ := List.mem_map.mp hm
      exact ⟨b, hb, tb, htb, not_not.mp hk, r, hr, rfl⟩

/-- Collected directive entries fit their Go types and carry valid font
families on a validated document. -/
theorem collectFormatting_WF (doc : Document) (hv : Validate doc = none)
    (hwf : WFDocument doc) :
    ∀ e ∈ collectFormatting doc, WFFde e ∧ isValidFontFamily e.Attr.FontFamily := by
  intro e he
  obtain ⟨b, hb, tb, htb, hbk, r, hr, rfl⟩ := collectFormatting_mem doc e he
  have hwb := hwf.2.1 b hb
  have htbwf : WFText tb := by
    have := hwb.2.2
    rw [htb] at this
    exact this
  have hrun := htbwf.2.2 r hr
  obtain ⟨-, -, -, hbl, -⟩ := Validate_none doc hv
  obtain ⟨-, -, -, tb', htb', -, hvr⟩ := hbl b hb
  rw [htb] at htb'
  injection htb' with htb'
  subst htb'
  have hff := (validateRuns_facts tb hvr r hr).2.2.2.2
  exact ⟨⟨hwb.1, hrun.1, hrun.2.1, hrun.2.2⟩, hff⟩

/-! ## Decoding the encoded blob -/

/-- `processEntry` on an entry whose payload slice and CRC are exact is
the pure kind dispatch. -/
theorem processEntry_exact (blob : List Nat) (st : decState) (p : payloadEntry)
    (off : Nat) (hpay : entryPayload blob ⟨p.ID, p.Kind, off, p.Payload.length,
      crc32 p.Payload⟩ = p.Payload) :
    processEntry blob st ⟨p.ID, p.Kind, off, p.Payload.length, crc32 p.Payload⟩
      = psStep st p := by
  unfold processEntry psStep
  simp only []
  rw [hpay]
  rw [if_neg (show ¬ (crc32 p.Payload ≠ crc32 p.Payload) from fun hne => hne rfl)]

/-- Folding the decoder over wrap-free entries against the laid-out blob
is the pure payload fold. -/
theorem decFold_payloads :
    ∀ (ps : List payloadEntry) (pre : List Nat) (st : decState),
      decFold (pre ++ ps.flatMap payloadEntry.Payload) st (buildEntriesNM pre.length ps)
        = psFold st ps := by
  intro ps
  induction ps with
  | nil => intro pre st; rfl
  | cons p ps ih =>
    intro pre st
    have hpay : entryPayload (pre ++ (p :: ps).flatMap payloadEntry.Payload)
        ⟨p.ID, p.Kind, pre.length, p.Payload.length, crc32 p.Payload⟩ = p.Payload := by
      show ((pre ++ (p :: ps).flatMap payloadEntry.Payload).drop pre.length).take
        p.Payload.length = p.Payload
      rw [show (p :: ps).flatMap payloadEntry.Payload
          = p.Payload ++ ps.flatMap payloadEntry.Payload by simp]
      rw [List.drop_left, List.take_left]
    have hstep := processEntry_exact (pre ++ (p :: ps).flatMap payloadEntry.Payload) st p
      pre.length hpay
    show (match processEntry (pre ++ (p :: ps).flatMap payloadEntry.Payload) st
        ⟨p.ID, p.Kind, pre.length, p.Payload.length, crc32 p.Payload⟩ with
      | .error err => .error err
      | .ok st' => decFold (pre ++ (p :: ps).flatMap payloadEntry.Payload) st'
          (buildEntriesNM (pre.length + p.Payload.length) ps))
      = psFold st (p :: ps)
    rw [hstep]
    show _ = (match psStep st p with
      | .error err => .error err
      | .ok st' => psFold st' ps)
    rcases psStep st p with err | st'
    · rfl
    · simp only []
      have hre := ih (pre ++ p.Payload) st'
      rw [show (pre ++ p.Payload).length = pre.length + p.Payload.length by simp] at hre
      rw [show (pre ++ p.Payload) ++ ps.flatMap payloadEntry.Payload
          = pre ++ (p :: ps).flatMap payloadEntry.Payload by simp] at hre
      exact hre

/-- The payload fold appends one decoded text block per block payload. -/
theorem psFold_textBlocks :
    ∀ (bs : List Block) (st : decState),
      (∀ b ∈ bs, b.Kind = BlockKindText ∧
        ∃ tb, b.Text = some tb ∧ tb.UTF8.length < 2 ^ 32) →
      psFold st (bs.map (fun b => ⟨b.ID, b.Kind, textPayload b⟩))
        = .ok ⟨st.Metadata, st.Blocks ++ bs.map (fun b =>
            ⟨b.ID, BlockKindText, some ⟨textOf b, []⟩⟩), st.directive⟩ := by
  intro bs
  induction bs with
  | nil =>
    intro st _
    simp only [List.map_nil, List.append_nil]
    rfl
  | cons b bs ih =>
    intro st h
    obtain ⟨hk, tb, htb, hlen⟩ := h b (List.mem_cons_self b bs)
    have hdec : decodeTextBlock (textPayload b) = .ok ⟨tb.UTF8, []⟩ := by
      unfold textPayload
      rw [htb]
      exact decodeTextBlock_encode tb hlen
    have hstep : psStep st ⟨b.ID, b.Kind, textPayload b⟩
        = .ok ⟨st.Metadata, st.Blocks ++ [⟨b.ID, BlockKindText, some ⟨tb.UTF8, []⟩⟩],
            st.directive⟩ := by
      unfold psStep
      simp only []
      rw [hk]
      rw [if_neg (by decide), if_neg (by decide), if_pos rfl, hdec]
    rw [List.map_cons]
    simp only [psFold]
    rw [hstep]
    simp only []
    rw [ih _ (fun x hx => h x (List.mem_cons_of_mem b hx))]
    have htx : textOf b = tb.UTF8 := by
      unfold textOf
      rw [htb]
    simp [htx, List.append_assoc]

/-- Decoding the entry list of an encoded blob is the pure payload
fold. -/
theorem decFold_encBlob (doc : Document) :
    decFold (encBlob doc) initState (encEntries doc)
      = psFold initState (docPayloadEntries doc) := by
  have hpre : encBase doc = (MagicString ++ u16le VersionV1 ++ u16le FlagRandomAccess ++
      u64le headerSize ++ u32le (docPayloadEntries doc).length ++
      (encEntries doc).flatMap tocEntryBytes).length := by
    simp only [List.length_append, MagicString_length, u16le_length, u64le_length,
      u32le_length, flatMap_tocEntryBytes_length]
    unfold encEntries
    rw [buildEntriesNM_length]
    unfold encBase
    rw [show tocEntSize = 25 from rfl, show headerSize = 42 from rfl]
    omega
  have hblob : encBlob doc = (MagicString ++ u16le VersionV1 ++ u16le FlagRandomAccess ++
      u64le headerSize ++ u32le (docPayloadEntries doc).length ++
      (encEntries doc).flatMap tocEntryBytes) ++
      (docPayloadEntries doc).flatMap payloadEntry.Payload := by
    unfold encBlob
    simp [List.append_assoc]
  have h := decFold_payloads (docPayloadEntries doc)
    (MagicString ++ u16le VersionV1 ++ u16le FlagRandomAccess ++ u64le headerSize ++
      u32le (docPayloadEntries doc).length ++ (encEntries doc).flatMap tocEntryBytes)
    initState
  rw [← hpre, ← hblob] at h
  have hEnt : encEntries doc
      = buildEntriesNM (encBase doc) (docPayloadEntries doc) := rfl
  rw [← hEnt] at h
  exact h

/-- `psStep` on a metadata-kind payload. -/
theorem psStep_meta (st : decState) (id : Nat) (pl : List Nat) :
    psStep st ⟨id, BlockKindMetadata, pl⟩
      = match decodeMetadata pl with
        | Except.error err => Except.error err
        | Except.ok m => Except.ok ⟨m, st.Blocks, st.directive⟩ := rfl

/-- `psStep` on a style-kind payload. -/
theorem psStep_style (st : decState) (id : Nat) (pl : List Nat) :
    psStep st ⟨id, BlockKindStyle, pl⟩
      = match decodeFormattingDirective pl with
        | Except.error err => Except.error err
        | Except.ok d => Except.ok ⟨st.Metadata, st.Blocks, d⟩ := rfl

/-- `psStep` on a text-kind payload. -/
theorem psStep_text (st : decState) (id : Nat) (pl : List Nat) :
    psStep st ⟨id, BlockKindText, pl⟩
      = match decodeTextBlock pl with
        | Except.error err => Except.error err
        | Except.ok tb => Except.ok ⟨st.Metadata,
            st.Blocks ++ [⟨id, BlockKindText, some tb⟩], st.directive⟩ := rfl

/-- The pure payload fold of a validated document: metadata, directive,
then every text block with no inline runs. -/
theorem psFold_doc (doc : Document) (hv : Validate doc = none) (hwf : WFDocument doc) :
    psFold initState (docPayloadEntries doc)
      = .ok ⟨doc.Metadata,
          doc.Blocks.map (fun b => ⟨b.ID, BlockKindText, some ⟨textOf b, []⟩⟩),
          collectFormatting doc⟩ := by
  obtain ⟨-, -, hff, hbl, -⟩ := Validate_none doc hv
  have hmeta : decodeMetadata (encodeMetadata doc.Metadata) = .ok doc.Metadata :=
    decodeMetadata_encode doc.Metadata hwf.1 hff
  have hcnt : (collectFormatting doc).length < 2 ^ 32 := by
    rw [collectFormatting_length doc (fun b hb => (hbl b hb).2.2.1)]
    exact hwf.2.2.2
  have hfmt : decodeFormattingDirective (encodeFormattingDirective (collectFormatting doc))
      = .ok (collectFormatting doc) :=
    decodeFormattingDirective_encode _ hcnt (collectFormatting_WF doc hv hwf)
  have hbs : ∀ b ∈ doc.Blocks, b.Kind = BlockKindText ∧
      ∃ tb, b.Text = some tb ∧ tb.UTF8.length < 2 ^ 32 := by
    intro b hb
    refine ⟨(hbl b hb).2.2.1, ?_⟩
    obtain ⟨tb, htb, -, -⟩ := (hbl b hb).2.2.2
    refine ⟨tb, htb, ?_⟩
    have := (hwf.2.1 b hb).2.2
    rw [htb] at this
    exact this.1
  unfold docPayloadEntries
  simp only [psFold]
  rw [psStep_meta, hmeta]
  simp only []
  rw [psStep_style, hfmt]
  simp only []
  rw [psFold_textBlocks doc.Blocks _ hbs]
  simp [initState]

/-- Full decode of an encoded validated document, before the reattachment
analysis. -/
theorem decodeDocument_encBlob (doc : Document) (hv : Validate doc = none)
    (hwf : WFDocument doc) (heb : EncBounded doc) :
    decodeDocument (encBlob doc)
      = .ok ⟨doc.Metadata,
          (attachAll (doc.Blocks.map (fun b => ⟨b.ID, BlockKindText, some ⟨textOf b, []⟩⟩))
            (collectFormatting doc)).map sortBlockRuns⟩ := by
  obtain ⟨hmg, h26, h28, h30, h38⟩ := encBlob_header doc hwf
  have hsm := enc_total_small doc hwf heb
  have hlen := encBlob_length doc
  have h42 : headerSize ≤ (encBlob doc).length := by
    rw [hlen]
    unfold encBase
    omega
  have hto : leU64At (encBlob doc) 30 ≤ (encBlob doc).length := by
    rw [h30, hlen]
    unfold encBase
    rw [show headerSize = 42 from rfl]
    omega
  have hte : leU64At (encBlob doc) 30 + leU32At (encBlob doc) 38 * tocEntSize
      ≤ (encBlob doc).length := by
    rw [h30, h38, hlen]
    unfold encBase
    rw [show headerSize = 42 from rfl]
    omega
  have hnw : (leU64At (encBlob doc) 30 + leU32At (encBlob doc) 38 * tocEntSize) % 2 ^ 64
      = leU64At (encBlob doc) 30 + leU32At (encBlob doc) 38 * tocEntSize := by
    rw [h30, h38]
    apply Nat.mod_eq_of_lt
    rw [show (42 : Nat) = headerSize from rfl]
    omega
  rw [decodeDocument_reach (encBlob doc) h42 hmg (h26.trans rfl) (by rw [h28]) hto hte hnw]
  rw [parsedEntries_encBlob doc hwf heb]
  rw [encBlob_ranges doc hwf heb]
  simp only []
  rw [decFold_encBlob doc, psFold_doc doc hv hwf]

/-! ## Directive reattachment analysis -/

theorem appendRunTo_ID (d : FormattingDirectiveEntry) (b : Block) :
    (appendRunTo d b).ID = b.ID := by
  rcases b with ⟨id, kind, text⟩
  rcases text with _ | tb <;> rfl

/-- Inversion of the last-match fold behind `lastIdxWithID`. -/
theorem lastIdx_foldl_inv (blocks : List Block) (id : Nat) :
    ∀ (idxs : List Nat) (acc : Option Nat),
      (idxs.foldl (fun acc i =>
          match blocks[i]? with
          | some b => if b.ID = id then some i else acc
          | none => acc) acc = acc ∧
        ∀ i ∈ idxs, ∀ b, blocks[i]? = some b → b.ID ≠ id) ∨
      (∃ i ∈ idxs, ∃ b, blocks[i]? = some b ∧ b.ID = id ∧
        idxs.foldl (fun acc i =>
          match blocks[i]? with
          | some b => if b.ID = id then some i else acc
          | none => acc) acc = some i) := by
  intro idxs
  induction idxs with
  | nil =>
    intro acc
    left
    exact ⟨rfl, fun i hi => absurd hi (List.not_mem_nil i)⟩
  | cons j idxs ih =>
    intro acc
    rw [List.foldl_cons]
    beta_reduce
    rcases hbj : blocks[j]? with _ | b
    · simp only []
      rcases ih acc with ⟨hfold, hnone⟩ | ⟨i, hi, b, hb, hbid, hfold⟩
      · left
        refine ⟨hfold, ?_⟩
        intro i hi b hb
        rcases List.mem_cons.mp hi with rfl | hmem
        · rw [hbj] at hb
          exact absurd hb (by simp)
        · exact hnone i hmem b hb
      · right
        exact ⟨i, List.mem_cons_of_mem j hi, b, hb, hbid, hfold⟩
    · simp only []
      by_cases hid : b.ID = id
      · rw [if_pos hid]
        rcases ih (some j) with ⟨hfold, -⟩ | ⟨i, hi, b', hb', hbid', hfold⟩
        · right
          exact ⟨j, List.mem_cons_self j idxs, b, hbj, hid, hfold⟩
        · right
          exact ⟨i, List.mem_cons_of_mem j hi, b', hb', hbid', hfold⟩
      · rw [if_neg hid]
        rcases ih acc with ⟨hfold, hnone⟩ | ⟨i, hi, b', hb', hbid', hfold⟩
        · left
          refine ⟨hfold, ?_⟩
          intro i hi b' hb'
          rcases List.mem_cons.mp hi with rfl | hmem
          · rw [hbj] at hb'
            injection hb' with hb'
            subst hb'
            exact hid
          · exact hnone i hmem b' hb'
        · right
          exact ⟨i, List.mem_cons_of_mem j hi, b', hb', hbid', hfold⟩

/-- No hit in the ID map means no block carries the ID. -/
theorem lastIdxWithID_none (blocks : List Block) (id : Nat)
    (h : lastIdxWithID blocks id = none) : ∀ b ∈ blocks, b.ID ≠ id := by
  intro b hb
  unfold lastIdxWithID at h
  rcases lastIdx_foldl_inv blocks id (List.range blocks.length) none with
    ⟨-, hnone⟩ | ⟨i, -, b', -, -, hfold⟩
  · obtain ⟨i, hgi⟩ := List.getElem?_of_mem hb
    have hlt : i < blocks.length := by
      by_contra hge
      rw [List.getElem?_eq_none (by omega)] at hgi
      exact absurd hgi (by simp)
    exact hnone i (List.mem_range.mpr hlt) b hgi
  · rw [hfold] at h
    exact (Option.some_ne_none i h).elim

/-- A hit in the ID map is an in-range index whose block carries the
ID. -/
theorem lastIdxWithID_some (blocks : List Block) (id i : Nat)
    (h : lastIdxWithID blocks id = some i) :
    ∃ hlt : i < blocks.length, blocks[i].ID = id := by
  unfold lastIdxWithID at h
  rcases lastIdx_foldl_inv blocks id (List.range blocks.length) none with
    ⟨hfold, -⟩ | ⟨i', hi', b, hb, hbid, hfold⟩
  · rw [hfold] at h
    exact absurd h (by simp)
  · rw [hfold] at h
    injection h with h
    subst h
    have hlt : i' < blocks.length := List.mem_range.mp hi'
    refine ⟨hlt, ?_⟩
    rw [List.getElem?_eq_getElem hlt] at hb
    injection hb with hb
    rw [hb]
    exact hbid

/-- With pairwise-distinct IDs, attaching one directive is a map that
touches exactly the blocks carrying its target ID. -/
theorem attachDirective_spec (blocks : List Block)
    (hnd : List.Pairwise (fun a b : Block => a.ID ≠ b.ID) blocks)
    (d : FormattingDirectiveEntry) :
    attachDirective blocks d
      = blocks.map (fun b => if b.ID = d.BlockID then appendRunTo d b else b) := by
  unfold attachDirective
  rcases hL : lastIdxWithID blocks d.BlockID with _ | i
  · have hnone := lastIdxWithID_none blocks d.BlockID hL
    have hmap : blocks.map (fun b => if b.ID = d.BlockID then appendRunTo d b else b)
        = blocks.map (fun b => b) :=
      List.map_congr_left (fun b hb => if_neg (hnone b hb))
    rw [hmap, List.map_id']
  · obtain ⟨hlt, hid⟩ := lastIdxWithID_some blocks d.BlockID i hL
    apply List.ext_getElem
    · rw [List.length_modify, List.length_map]
    · intro j h1 h2
      have hj : j < blocks.length := by
        rw [List.length_modify] at h1
        exact h1
      rw [List.getElem_modify, List.getElem_map]
      by_cases hij : i = j
      · subst hij
        rw [if_pos rfl, if_pos hid]
      · rw [if_neg hij]
        have hne : blocks[j].ID ≠ d.BlockID := by
          rw [List.pairwise_iff_getElem] at hnd
          rcases Nat.lt_or_ge i j with hlt2 | hge
          · have hij2 := hnd i j hlt hj hlt2
            intro hh
            exact hij2 (by rw [hid, hh])
          · have hlt3 : j < i := by omega
            have hij2 := hnd j i hj hlt hlt3
            intro hh
            exact hij2 (by rw [hid, hh])
        rw [if_neg hne]

theorem addRunsTo_nil (b : Block) : addRunsTo b [] = b := by
  rcases b with ⟨id, kind, text⟩
  rcases text with _ | tb
  · rfl
  · simp [addRunsTo]

theorem runsFor_cons_pos (id : Nat) (d : FormattingDirectiveEntry)
    (ds : List FormattingDirectiveEntry) (h : d.BlockID = id) :
    runsFor id (d :: ds) = ⟨d.Start, d.End, d.Attr⟩ :: runsFor id ds := by
  unfold runsFor
  rw [List.filter_cons_of_pos (by simp [h]), List.map_cons]

theorem runsFor_cons_neg (id : Nat) (d : FormattingDirectiveEntry)
    (ds : List FormattingDirectiveEntry) (h : d.BlockID ≠ id) :
    runsFor id (d :: ds) = runsFor id ds := by
  unfold runsFor
  rw [List.filter_cons_of_neg (by simp [h])]

theorem attachF_ID (d : FormattingDirectiveEntry) (b : Block) :
    (if b.ID = d.BlockID then appendRunTo d b else b).ID = b.ID := by
  by_cases h : b.ID = d.BlockID
  · rw [if_pos h, appendRunTo_ID]
  · rw [if_neg h]

/-- With pairwise-distinct IDs, reattaching all directives appends to
each block exactly the runs addressed to its ID, in directive order. -/
theorem attachAll_spec :
    ∀ (ds : List FormattingDirectiveEntry) (blocks : List Block),
      List.Pairwise (fun a b : Block => a.ID ≠ b.ID) blocks →
      attachAll blocks ds = blocks.map (fun b => addRunsTo b (runsFor b.ID ds)) := by
  intro ds
  induction ds with
  | nil =>
    intro blocks hnd
    show blocks = _
    have hmap : blocks.map (fun b => addRunsTo b (runsFor b.ID []))
        = blocks.map (fun b => b) :=
      List.map_congr_left (fun b hb => addRunsTo_nil b)
    rw [hmap, List.map_id']
  | cons d ds ih =>
    intro blocks hnd
    show attachAll (attachDirective blocks d) ds = _
    rw [attachDirective_spec blocks hnd d]
    have hnd' : List.Pairwise (fun a b : Block => a.ID ≠ b.ID)
        (blocks.map (fun b => if b.ID = d.BlockID then appendRunTo d b else b)) := by
      rw [List.pairwise_map]
      exact hnd.imp (fun {a b} h => by rw [attachF_ID, attachF_ID]; exact h)
    rw [ih _ hnd', List.map_map]
    apply List.map_congr_left
    intro b hb
    show addRunsTo (if b.ID = d.BlockID then appendRunTo d b else b)
        (runsFor (if b.ID = d.BlockID then appendRunTo d b else b).ID ds)
      = addRunsTo b (runsFor b.ID (d :: ds))
    by_cases hid : b.ID = d.BlockID
    · rw [if_pos hid]
      rw [show (appendRunTo d b).ID = b.ID from appendRunTo_ID d b]
      rw [runsFor_cons_pos b.ID d ds hid.symm]
      rcases b with ⟨bid, bkind, btext⟩
      rcases btext with _ | tb
      · rfl
      · simp [appendRunTo, addRunsTo]
    · rw [if_neg hid, runsFor_cons_neg b.ID d ds (fun hh => hid hh.symm)]

/-! ## Effective style coverage -/

/-- In a pairwise-disjoint run list at most one run covers a position. -/
theorem covers_unique :
    ∀ rs : List StyleRun, List.Pairwise NoCommonByte rs →
      ∀ {r1 r2 : StyleRun} (pos : Nat), r1 ∈ rs → r2 ∈ rs →
        runCovers r1 pos → runCovers r2 pos → r1 = r2 := by
  intro rs
  induction rs with
  | nil => intro _ r1 r2 pos h1; exact absurd h1 (List.not_mem_nil _)
  | cons r rs ih =>
    intro hpw r1 r2 pos h1 h2 hc1 hc2
    have hhead := (List.pairwise_cons.mp hpw).1
    have htail := (List.pairwise_cons.mp hpw).2
    rcases List.mem_cons.mp h1 with rfl | hm1 <;> rcases List.mem_cons.mp h2 with rfl | hm2
    · rfl
    · exact absurd ⟨hc1, hc2⟩ (hhead r2 hm2 pos)
    · exact absurd ⟨hc2, hc1⟩ (hhead r1 hm1 pos)
    · exact ih htail pos hm1 hm2 hc1 hc2

theorem coversB_iff (pos : Nat) (r : StyleRun) : coversB pos r = true ↔ runCovers r pos := by
  unfold coversB runCovers
  simp

/-- For pairwise-disjoint runs the effective style is permutation
invariant. -/
theorem styleAt_perm (rs rs' : List StyleRun) (hperm : rs.Perm rs')
    (hdisj : List.Pairwise NoCommonByte rs) (pos : Nat) :
    styleAt rs pos = styleAt rs' pos := by
  unfold styleAt
  rcases hf : rs.find? (coversB pos) with _ | r1
  · rcases hf' : rs'.find? (coversB pos) with _ | r2
    · rfl
    · exfalso
      have hr2 : r2 ∈ rs' := List.mem_of_find?_eq_some hf'
      have hp2 : coversB pos r2 = true := List.find?_some hf'
      exact List.find?_eq_none.mp hf r2 (hperm.mem_iff.mpr hr2) hp2
  · rcases hf' : rs'.find? (coversB pos) with _ | r2
    · exfalso
      have hr1 : r1 ∈ rs := List.mem_of_find?_eq_some hf
      have hp1 := List.find?_some hf
      exact List.find?_eq_none.mp hf' r1 (hperm.mem_iff.mp hr1) hp1
    · have hr1 : r1 ∈ rs := List.mem_of_find?_eq_some hf
      have hr2 : r2 ∈ rs := hperm.mem_iff.mpr (List.mem_of_find?_eq_some hf')
      have hc1 := (coversB_iff pos r1).mp (List.find?_some hf)
      have hc2 := (coversB_iff pos r2).mp (List.find?_some hf')
      rw [covers_unique rs hdisj pos hr1 hr2 hc1 hc2]

/-! ## Per-block persisted run sets -/

theorem tagF_BlockID (b : Block) : ∀ e ∈ tagF b, e.BlockID = b.ID := by
  intro e he
  unfold tagF at he
  by_cases hk : b.Kind ≠ BlockKindText
  · rw [if_pos hk] at he
    exact absurd he (List.not_mem_nil e)
  · rw [if_neg hk] at he
    rcases htb : b.Text with _ | tb
    · rw [htb] at he
      exact absurd he (List.not_mem_nil e)
    · rw [htb] at he
      obtain ⟨r, hr, rfl⟩ := List.mem_map.mp he
      rfl

theorem tagged_filter_nil :
    ∀ (bs : List Block) (id : Nat), (∀ x ∈ bs, x.ID ≠ id) →
      (bs.flatMap tagF).filter (fun d => d.BlockID == id) = [] := by
  intro bs
  induction bs with
  | nil => intro id _; rfl
  | cons x bs ih =>
    intro id h
    rw [List.flatMap_cons, List.filter_append,
        ih id (fun y hy => h y (List.mem_cons_of_mem x hy)), List.append_nil]
    apply List.filter_eq_nil_iff.mpr
    intro d hd
    have hdx := tagF_BlockID x d hd
    simp [hdx, h x (List.mem_cons_self x bs)]

/-- With pairwise-distinct IDs, filtering the tagged run set by a block's
ID recovers exactly that block's tagged runs. -/
theorem tagged_filter_eq :
    ∀ (bs : List Block) (b : Block), b ∈ bs →
      List.Pairwise (fun x y : Block => x.ID ≠ y.ID) bs →
      (bs.flatMap tagF).filter (fun d => d.BlockID == b.ID) = tagF b := by
  intro bs
  induction bs with
  | nil => intro b hb; exact absurd hb (List.not_mem_nil b)
  | cons x bs ih =>
    intro b hb hpw
    rw [List.flatMap_cons, List.filter_append]
    have hhead := (List.pairwise_cons.mp hpw).1
    have htail := (List.pairwise_cons.mp hpw).2
    rcases List.mem_cons.mp hb with rfl | hmem
    · rw [List.filter_eq_self.mpr (fun d hd => by simp [tagF_BlockID b d hd])]
      rw [tagged_filter_nil bs b.ID (fun y hy hh => (hhead y hy) hh.symm), List.append_nil]
    · have hx : (tagF x).filter (fun d => d.BlockID == b.ID) = [] := by
        apply List.filter_eq_nil_iff.mpr
        intro d hd
        simp [tagF_BlockID x d hd, hhead b hmem]
      rw [hx, List.nil_append]
      exact ih b hmem htail

/-- The runs reattached to one block are a permutation of its own tagged
runs. -/
theorem runsFor_collect (doc : Document) (b : Block) (hb : b ∈ doc.Blocks)
    (hnd : List.Pairwise (fun a c : Block => a.ID ≠ c.ID) doc.Blocks) :
    (runsFor b.ID (collectFormatting doc)).Perm
      ((tagF b).map (fun d => (⟨d.Start, d.End, d.Attr⟩ : StyleRun))) := by
  unfold runsFor
  refine List.Perm.map _ ?_
  have hperm : (collectFormatting doc).Perm (allTaggedRuns doc) := by
    rw [collectFormatting_eq]
    exact List.mergeSort_perm _ _
  have hflt := hperm.filter (fun d => d.BlockID == b.ID)
  unfold allTaggedRuns at hflt
  rw [tagged_filter_eq doc.Blocks b hb hnd] at hflt
  exact hflt

/-- Untagging a text block's tagged runs recovers its run list. -/
theorem tagF_untag (b : Block) (tb : TextBlock) (htb : b.Text = some tb)
    (hk : b.Kind = BlockKindText) :
    (tagF b).map (fun d => (⟨d.Start, d.End, d.Attr⟩ : StyleRun)) = tb.Runs := by
  unfold tagF
  rw [if_neg (by simp [hk]), htb]
  simp only []
  rw [List.map_map]
  have hcomp : ((fun d : FormattingDirectiveEntry => (⟨d.Start, d.End, d.Attr⟩ : StyleRun)) ∘
      (fun r : StyleRun => FormattingDirectiveEntry.mk b.ID r.Start r.End r.Attr))
      = fun r : StyleRun => r := by
    funext r
    rfl
  rw [hcomp, List.map_id']

theorem forall2_map_self {α β : Type _} (F : α → β) (R : β → α → Prop) :
    ∀ l : List α, (∀ b ∈ l, R (F b) b) → List.Forall₂ R (l.map F) l := by
  intro l
  induction l with
  | nil => intro _; exact List.Forall₂.nil
  | cons a l ih =>
    intro h
    rw [List.map_cons]
    exact List.Forall₂.cons (h a (List.mem_cons_self a l))
      (ih (fun x hx => h x (List.mem_cons_of_mem a hx)))

/-! ## Order facts -/

theorem chain'_pairwise_of_trans {α : Type _} {R : α → α → Prop}
    (htrans : ∀ a b c, R a b → R b c → R a c) :
    ∀ l : List α, List.Chain' R l → List.Pairwise R l := by
  intro l
  induction l with
  | nil => intro _; exact List.Pairwise.nil
  | cons a rest ih =>
    intro hch
    have hch' := (List.chain'_cons'.mp hch).2
    have hpw := ih hch'
    refine List.Pairwise.cons ?_ hpw
    intro b hb
    rcases rest with _ | ⟨c, rest'⟩
    · exact absurd hb (List.not_mem_nil b)
    · have hac : R a c := (List.chain'_cons.mp hch).1
      rcases List.mem_cons.mp hb with rfl | hmem
      · exact hac
      · exact htrans a c b hac ((List.pairwise_cons.mp hpw).1 b hmem)

theorem fdeLe_trans (a b c : FormattingDirectiveEntry)
    (h1 : fdeLe a b = true) (h2 : fdeLe b c = true) : fdeLe a c = true := by
  unfold fdeLe at h1 h2 ⊢
  simp only [decide_eq_true_eq] at h1 h2 ⊢
  omega

theorem fdeLe_total (a b : FormattingDirectiveEntry) :
    (fdeLe a b || fdeLe b a) = true := by
  unfold fdeLe
  simp only [Bool.or_eq_true, decide_eq_true_eq]
  omega

/-! ## Concrete witness documents -/

/-- A benign style attribute used by the witness documents. -/
def wattr : StyleAttr := ⟨true, false, false, false, FontFamilySans, 12, 255⟩

/-- A validated two-text-block document. -/
def wdoc : Document :=
  ⟨⟨[65], [66], 5, 6, false, 8, FontFamilySans⟩,
   [⟨1, BlockKindText, some ⟨[97, 98], [⟨0, 2, wattr⟩]⟩⟩,
    ⟨2, BlockKindText, some ⟨[99], [⟨0, 1, wattr⟩]⟩⟩]⟩

theorem wdoc_valid : Validate wdoc = none := by
  have h1 : validateRuns ⟨[97, 98], [⟨0, 2, wattr⟩]⟩ = none := by
    unfold validateRuns
    rw [List.mergeSort_singleton]
    decide
  have h2 : validateRuns ⟨[99], [⟨0, 1, wattr⟩]⟩ = none := by
    unfold validateRuns
    rw [List.mergeSort_singleton]
    decide
  unfold Validate
  rw [if_neg (by decide), if_neg (by decide)]
  rw [show wdoc.Blocks = [⟨1, BlockKindText, some ⟨[97, 98], [⟨0, 2, wattr⟩]⟩⟩,
    ⟨2, BlockKindText, some ⟨[99], [⟨0, 1, wattr⟩]⟩⟩] from rfl]
  unfold validateBlocks
  rw [if_neg (by decide), if_neg (by decide), if_neg (by decide)]
  simp only []
  rw [if_neg (by decide), h1]
  simp only []
  unfold validateBlocks
  rw [if_neg (by decide), if_neg (by decide), if_neg (by decide)]
  simp only []
  rw [if_neg (by decide), h2]
  rfl

theorem wdoc_wf : WFDocument wdoc := by decide

theorem wdoc_collect : collectFormatting wdoc
    = [⟨1, 0, 2, wattr⟩, ⟨2, 0, 1, wattr⟩] := by
  rw [collectFormatting_eq]
  rw [show allTaggedRuns wdoc = [⟨1, 0, 2, wattr⟩, ⟨2, 0, 1, wattr⟩] from rfl]
  exact List.mergeSort_of_sorted (by decide)

theorem wdoc_encBounded : EncBounded wdoc := by
  unfold EncBounded
  rw [wdoc_collect]
  decide

/-- A validated document whose single text block has one run covering
only its first byte. -/
def c3doc : Document :=
  ⟨⟨[], [], 0, 0, false, 8, FontFamilySans⟩,
   [⟨5, BlockKindText, some ⟨[97, 98], [⟨0, 1, wattr⟩]⟩⟩]⟩

theorem c3doc_valid : Validate c3doc = none := by
  have h1 : validateRuns ⟨[97, 98], [⟨0, 1, wattr⟩]⟩ = none := by
    unfold validateRuns
    rw [List.mergeSort_singleton]
    decide
  unfold Validate
  rw [if_neg (by decide), if_neg (by decide)]
  rw [show c3doc.Blocks = [⟨5, BlockKindText, some ⟨[97, 98], [⟨0, 1, wattr⟩]⟩⟩] from rfl]
  unfold validateBlocks
  rw [if_neg (by decide), if_neg (by decide), if_neg (by decide)]
  simp only []
  rw [if_neg (by decide), h1]
  rfl

theorem c3doc_collect : collectFormatting c3doc = [⟨5, 0, 1, wattr⟩] := by
  rw [collectFormatting_eq]
  rw [show allTaggedRuns c3doc = [⟨5, 0, 1, wattr⟩] from rfl]
  exact List.mergeSort_singleton _

/-! ## Claims -/

/-- C2 counterexample blob: valid header, two TOC entries with disjoint
in-bounds ranges; entry 0 (metadata kind) has a correct CRC but a
malformed one-byte payload, entry 1 has a WRONG stored CRC.  The claim
says any CRC mismatch yields a CRC-mismatch error; the code instead fails
on entry 0's payload first. -/
def c2blob : List Nat :=
  MagicString ++ u16le 1 ++ u16le 1 ++ u64le 42 ++ u32le 2 ++
    (u64le 0 ++ [0] ++ u64le 92 ++ u32le 1 ++ u32le 0xD202EF8D) ++
    (u64le 5 ++ [1] ++ u64le 93 ++ u32le 1 ++ u32le 0) ++
    [0] ++ [0]

/-- C2 counterexample: entry 1's stored CRC differs from the CRC of its
payload, every gate the claim lists before the CRC gate passes, yet the
decoder fails with the malformed-metadata error from entry 0's payload
rather than any CRC-mismatch error. -/
theorem C2_counterexample :
    crc32 (entryPayload c2blob (parseTocEntry c2blob 67))
      ≠ (parseTocEntry c2blob 67).CRC32 ∧
    validateEntryRanges (parsedEntries c2blob) c2blob.length = none ∧
    decodeDocument c2blob = .error .malformedMetadataAuthor := by
  have hvr : validateEntryRanges (parsedEntries c2blob) c2blob.length = none := by
    unfold validateEntryRanges
    have h1 : collectRanges c2blob.length (parsedEntries c2blob)
        = .ok [(92, 93), (93, 94)] := by decide
    rw [h1]
    simp only []
    rw [show ([(92, 93), (93, 94)] : List (Nat × Nat)).mergeSort rangeLe
        = [(92, 93), (93, 94)] from List.mergeSort_of_sorted (by decide)]
    decide
  refine ⟨by decide, hvr, ?_⟩
  rw [decodeDocument_reach c2blob (by decide) (by decide) (by decide) (by decide)
    (by decide) (by decide) (by decide), hvr]
  have hfold : decFold c2blob initState (parsedEntries c2blob)
      = .error .malformedMetadataAuthor := by decide
  rw [hfold]

/-- C2 (amended): decodeDocument's gates fire in order — ErrInvalidMagic
for a short buffer or wrong magic; ErrUnsupportedVer for a version other
than 1; ErrMissingRandomFlag when header flag bit 0x0001 is clear;
ErrInvalidTOC when the TOC range leaves the buffer; ErrInvalidBlockRange
when any entry's payload range leaves the buffer; ErrOverlappingBlocks
when two entries' in-bounds ranges share a byte; and a CRC-mismatch error
carrying an entry's ID when that entry's stored CRC32 differs from the
CRC32 of its payload bytes, provided every earlier entry processed
cleanly (CRC checking is interleaved per entry with payload decoding, so
an earlier entry's payload-decode failure takes precedence). -/
theorem C2_decode_gates (blob : List Nat) (hbytes : IsBytes blob)
    (hlen : blob.length < 2 ^ 63) :
    (blob.length < headerSize ∨ blob.take 26 ≠ MagicString →
      decodeDocument blob = .error .invalidMagic) ∧
    (headerSize ≤ blob.length → blob.take 26 = MagicString →
      leU16At blob 26 ≠ VersionV1 →
      decodeDocument blob = .error (.unsupportedVer (leU16At blob 26))) ∧
    (headerSize ≤ blob.length → blob.take 26 = MagicString →
      leU16At blob 26 = VersionV1 → leU16At blob 28 % 2 = 0 →
      decodeDocument blob = .error .missingRandomFlag) ∧
    (headerSize ≤ blob.length → blob.take 26 = MagicString →
      leU16At blob 26 = VersionV1 → leU16At blob 28 % 2 = 1 →
      (blob.length < leU64At blob 30 ∨
        blob.length < leU64At blob 30 + leU32At blob 38 * tocEntSize) →
      decodeDocument blob = .error .invalidTOC) ∧
    (headerSize ≤ blob.length → blob.take 26 = MagicString →
      leU16At blob 26 = VersionV1 → leU16At blob 28 % 2 = 1 →
      leU64At blob 30 ≤ blob.length →
      leU64At blob 30 + leU32At blob 38 * tocEntSize ≤ blob.length →
      (∃ e ∈ parsedEntries blob, blob.length < e.Offset + e.Length) →
      decodeDocument blob = .error .invalidBlockRange) ∧
    (headerSize ≤ blob.length → blob.take 26 = MagicString →
      leU16At blob 26 = VersionV1 → leU16At blob 28 % 2 = 1 →
      leU64At blob 30 ≤ blob.length →
      leU64At blob 30 + leU32At blob 38 * tocEntSize ≤ blob.length →
      (∀ e ∈ parsedEntries blob, e.Offset + e.Length ≤ blob.length) →
      (∃ (i j : Nat) (e1 e2 : tocEntry) (x : Nat), i ≠ j ∧
        (parsedEntries blob)[i]? = some e1 ∧ (parsedEntries blob)[j]? = some e2 ∧
        e1.Offset ≤ x ∧ x < e1.Offset + e1.Length ∧
        e2.Offset ≤ x ∧ x < e2.Offset + e2.Length) →
      decodeDocument blob = .error .overlappingBlocks) ∧
    (∀ (k : Nat) (hk : k < (parsedEntries blob).length) (st : decState),
      headerSize ≤ blob.length → blob.take 26 = MagicString →
      leU16At blob 26 = VersionV1 → leU16At blob 28 % 2 = 1 →
      leU64At blob 30 ≤ blob.length →
      leU64At blob 30 + leU32At blob 38 * tocEntSize ≤ blob.length →
      validateEntryRanges (parsedEntries blob) blob.length = none →
      decFold blob initState ((parsedEntries blob).take k) = .ok st →
      crc32 (entryPayload blob (parsedEntries blob)[k])
        ≠ ((parsedEntries blob)[k]).CRC32 →
      decodeDocument blob = .error (.crcMismatch ((parsedEntries blob)[k]).ID)) := by
  have hboundsE : ∀ e ∈ parsedEntries blob, e.Offset < 2 ^ 64 ∧ e.Length < 2 ^ 32 := by
    intro e he
    unfold parsedEntries at he
    obtain ⟨i, -, rfl⟩ := List.mem_map.mp he
    exact parseTocEntry_bounds blob hbytes _
  have hcnt : leU32At blob 38 < 2 ^ 32 := leU32At_lt blob hbytes 38
  have hreach : ∀ (h42 : headerSize ≤ blob.length) (hmg : blob.take 26 = MagicString)
      (hver : leU16At blob 26 = VersionV1) (hflag : leU16At blob 28 % 2 = 1)
      (hto : leU64At blob 30 ≤ blob.length)
      (hte : leU64At blob 30 + leU32At blob 38 * tocEntSize ≤ blob.length),
      decodeDocument blob =
        (match validateEntryRanges (parsedEntries blob) blob.length with
         | some e => .error e
         | none =>
           match decFold blob initState (parsedEntries blob) with
           | .error e => .error e
           | .ok st => .ok ⟨st.Metadata, (attachAll st.Blocks st.directive).map sortBlockRuns⟩) := by
    intro h42 hmg hver hflag hto hte
    refine decodeDocument_reach blob h42 hmg hver hflag hto hte ?_
    apply Nat.mod_eq_of_lt
    rw [show tocEntSize = 25 from rfl] at hte ⊢
    omega
  refine ⟨?_, ?_, ?_, ?_, ?_, ?_, ?_⟩
  · intro hmg
    unfold decodeDocument
    rcases hmg with hshort | hmag
    · rw [if_pos hshort]
    · by_cases hshort : blob.length < headerSize
      · rw [if_pos hshort]
      · rw [if_neg hshort, if_pos hmag]
  · intro h42 hmg hver
    unfold decodeDocument
    rw [if_neg (by omega), if_neg (fun hne => hne hmg), if_pos hver]
  · intro h42 hmg hver hflag
    unfold decodeDocument
    rw [if_neg (by omega), if_neg (fun hne => hne hmg),
        if_neg (fun hne => hne hver), if_pos hflag]
  · intro h42 hmg hver hflag htoc
    unfold decodeDocument
    rw [if_neg (by omega), if_neg (fun hne => hne hmg),
        if_neg (fun hne => hne hver), if_neg (by omega)]
    simp only []
    rcases htoc with hto | hte
    · rw [if_pos (by omega)]
    · by_cases hto : leU64At blob 30 > blob.length
      · rw [if_pos hto]
      · rw [if_neg hto]
        have hnw : (leU64At blob 30 + leU32At blob 38 * tocEntSize) % 2 ^ 64
            = leU64At blob 30 + leU32At blob 38 * tocEntSize := by
          apply Nat.mod_eq_of_lt
          have hx : leU32At blob 38 * tocEntSize < 2 ^ 37 := by
            rw [show tocEntSize = 25 from rfl]
            omega
          omega
        rw [hnw, if_pos (by omega)]
  · intro h42 hmg hver hflag hto hte hex
    rw [hreach h42 hmg hver hflag hto hte]
    unfold validateEntryRanges
    rw [collectRanges_err blob.length hlen (parsedEntries blob) hboundsE hex]
  · intro h42 hmg hver hflag hto hte hin hex
    rw [hreach h42 hmg hver hflag hto hte]
    unfold validateEntryRanges
    rw [collectRanges_ok blob.length hlen (parsedEntries blob) hin hboundsE]
    simp only []
    set ranges := (parsedEntries blob).map (fun e => (e.Offset, e.Offset + e.Length))
      with hranges
    rcases chainCheck_cases (ranges.mergeSort rangeLe) with hnone | hover
    · exfalso
      have hwf : ∀ r ∈ ranges.mergeSort rangeLe, r.1 ≤ r.2 := by
        intro r hr
        have : r ∈ ranges := (List.mergeSort_perm ranges rangeLe).mem_iff.mp hr
        obtain ⟨e, -, rfl⟩ := List.mem_map.mp this
        omega
      have hpw := chain_pairwise_ranges _ hwf (chainCheck_none_chain _ hnone)
      have hdisj : List.Pairwise rangesDisjoint (ranges.mergeSort rangeLe) :=
        hpw.imp (fun {a b} hab x hx => by
          rcases hx with ⟨-, hxa, hxb, -⟩
          omega)
      have hdisj2 : List.Pairwise rangesDisjoint ranges :=
        ((List.mergeSort_perm ranges rangeLe).pairwise_iff
          (fun h => rangesDisjoint_symm h)).mp hdisj
      obtain ⟨i, j, e1, e2, x, hij, hi, hj, hx1, hx2, hx3, hx4⟩ := hex
      have hilen : i < (parsedEntries blob).length := by
        by_contra hc
        rw [List.getElem?_eq_none (by omega)] at hi
        exact absurd hi (by simp)
      have hjlen : j < (parsedEntries blob).length := by
        by_contra hc
        rw [List.getElem?_eq_none (by omega)] at hj
        exact absurd hj (by simp)
      rw [List.getElem?_eq_getElem hilen] at hi
      rw [List.getElem?_eq_getElem hjlen] at hj
      injection hi with hi
      injection hj with hj
      rw [List.pairwise_iff_getElem] at hdisj2
      have hrlen : ranges.length = (parsedEntries blob).length := by
        simp [hranges]
      have hri : ranges[i] = (e1.Offset, e1.Offset + e1.Length) := by
        simp [hranges, hi]
      have hrj : ranges[j] = (e2.Offset, e2.Offset + e2.Length) := by
        simp [hranges, hj]
      rcases Nat.lt_or_ge i j with hlt | hge
      · have := hdisj2 i j (by omega) (by omega) hlt
        rw [hri, hrj] at this
        exact this x ⟨hx1, hx2, hx3, hx4⟩
      · have hlt : j < i := by omega
        have := hdisj2 j i (by omega) (by omega) hlt
        rw [hrj, hri] at this
        exact this x ⟨hx3, hx4, hx1, hx2⟩
    · rw [hover]
  · intro k hk st h42 hmg hver hflag hto hte hvr hpre hcrc
    rw [hreach h42 hmg hver hflag hto hte, hvr]
    have hsplit : parsedEntries blob
        = (parsedEntries blob).take k ++
          ((parsedEntries blob)[k] :: (parsedEntries blob).drop (k + 1)) := by
      rw [← List.drop_eq_getElem_cons hk, List.take_append_drop]
    have hproc : processEntry blob st (parsedEntries blob)[k]
        = .error (.crcMismatch ((parsedEntries blob)[k]).ID) := by
      unfold processEntry
      rw [if_pos hcrc]
    have hfold : decFold blob initState (parsedEntries blob)
        = .error (.crcMismatch ((parsedEntries blob)[k]).ID) := by
      conv_lhs => rw [hsplit]
      rw [decFold_append, hpre]
      simp only []
      have hstep : decFold blob st ((parsedEntries blob)[k] ::
          (parsedEntries blob).drop (k + 1))
          = (match processEntry blob st (parsedEntries blob)[k] with
             | .error err => .error err
             | .ok st' => decFold blob st' ((parsedEntries blob).drop (k + 1))) := rfl
      rw [hstep, hproc]
    rw [hfold]

/-- C2 witness: the magic gate at a concrete short buffer, via the
theorem. -/
theorem C2_witness : decodeDocument [1, 2, 3] = .error .invalidMagic :=
  (C2_decode_gates [1, 2, 3] (by decide) (by decide)).1 (Or.inl (by decide))

/-- C10: decodeMetadata's backward-compatibility seam accepts only a
payload ending exactly after the two timestamps (defaulting
PagedMode=false, ParagraphGap=8, PreferredFontFamily=Sans) or one with at
least four trailing settings bytes; any payload with exactly 1, 2 or 3
bytes after the timestamps yields the malformed-metadata-settings error. -/
theorem C10_metadata_settings_seam (a t : List Nat) (c mo : Int) (rest : List Nat)
    (hA : a.length < 2 ^ 32) (hT : t.length < 2 ^ 32)
    (hc1 : -2 ^ 63 ≤ c) (hc2 : c < 2 ^ 63) (hm1 : -2 ^ 63 ≤ mo) (hm2 : mo < 2 ^ 63) :
    (rest = [] →
      decodeMetadata (u32le a.length ++ (a ++ (u32le t.length ++ (t ++
        (i64le c ++ (i64le mo ++ rest))))))
        = .ok ⟨a, t, c, mo, false, 8, FontFamilySans⟩) ∧
    (1 ≤ rest.length → rest.length ≤ 3 →
      decodeMetadata (u32le a.length ++ (a ++ (u32le t.length ++ (t ++
        (i64le c ++ (i64le mo ++ rest))))))
        = .error .malformedMetadataSettings) ∧
    (4 ≤ rest.length →
      decodeMetadata (u32le a.length ++ (a ++ (u32le t.length ++ (t ++
        (i64le c ++ (i64le mo ++ rest))))))
        = .ok ⟨a, t, c, mo, byteAt rest 0 % 2 = 1, leU16At rest 1,
            normalizeFontFamily (byteAt rest 3)⟩) := by
  have hsetup : ∀ P : Except SqErr Metadata → Prop,
      (P (if (i64le c ++ (i64le mo ++ rest)).length < 16 then
            .error .malformedMetadataTimestamps
          else if rest.length = 0 then .ok ⟨a, t, c, mo, false, 8, FontFamilySans⟩
          else if rest.length < 4 then .error .malformedMetadataSettings
          else .ok ⟨a, t, c, mo, byteAt rest 0 % 2 = 1, leU16At rest 1,
            normalizeFontFamily (byteAt rest 3)⟩)) →
      P (decodeMetadata (u32le a.length ++ (a ++ (u32le t.length ++ (t ++
        (i64le c ++ (i64le mo ++ rest))))))) := by
    intro P hP
    simp only [decodeMetadata, readString_exact _ _ hA, readString_exact _ _ hT]
    have hcread : toI64 (leU64At (i64le c ++ (i64le mo ++ rest)) 0) = c :=
      toI64_i64le _ hc1 hc2 _
    have hmread : toI64 (leU64At (i64le c ++ (i64le mo ++ rest)) 8) = mo := by
      rw [show (8 : Nat) = (i64le c).length + 0 by simp, leU64At_append]
      exact toI64_i64le _ hm1 hm2 _
    have hdrop : (i64le c ++ (i64le mo ++ rest)).drop 16 = rest := by
      rw [show i64le c ++ (i64le mo ++ rest) = (i64le c ++ i64le mo) ++ rest by simp,
          show (16 : Nat) = (i64le c ++ i64le mo).length by simp, List.drop_left]
    simp only [hcread, hmread, hdrop]
    exact hP
  refine ⟨?_, ?_, ?_⟩
  · intro hr
    refine hsetup (fun x => x = _) ?_
    rw [if_neg (by simp only [List.length_append, i64le_length]; omega),
        if_pos (by simp [hr])]
  · intro h1 h3
    refine hsetup (fun x => x = _) ?_
    rw [if_neg (by simp only [List.length_append, i64le_length]; omega),
        if_neg (by omega), if_pos (by omega)]
  · intro h4
    refine hsetup (fun x => x = _) ?_
    rw [if_neg (by simp only [List.length_append, i64le_length]; omega),
        if_neg (by omega), if_neg (by omega)]

/-- C10 witness: a concrete two-byte settings tail is rejected. -/
theorem C10_witness :
    decodeMetadata (u32le 0 ++ ([] ++ (u32le 0 ++ ([] ++
      (i64le 0 ++ (i64le 0 ++ [1, 2]))))))
      = .error .malformedMetadataSettings :=
  (C10_metadata_settings_seam [] [] 0 0 [1, 2] (by decide) (by decide)
    (by decide) (by decide) (by decide) (by decide)).2.1 (by decide) (by decide)

/-- C6 counterexample: the claim's 26-byte "current" stride is in fact
rejected with the unsupported-entry-size error (the source's
`styleEntSz` is 24 = 8+4+4+1+1+2+4 bytes, not 26), while a 24-byte
entry decodes fine. -/
theorem C6_counterexample :
    decodeFormattingDirective (u32le 1 ++ List.replicate 26 0)
      = .error .unsupportedFmtEntrySize ∧
    decodeFormattingDirective (u32le 1 ++ List.replicate 24 0)
      = .ok [⟨0, 0, 0, ⟨false, false, false, false, 0, 0, 0⟩⟩] := by
  constructor <;> decide

/-- C6 (amended): for entry count n > 0, decodeFormattingDirective
divides the remaining payload by n and accepts exactly two strides: the
current 24-byte layout (`styleEntSz`), or the legacy 23-byte layout
(`styleEntV1`) lacking the FontFamily byte, in which case every decoded
entry's FontFamily is Sans; a non-divisible remainder or any other
quotient is a hard decode error. -/
theorem C6_directive_strides (b : List Nat) (h4 : 4 ≤ b.length)
    (hpos : 0 < leU32At b 0) :
    ((b.length - 4) % leU32At b 0 ≠ 0 →
        decodeFormattingDirective b = .error .malformedFmtEntryLength) ∧
    ((b.length - 4) % leU32At b 0 = 0 →
      (b.length - 4) / leU32At b 0 ≠ styleEntSz →
      (b.length - 4) / leU32At b 0 ≠ styleEntV1 →
        decodeFormattingDirective b = .error .unsupportedFmtEntrySize) ∧
    (b.length - 4 = styleEntSz * leU32At b 0 →
        ∃ es, decodeFormattingDirective b = .ok es ∧ es.length = leU32At b 0) ∧
    (b.length - 4 = styleEntV1 * leU32At b 0 →
        ∃ es, decodeFormattingDirective b = .ok es ∧ es.length = leU32At b 0 ∧
          ∀ e ∈ es, e.Attr.FontFamily = FontFamilySans) := by
  have hz : ¬ (leU32At b 0 = 0) := by omega
  refine ⟨?_, ?_, ?_, ?_⟩
  · intro hmod
    unfold decodeFormattingDirective
    rw [if_neg (by omega), if_neg hz, if_pos hmod]
  · intro hmod hq1 hq2
    unfold decodeFormattingDirective
    rw [if_neg (by omega), if_neg hz, if_neg (by omega), if_pos ⟨hq1, hq2⟩]
  · intro heq
    unfold decodeFormattingDirective
    rw [if_neg (by omega), if_neg hz]
    rw [if_neg (by
      rw [heq, Nat.mul_mod_left]
      omega)]
    have hdiv : (b.length - 4) / leU32At b 0 = styleEntSz := by
      rw [heq, Nat.mul_div_cancel _ hpos]
    rw [hdiv]
    rw [if_neg (by simp)]
    obtain ⟨es, hes, hlen, -⟩ := decodeFmtLoop_total b styleEntSz (leU32At b 0) 4
      (by rw [Nat.mul_comm]; omega) (by decide)
    exact ⟨es, hes, hlen⟩
  · intro heq
    unfold decodeFormattingDirective
    rw [if_neg (by omega), if_neg hz]
    rw [if_neg (by
      rw [heq, Nat.mul_mod_left]
      omega)]
    have hdiv : (b.length - 4) / leU32At b 0 = styleEntV1 := by
      rw [heq, Nat.mul_div_cancel _ hpos]
    rw [hdiv]
    rw [if_neg (by simp [styleEntSz, styleEntV1])]
    obtain ⟨es, hes, hlen, hfam⟩ := decodeFmtLoop_total b styleEntV1 (leU32At b 0) 4
      (by rw [Nat.mul_comm]; omega) (by decide)
    exact ⟨es, hes, hlen, hfam (by decide)⟩

/-- C6 witness: one 24-byte entry decodes through the amended theorem. -/
theorem C6_witness :
    ∃ es, decodeFormattingDirective (u32le 1 ++ List.replicate 24 0) = .ok es ∧
      es.length = leU32At (u32le 1 ++ List.replicate 24 0) 0 :=
  (C6_directive_strides (u32le 1 ++ List.replicate 24 0) (by decide)
    (by decide)).2.2.1 (by decide)

/-- C4 counterexample: a text payload whose legacy run table declares two
runs but holds exactly one complete 15-byte record decodes successfully,
yet the returned block has NO runs — the one already-parsed run is
discarded, contradicting the claim that parsed runs are kept. -/
theorem C4_counterexample :
    decodeTextBlock (u32le 0 ++ (u32le 2 ++ (u32le 0 ++ u32le 1 ++ [1] ++
        u16le 12 ++ u32le 9)))
      = .ok ⟨[], []⟩ ∧
    decodeRunLoop (u32le 0 ++ (u32le 2 ++ (u32le 0 ++ u32le 1 ++ [1] ++
        u16le 12 ++ u32le 9))) 2 8 = none ∧
    decodeRunLoop (u32le 0 ++ (u32le 2 ++ (u32le 0 ++ u32le 1 ++ [1] ++
        u16le 12 ++ u32le 9))) 1 8
      = some [⟨0, 1, ⟨true, false, false, false, FontFamilySans, 12, 9⟩⟩] := by
  refine ⟨by decide, by decide, by decide⟩

/-- C4 (amended): when a text payload's legacy trailing run table is
truncated (the declared count promises more complete 15-byte records than
remain), decodeTextBlock succeeds without error, but the returned
TextBlock has the text and an EMPTY run list: the runs parsed before the
truncation point are discarded, not kept. -/
theorem C4_truncated_tail (txt rest : List Nat) (hlen : txt.length < 2 ^ 32)
    (hrest : 4 ≤ rest.length)
    (htrunc : decodeRunLoop (u32le txt.length ++ (txt ++ rest))
        (leU32At rest 0) (4 + txt.length + 4) = none) :
    decodeTextBlock (u32le txt.length ++ (txt ++ rest)) = .ok ⟨txt, []⟩ :=
  decodeTextBlock_truncated txt rest hlen hrest htrunc

/-- C4 witness: text "A" followed by a run count of 1 and no record bytes
decodes to the bare text with no runs. -/
theorem C4_witness :
    decodeTextBlock (u32le 1 ++ ([65] ++ u32le 1)) = .ok ⟨[65], []⟩ :=
  C4_truncated_tail [65] (u32le 1) (by decide) (by decide) (by decide)

/-- C8: Validate rejects any document holding a text block with two
distinct runs styling a common byte; it accepts a zero-length run with
Start=End=0 on an empty text block; it rejects a run with Start=End on
non-empty text, and a zero-length run at a nonzero offset on empty
text. -/
theorem C8_style_run_invariants :
    (∀ (doc : Document) (b : Block) (tb : TextBlock) (i j pos : Nat)
        (hb : b ∈ doc.Blocks) (htb : b.Text = some tb)
        (hi : i < tb.Runs.length) (hj : j < tb.Runs.length), i ≠ j →
        runCovers tb.Runs[i] pos → runCovers tb.Runs[j] pos →
        (Validate doc).isSome) ∧
    (∀ attr : StyleAttr, attr.FontSizePt ≠ 0 → isValidFontFamily attr.FontFamily →
        Validate ⟨⟨[], [], 0, 0, false, 8, FontFamilySans⟩,
          [⟨1, BlockKindText, some ⟨[], [⟨0, 0, attr⟩]⟩⟩]⟩ = none) ∧
    (∀ (doc : Document) (b : Block) (tb : TextBlock) (r : StyleRun),
        b ∈ doc.Blocks → b.Text = some tb → r ∈ tb.Runs → tb.UTF8 ≠ [] →
        r.Start = r.End → (Validate doc).isSome) ∧
    (∀ (doc : Document) (b : Block) (tb : TextBlock) (r : StyleRun),
        b ∈ doc.Blocks → b.Text = some tb → r ∈ tb.Runs → tb.UTF8 = [] →
        r.Start = r.End → r.Start ≠ 0 → (Validate doc).isSome) := by
  refine ⟨?_, ?_, ?_, ?_⟩
  · intro doc b tb i j pos hb htb hi hj hij hci hcj
    rcases hv : Validate doc with _ | e
    · exfalso
      obtain ⟨-, -, -, hblocks, -⟩ := Validate_none doc hv
      obtain ⟨-, -, -, tb', htb', -, hruns⟩ := hblocks b hb
      rw [htb] at htb'
      injection htb' with htb'
      subst htb'
      have hpw := validateRuns_disjoint tb hruns
      rw [List.pairwise_iff_getElem] at hpw
      rcases Nat.lt_or_ge i j with hlt | hge
      · exact hpw i j hi hj hlt pos ⟨hci, hcj⟩
      · have hlt : j < i := by omega
        exact hpw j i hj hi hlt pos ⟨hcj, hci⟩
    · rfl
  · intro attr hsz hff
    have hvr : validateRuns ⟨[], [⟨0, 0, attr⟩]⟩ = none := by
      unfold validateRuns
      rw [List.mergeSort_singleton]
      show (if attr.FontSizePt = 0 then some SqErr.zeroFontSize
        else if ¬ isValidFontFamily attr.FontFamily then some SqErr.fontFamilyInvalid
        else none) = none
      rw [if_neg hsz, if_neg (by simpa using hff)]
    unfold Validate validateBlocks
    simp only []
    rw [hvr]
    decide
  · intro doc b tb r hb htb hr hne hz
    rcases hv : Validate doc with _ | e
    · exfalso
      obtain ⟨-, -, -, hblocks, -⟩ := Validate_none doc hv
      obtain ⟨-, -, -, tb', htb', -, hruns⟩ := hblocks b hb
      rw [htb] at htb'
      injection htb' with htb'
      subst htb'
      have := (validateRuns_facts tb hruns r hr).2.1 hz
      exact hne (List.length_eq_zero.mp this.1)
    · rfl
  · intro doc b tb r hb htb hr hempty hz hs
    rcases hv : Validate doc with _ | e
    · exfalso
      obtain ⟨-, -, -, hblocks, -⟩ := Validate_none doc hv
      obtain ⟨-, -, -, tb', htb', -, hruns⟩ := hblocks b hb
      rw [htb] at htb'
      injection htb' with htb'
      subst htb'
      exact hs ((validateRuns_facts tb hruns r hr).2.1 hz).2
    · rfl

/-- C8 witness: the accepting case at a concrete attribute, and a
concrete overlapping-runs document rejected through the theorem. -/
theorem C8_witness :
    Validate ⟨⟨[], [], 0, 0, false, 8, FontFamilySans⟩,
      [⟨1, BlockKindText, some ⟨[], [⟨0, 0, ⟨false, false, false, false,
        FontFamilySans, 12, 0⟩⟩]⟩⟩]⟩ = none ∧
    (Validate ⟨⟨[], [], 0, 0, false, 8, FontFamilySans⟩,
      [⟨1, BlockKindText, some ⟨[97, 98, 99], [⟨0, 2, ⟨false, false, false, false,
        FontFamilySans, 12, 0⟩⟩, ⟨1, 3, ⟨true, false, false, false,
        FontFamilySans, 12, 0⟩⟩]⟩⟩]⟩).isSome := by
  constructor
  · exact C8_style_run_invariants.2.1 _ (by decide) (by decide)
  · exact C8_style_run_invariants.1 _
      ⟨1, BlockKindText, some ⟨[97, 98, 99], [⟨0, 2, ⟨false, false, false, false,
        FontFamilySans, 12, 0⟩⟩, ⟨1, 3, ⟨true, false, false, false,
        FontFamilySans, 12, 0⟩⟩]⟩⟩ _ 0 1 1
      (by decide) rfl (by decide) (by decide) (by decide) (by decide) (by decide)

/-- C5: with encryption requested and a password blank after trimming,
the save path fails with ErrPasswordRequired for EVERY choice of the
cryptographic and compression primitives — no key derivation or
encryption can have run.  On an encrypted envelope, the load path fails
with ErrPasswordRequired when the supplied password trims to blank, and
with ErrInvalidPassword whenever AEAD authentication fails, whatever the
cause — the model quantifies only over the fact that `gcmOpenAEAD`
returned `none`, so a wrong password and corrupted ciphertext are
indistinguishable in the result. -/
theorem C5_password_errors :
    (∀ (C : CryptoOps) (zc : List Nat → List Nat) (salt nonce : List Nat)
        (now : Int) (doc : Document) (opts : SaveOptions),
        opts.Encryption.Enabled = true →
        stringsTrim opts.Encryption.Password = [] →
        Validate (withSaveTimestamps doc now) = none →
        saveBlob C zc salt nonce now doc opts = .error .passwordRequired) ∧
    (∀ (C : CryptoOps) (zd : List Nat → Option (List Nat)) (b : List Nat)
        (opts : LoadOptions),
        isSecureEnvelope b = true → secureHeaderSize ≤ b.length →
        leU16At b secureMagic.length = secureVersionV1 →
        leU16At b (secureMagic.length + 2) / 2 % 2 = 1 →
        b.length - secureHeaderSize = leU64At b (secureMagic.length + 4 +
          secureSaltSize + secureNonceSize) →
        stringsTrim opts.Password = [] →
        loadFromBytes C zd b opts = .error .passwordRequired) ∧
    (∀ (C : CryptoOps) (zd : List Nat → Option (List Nat)) (b : List Nat)
        (opts : LoadOptions),
        isSecureEnvelope b = true → secureHeaderSize ≤ b.length →
        leU16At b secureMagic.length = secureVersionV1 →
        leU16At b (secureMagic.length + 2) / 2 % 2 = 1 →
        b.length - secureHeaderSize = leU64At b (secureMagic.length + 4 +
          secureSaltSize + secureNonceSize) →
        stringsTrim opts.Password ≠ [] →
        C.gcmOpenAEAD (C.kdfKey opts.Password
            ((b.drop (secureMagic.length + 4)).take secureSaltSize) kdfIterations 32)
          ((b.drop (secureMagic.length + 4 + secureSaltSize)).take secureNonceSize)
          (b.drop secureHeaderSize) = none →
        loadFromBytes C zd b opts = .error .invalidPassword) := by
  refine ⟨?_, ?_, ?_⟩
  · intro C zc salt nonce now doc opts hen htrim hval
    unfold saveBlob
    simp only []
    rw [hval, encodeDocumentDetailed_ok _ hval]
    simp only []
    rw [if_pos ⟨hen, htrim⟩]
  · intro C zd b opts hsec hlen hver henc hplen htrim
    have hlen2 : ¬ (b.length < secureHeaderSize) := by omega
    unfold loadFromBytes
    rw [if_pos hsec]
    suffices hdec : decodeSecureEnvelope C zd b opts = .error SqErr.passwordRequired by
      rw [hdec]
    unfold decodeSecureEnvelope inspectEnvelopeBytes
    simp at hver henc hplen
    simp [hsec, hlen2, hver, hplen, henc, htrim]
  · intro C zd b opts hsec hlen hver henc hplen htrim hopen
    have hlen2 : ¬ (b.length < secureHeaderSize) := by omega
    unfold loadFromBytes
    rw [if_pos hsec]
    suffices hdec : decodeSecureEnvelope C zd b opts = .error SqErr.invalidPassword by
      rw [hdec]
    unfold decodeSecureEnvelope inspectEnvelopeBytes
    simp at hver henc hplen hopen
    simp [hsec, hlen2, hver, hplen, henc, htrim, hopen]

/-- C5 witness: a concrete dummy cipher suite; saving a valid document
with encryption enabled and an all-whitespace password fails with
password-required, and loading a concrete encrypted envelope with a blank
password fails likewise. -/
theorem C5_witness :
    saveBlob ⟨fun _ _ _ _ => [], fun _ _ p => p, fun _ _ _ => none⟩ id [] [] 5
        ⟨⟨[], [], 0, 0, false, 8, FontFamilySans⟩, []⟩
        ⟨false, ⟨true, [32, 9]⟩⟩ = .error .passwordRequired ∧
    loadFromBytes ⟨fun _ _ _ _ => [], fun _ _ p => p, fun _ _ _ => none⟩ (fun _ => none)
        (secureMagic ++ u16le 1 ++ u16le 2 ++ List.replicate 16 0 ++
          List.replicate 12 0 ++ u64le 0) ⟨[]⟩ = .error .passwordRequired := by
  constructor
  · exact C5_password_errors.1 _ id [] [] 5 _ _ (by decide) (by decide) (by decide)
  · exact C5_password_errors.2.1 _ _ _ _ (by decide) (by decide) (by decide)
      (by decide) (by decide) (by decide)

/-- C7: on a validated, well-formed, size-bounded document with n text
blocks, the encoder succeeds with the wrap-free blob; the header records
TOC offset 42 and entry count n+2; the TOC entries carry, in order, the
metadata payload, the formatting directive, then each block in document
order; every payload sits at or after the end of the TOC; payload offsets
are monotonically non-decreasing in emission order; and each entry's
`[Offset, Offset+Length)` slice of the blob is exactly its payload. -/
theorem C7_encode_layout (doc : Document) (hv : Validate doc = none)
    (hwf : WFDocument doc) (heb : EncBounded doc) :
    encodeDocumentDetailed doc = .ok ⟨encBlob doc, encEntries doc, headerSize,
      (docPayloadEntries doc).length * tocEntSize⟩ ∧
    encodeDocument doc = .ok (encBlob doc) ∧
    leU64At (encBlob doc) 30 = 42 ∧
    leU32At (encBlob doc) 38 = doc.Blocks.length + 2 ∧
    (encEntries doc).map (fun e => (e.ID, e.Kind))
      = (metaBlockID, BlockKindMetadata) :: (fmtBlockID, BlockKindStyle) ::
        doc.Blocks.map (fun b => (b.ID, b.Kind)) ∧
    (∀ e ∈ encEntries doc, headerSize + (doc.Blocks.length + 2) * tocEntSize ≤ e.Offset) ∧
    List.Chain' (fun a b : tocEntry => a.Offset ≤ b.Offset) (encEntries doc) ∧
    List.Forall₂ (fun (e : tocEntry) (p : payloadEntry) =>
      entryPayload (encBlob doc) e = p.Payload) (encEntries doc) (docPayloadEntries doc) := by
  have hdet : encodeDocumentDetailed doc = .ok ⟨encBlob doc, encEntries doc, headerSize,
      (docPayloadEntries doc).length * tocEntSize⟩ := by
    rw [encodeDocumentDetailed_ok doc hv, encodeResultOf_eq doc hwf heb]
  obtain ⟨-, -, -, h30, h38⟩ := encBlob_header doc hwf
  have hEnt : encEntries doc = buildEntriesNM (encBase doc) (docPayloadEntries doc) := rfl
  refine ⟨hdet, ?_, h30, ?_, ?_, ?_, ?_, ?_⟩
  · unfold encodeDocument
    rw [hdet]
  · rw [h38, docPayloadEntries_length]
  · rw [hEnt, buildEntriesNM_map_idkind]
    unfold docPayloadEntries
    rw [List.map_cons, List.map_cons, List.map_map]
    rfl
  · intro e he
    rw [hEnt] at he
    have := (buildEntriesNM_inBounds _ _ e he).1
    unfold encBase at this
    rw [docPayloadEntries_length] at this
    exact this
  · rw [hEnt]
    exact (buildEntriesNM_chain _ _).imp (fun {a b} h => by omega)
  · have hpre : encBase doc = (MagicString ++ u16le VersionV1 ++ u16le FlagRandomAccess ++
        u64le headerSize ++ u32le (docPayloadEntries doc).length ++
        (encEntries doc).flatMap tocEntryBytes).length := by
      simp only [List.length_append, MagicString_length, u16le_length, u64le_length,
        u32le_length, flatMap_tocEntryBytes_length]
      rw [hEnt, buildEntriesNM_length]
      unfold encBase
      rw [show tocEntSize = 25 from rfl, show headerSize = 42 from rfl]
      omega
    have hblob : encBlob doc = (MagicString ++ u16le VersionV1 ++ u16le FlagRandomAccess ++
        u64le headerSize ++ u32le (docPayloadEntries doc).length ++
        (encEntries doc).flatMap tocEntryBytes) ++
        (docPayloadEntries doc).flatMap payloadEntry.Payload := by
      unfold encBlob
      simp [List.append_assoc]
    have h := buildEntriesNM_slices (docPayloadEntries doc)
      (MagicString ++ u16le VersionV1 ++ u16le FlagRandomAccess ++ u64le headerSize ++
        u32le (docPayloadEntries doc).length ++ (encEntries doc).flatMap tocEntryBytes)
    simp only [← hpre, ← hblob] at h
    rw [hEnt]
    exact h

/-- C7 witness: the two-block witness document satisfies the hypotheses
and the layout conclusions via the theorem. -/
theorem C7_witness :
    Validate wdoc = none ∧ WFDocument wdoc ∧ EncBounded wdoc ∧
    (encodeDocumentDetailed wdoc = .ok ⟨encBlob wdoc, encEntries wdoc, headerSize,
      (docPayloadEntries wdoc).length * tocEntSize⟩ ∧
    encodeDocument wdoc = .ok (encBlob wdoc) ∧
    leU64At (encBlob wdoc) 30 = 42 ∧
    leU32At (encBlob wdoc) 38 = wdoc.Blocks.length + 2 ∧
    (encEntries wdoc).map (fun e => (e.ID, e.Kind))
      = (metaBlockID, BlockKindMetadata) :: (fmtBlockID, BlockKindStyle) ::
        wdoc.Blocks.map (fun b => (b.ID, b.Kind)) ∧
    (∀ e ∈ encEntries wdoc, headerSize + (wdoc.Blocks.length + 2) * tocEntSize ≤ e.Offset) ∧
    List.Chain' (fun a b : tocEntry => a.Offset ≤ b.Offset) (encEntries wdoc) ∧
    List.Forall₂ (fun (e : tocEntry) (p : payloadEntry) =>
      entryPayload (encBlob wdoc) e = p.Payload) (encEntries wdoc) (docPayloadEntries wdoc)) :=
  ⟨wdoc_valid, wdoc_wf, wdoc_encBounded,
    C7_encode_layout wdoc wdoc_valid wdoc_wf wdoc_encBounded⟩

/-- C9: on a validated, well-formed, size-bounded document, InspectLayout
succeeds; its segment list is exactly the Header segment covering bytes
0..42, an Index segment at the real TOC offset and length, and one
segment per TOC entry with the encoder's offset and length — already in
non-decreasing offset order, so the sort returns it unchanged — and the
returned document is the input document itself, unmodified. -/
theorem C9_inspect_layout (doc : Document) (hv : Validate doc = none)
    (hwf : WFDocument doc) (heb : EncBounded doc) :
    InspectLayout doc = .ok
      (⟨headerSize, headerSize, (docPayloadEntries doc).length * tocEntSize,
        (encBlob doc).length,
        ⟨"Header", BlockKindMetadata, metaBlockID, 0, headerSize⟩ ::
        ⟨"Index", BlockKindStyle, fmtBlockID, headerSize,
          (docPayloadEntries doc).length * tocEntSize⟩ ::
        (encEntries doc).map (fun e =>
          ⟨segmentName e.Kind, e.Kind, e.ID, e.Offset, e.Length⟩)⟩, doc) ∧
    List.Chain' (fun a b : LayoutSegment => a.Offset ≤ b.Offset)
      (⟨"Header", BlockKindMetadata, metaBlockID, 0, headerSize⟩ ::
       ⟨"Index", BlockKindStyle, fmtBlockID, headerSize,
         (docPayloadEntries doc).length * tocEntSize⟩ ::
       (encEntries doc).map (fun e =>
         ⟨segmentName e.Kind, e.Kind, e.ID, e.Offset, e.Length⟩)) := by
  have hEnt : encEntries doc = buildEntriesNM (encBase doc) (docPayloadEntries doc) := rfl
  have hchainE : List.Chain' (fun a b : tocEntry => a.Offset ≤ b.Offset) (encEntries doc) := by
    rw [hEnt]
    exact (buildEntriesNM_chain _ _).imp (fun {a b} h => by omega)
  have hbase : ∀ e ∈ encEntries doc, headerSize ≤ e.Offset := by
    intro e he
    rw [hEnt] at he
    have := (buildEntriesNM_inBounds _ _ e he).1
    unfold encBase at this
    omega
  have hchainS : List.Chain' (fun a b : LayoutSegment => a.Offset ≤ b.Offset)
      (⟨"Header", BlockKindMetadata, metaBlockID, 0, headerSize⟩ ::
       ⟨"Index", BlockKindStyle, fmtBlockID, headerSize,
         (docPayloadEntries doc).length * tocEntSize⟩ ::
       (encEntries doc).map (fun e =>
         ⟨segmentName e.Kind, e.Kind, e.ID, e.Offset, e.Length⟩)) := by
    refine List.chain'_cons.mpr ⟨Nat.zero_le _, ?_⟩
    refine List.chain'_cons'.mpr ⟨?_, ?_⟩
    · intro y hy
      rcases henc : encEntries doc with _ | ⟨e0, es⟩
      · rw [henc] at hy
        exact absurd hy (by simp)
      · rw [henc, List.map_cons] at hy
        simp only [List.head?_cons, Option.mem_def] at hy
        injection hy with hy
        subst hy
        show headerSize ≤ e0.Offset
        exact hbase e0 (by rw [henc]; exact List.mem_cons_self _ _)
    · rw [List.chain'_map]
      exact hchainE
  have hsortedS : List.Pairwise (fun a b : LayoutSegment => segLe a b = true)
      (⟨"Header", BlockKindMetadata, metaBlockID, 0, headerSize⟩ ::
       ⟨"Index", BlockKindStyle, fmtBlockID, headerSize,
         (docPayloadEntries doc).length * tocEntSize⟩ ::
       (encEntries doc).map (fun e =>
         ⟨segmentName e.Kind, e.Kind, e.ID, e.Offset, e.Length⟩)) := by
    refine (@chain'_pairwise_of_trans LayoutSegment
      (fun a b : LayoutSegment => a.Offset ≤ b.Offset)
      (fun a b c h1 h2 => Nat.le_trans h1 h2) _ hchainS).imp ?_
    intro a b h
    exact decide_eq_true h
  refine ⟨?_, hchainS⟩
  unfold InspectLayout
  rw [hv]
  simp only []
  rw [encodeDocumentDetailed_ok doc hv, encodeResultOf_eq doc hwf heb]
  simp only []
  simp only [List.cons_append, List.nil_append]
  rw [List.mergeSort_of_sorted hsortedS]

/-- C9 witness: the two-block witness document satisfies the hypotheses
and the layout-inspection conclusions via the theorem. -/
theorem C9_witness :
    Validate wdoc = none ∧ WFDocument wdoc ∧ EncBounded wdoc ∧
    (InspectLayout wdoc = .ok
      (⟨headerSize, headerSize, (docPayloadEntries wdoc).length * tocEntSize,
        (encBlob wdoc).length,
        ⟨"Header", BlockKindMetadata, metaBlockID, 0, headerSize⟩ ::
        ⟨"Index", BlockKindStyle, fmtBlockID, headerSize,
          (docPayloadEntries wdoc).length * tocEntSize⟩ ::
        (encEntries wdoc).map (fun e =>
          ⟨segmentName e.Kind, e.Kind, e.ID, e.Offset, e.Length⟩)⟩, wdoc) ∧
    List.Chain' (fun a b : LayoutSegment => a.Offset ≤ b.Offset)
      (⟨"Header", BlockKindMetadata, metaBlockID, 0, headerSize⟩ ::
       ⟨"Index", BlockKindStyle, fmtBlockID, headerSize,
         (docPayloadEntries wdoc).length * tocEntSize⟩ ::
       (encEntries wdoc).map (fun e =>
         ⟨segmentName e.Kind, e.Kind, e.ID, e.Offset, e.Length⟩))) :=
  ⟨wdoc_valid, wdoc_wf, wdoc_encBounded,
    C9_inspect_layout wdoc wdoc_valid wdoc_wf wdoc_encBounded⟩

/-- C3 counterexample: a validated document whose text "ab" carries one
run covering only byte 0.  The persisted formatting directive holds
exactly that one verbatim entry — text byte 1 is covered by NO persisted
run, so the claimed gap-filled covering set does not exist. -/
theorem C3_counterexample :
    Validate c3doc = none ∧
    collectFormatting c3doc = [⟨5, 0, 1, wattr⟩] ∧
    decodeFormattingDirective (encodeFormattingDirective (collectFormatting c3doc))
      = .ok [⟨5, 0, 1, wattr⟩] ∧
    ¬ ∃ d ∈ [(⟨5, 0, 1, wattr⟩ : FormattingDirectiveEntry)], d.Start ≤ 1 ∧ 1 < d.End := by
  refine ⟨c3doc_valid, c3doc_collect, ?_, by decide⟩
  rw [c3doc_collect]
  decide

/-- C3 (amended): the container codec persists each text block's style
runs in the formatting-directive payload VERBATIM, tagged with the block
ID and sorted by `(BlockID, Start, End)` — a permutation of the tagged
caller-supplied run set, with no gap-filling, coalescing or synthetic
default runs — and the payload decodes back to exactly that entry
list. -/
theorem C3_directive_persistence (doc : Document) (hv : Validate doc = none)
    (hwf : WFDocument doc) :
    collectFormatting doc = (allTaggedRuns doc).mergeSort fdeLe ∧
    (collectFormatting doc).Perm (allTaggedRuns doc) ∧
    List.Pairwise (fun a b => fdeLe a b = true) (collectFormatting doc) ∧
    decodeFormattingDirective (encodeFormattingDirective (collectFormatting doc))
      = .ok (collectFormatting doc) := by
  obtain ⟨-, -, -, hbl, -⟩ := Validate_none doc hv
  have hcnt : (collectFormatting doc).length < 2 ^ 32 := by
    rw [collectFormatting_length doc (fun b hb => (hbl b hb).2.2.1)]
    exact hwf.2.2.2
  refine ⟨collectFormatting_eq doc, ?_, ?_, ?_⟩
  · rw [collectFormatting_eq]
    exact List.mergeSort_perm _ _
  · rw [collectFormatting_eq]
    exact List.sorted_mergeSort fdeLe_trans fdeLe_total (allTaggedRuns doc)
  · exact decodeFormattingDirective_encode _ hcnt (collectFormatting_WF doc hv hwf)

/-- C3 witness: the single-run witness document satisfies the hypotheses
and the persistence conclusions via the theorem. -/
theorem C3_witness :
    Validate c3doc = none ∧ WFDocument c3doc ∧
    (collectFormatting c3doc = (allTaggedRuns c3doc).mergeSort fdeLe ∧
    (collectFormatting c3doc).Perm (allTaggedRuns c3doc) ∧
    List.Pairwise (fun a b => fdeLe a b = true) (collectFormatting c3doc) ∧
    decodeFormattingDirective (encodeFormattingDirective (collectFormatting c3doc))
      = .ok (collectFormatting c3doc)) :=
  ⟨c3doc_valid, by decide,
    C3_directive_persistence c3doc c3doc_valid (by decide)⟩

/-- C1: on a validated, well-formed, size-bounded document — two or more
text blocks included — the encoder succeeds and decoding its blob
succeeds with a document whose metadata equals the original's and whose
blocks, pairwise in order, keep the block ID and the exact text bytes and
give every text position the same effective style (the attribute of the
unique covering run) as the original. -/
theorem C1_roundtrip (doc : Document) (hv : Validate doc = none)
    (hwf : WFDocument doc) (heb : EncBounded doc) :
    ∃ out : Document, encodeDocument doc = .ok (encBlob doc) ∧
      decodeDocument (encBlob doc) = .ok out ∧
      out.Metadata = doc.Metadata ∧
      List.Forall₂ (fun b' b : Block => b'.ID = b.ID ∧ textOf b' = textOf b ∧
        ∀ pos, styleAt (runsOf b') pos = styleAt (runsOf b) pos)
        out.Blocks doc.Blocks := by
  obtain ⟨-, -, -, hbl, hnd⟩ := Validate_none doc hv
  refine ⟨⟨doc.Metadata, (attachAll (doc.Blocks.map (fun b => ⟨b.ID, BlockKindText,
      some ⟨textOf b, []⟩⟩)) (collectFormatting doc)).map sortBlockRuns⟩, ?_, ?_, rfl, ?_⟩
  · unfold encodeDocument
    rw [encodeDocumentDetailed_ok doc hv, encodeResultOf_eq doc hwf heb]
  · exact decodeDocument_encBlob doc hv hwf heb
  · show List.Forall₂ _
      ((attachAll (doc.Blocks.map (fun b => ⟨b.ID, BlockKindText, some ⟨textOf b, []⟩⟩))
        (collectFormatting doc)).map sortBlockRuns) doc.Blocks
    have hnd0 : List.Pairwise (fun a b : Block => a.ID ≠ b.ID)
        (doc.Blocks.map (fun b => ⟨b.ID, BlockKindText, some ⟨textOf b, []⟩⟩)) := by
      rw [List.pairwise_map]
      exact hnd
    rw [attachAll_spec (collectFormatting doc) _ hnd0, List.map_map, List.map_map]
    apply forall2_map_self
    intro b hb
    obtain ⟨-, -, hkind, tb, htb, -, hvr⟩ := hbl b hb
    refine ⟨rfl, rfl, ?_⟩
    have h1 := runsFor_collect doc b hb hnd
    rw [tagF_untag b tb htb hkind] at h1
    have hperm := (List.mergeSort_perm (runsFor b.ID (collectFormatting doc)) runLe).trans h1
    have hdisj : List.Pairwise NoCommonByte tb.Runs := validateRuns_disjoint tb hvr
    intro pos
    have hsp := styleAt_perm tb.Runs _ hperm.symm hdisj pos
    show styleAt ((runsFor b.ID (collectFormatting doc)).mergeSort runLe) pos
      = styleAt (runsOf b) pos
    rw [show runsOf b = tb.Runs from by unfold runsOf; rw [htb]]
    exact hsp.symm

/-- C1 witness: the two-text-block witness document round-trips through
the theorem. -/
theorem C1_witness :
    Validate wdoc = none ∧ WFDocument wdoc ∧ EncBounded wdoc ∧
    (∃ out : Document, encodeDocument wdoc = .ok (encBlob wdoc) ∧
      decodeDocument (encBlob wdoc) = .ok out ∧
      out.Metadata = wdoc.Metadata ∧
      List.Forall₂ (fun b' b : Block => b'.ID = b.ID ∧ textOf b' = textOf b ∧
        ∀ pos, styleAt (runsOf b') pos = styleAt (runsOf b) pos)
        out.Blocks wdoc.Blocks) :=
  ⟨wdoc_valid, wdoc_wf, wdoc_encBounded,
    C1_roundtrip wdoc wdoc_valid wdoc_wf wdoc_encBounded⟩

end Sqdoc
